import Mathlib

/-!
# Hypertable `IndexScannerCallback`: a shallow embedding

The development embeds `src/cc/Hypertable/Lib/IndexScannerCallback.h`, the result callback
that coordinates secondary-index scans, and proves properties of the embedded code.

Conventions of the embedding.

* A `const char *` is modelled by the list of bytes found from the pointer on (`Bytes`).  The
  C string it denotes is `cstr m`, the bytes before the first NUL; a read at or past the end of
  the list yields NUL (`byteAt`).
* `int` fields are `Int` and `size_t` fields are `Nat`, without wrap-around: a counter of the
  class overflows only after more than 2^31 cells or 2^64 bytes of keys.
* `HT_ASSERT` aborts the process: a function that can assert returns an `Outcome`.
* The wait on the condition variable in `verify_results` ends a callback as `blocked`:
  callbacks are delivered one at a time, so nothing can wake the waiter.
* Calls on the user's callback (`m_original_cb`) are recorded, in order, in the field `sink`.
* Collaborators outside the embedded file (`ScanSpecBuilder`, `Table::create_scanner_async`)
  are modelled from the specification and marked as such.
* `sizeof(KeySpec)` is a parameter of the functions that use it.
-/

namespace Hypertable

/-! ## Bytes and C strings -/

/-- Memory read from a `char *` on, one natural number per byte. -/
abbrev Bytes := List Nat

/-- The C string a pointer denotes: the bytes before the first NUL. -/
def cstr (m : Bytes) : Bytes := m.takeWhile (fun b => b != 0)

/-- The byte `m[i]`; the terminating NUL is implicit at the end of the list. -/
def byteAt (m : Bytes) (i : Nat) : Nat := m.getD i 0

/-- The function `strlen`. -/
def strlen (m : Bytes) : Nat := (cstr m).length

/-- The function `strcmp`, on unsigned bytes; the result is normalised to -1, 0 or 1. -/
def strcmp : Bytes → Bytes → Int
  | [], [] => 0
  | [], b :: _ => if b = 0 then 0 else -1
  | a :: _, [] => if a = 0 then 0 else 1
  | a :: as, b :: bs =>
    if a < b then -1 else if b < a then 1 else if a = 0 then 0 else strcmp as bs

/-- The test `p && p[0]` on a nullable `const char *`. -/
def present (p : Option Bytes) : Bool :=
  match p with
  | none => false
  | some m => byteAt m 0 != 0

/-- The string behind a nullable pointer (only read where `present` holds). -/
def deref (p : Option Bytes) : Bytes := p.getD []

/-! ## Scan specification (the fields the callback reads) -/

/-- The struct `RowInterval`. -/
structure RowInterval where
  start : Option Bytes
  start_inclusive : Bool
  end_ : Option Bytes
  end_inclusive : Bool
deriving DecidableEq, Repr

/-- The struct `CellInterval`. -/
structure CellInterval where
  start_row : Option Bytes
  start_column : Option Bytes
  start_inclusive : Bool
  end_row : Option Bytes
  end_column : Option Bytes
  end_inclusive : Bool
deriving DecidableEq, Repr

/-- The method `IndexScannerCallback::row_intervals_match`. -/
def row_intervals_match : List RowInterval → Bytes → Bool
  | [], _ => false
  | ri :: rivec, row =>
    if present ri.start &&
        (if ri.start_inclusive then decide (strcmp row (deref ri.start) < 0)
         else decide (strcmp row (deref ri.start) ≤ 0)) then
      row_intervals_match rivec row
    else if present ri.end_ &&
        (if ri.end_inclusive then decide (strcmp row (deref ri.end_) > 0)
         else decide (strcmp row (deref ri.end_) ≥ 0)) then
      row_intervals_match rivec row
    else true

/-- The method `IndexScannerCallback::cell_intervals_match`. -/
def cell_intervals_match : List CellInterval → Bytes → Bytes → Bool
  | [], _, _ => false
  | ci :: civec, row, column =>
    if present ci.start_row && decide (strcmp row (deref ci.start_row) > 0) then true
    else if present ci.start_row && decide (strcmp row (deref ci.start_row) < 0) then
      cell_intervals_match civec row column
    else if present ci.start_column &&
        (if ci.start_inclusive then decide (strcmp column (deref ci.start_column) < 0)
         else decide (strcmp column (deref ci.start_column) ≤ 0)) then
      cell_intervals_match civec row column
    else if present ci.end_row && decide (strcmp row (deref ci.end_row) < 0) then true
    else if present ci.end_row && decide (strcmp row (deref ci.end_row) > 0) then
      cell_intervals_match civec row column
    else if present ci.end_column &&
        (if ci.end_inclusive then decide (strcmp column (deref ci.end_column) > 0)
         else decide (strcmp column (deref ci.end_column) ≥ 0)) then
      cell_intervals_match civec row column
    else true

/-- The struct `ColumnPredicate`. -/
structure ColumnPredicate where
  column_family : Bytes
  operation : Nat
  value : Bytes
  value_len : Nat
deriving DecidableEq, Repr

/-- The class `ScanSpec`: the fields that the callback reads or that it sets through a
`ScanSpecBuilder`. -/
structure ScanSpec where
  row_limit : Int
  cell_limit : Int
  cell_limit_per_family : Int
  row_offset : Int
  cell_offset : Int
  max_versions : Nat
  columns : List Bytes
  row_intervals : List RowInterval
  cell_intervals : List CellInterval
  return_deletes : Bool
  keys_only : Bool
  row_regexp : Option Bytes
  value_regexp : Option Bytes
  time_interval : Int × Int
  column_predicates : List ColumnPredicate
deriving DecidableEq, Repr

/-- A freshly constructed `ScanSpecBuilder`: no limits, no rows, no columns, the whole
time range. -/
def ScanSpecBuilder : ScanSpec :=
  { row_limit := 0, cell_limit := 0, cell_limit_per_family := 0, row_offset := 0,
    cell_offset := 0, max_versions := 0, columns := [], row_intervals := [],
    cell_intervals := [], return_deletes := false, keys_only := false, row_regexp := none,
    value_regexp := none, time_interval := (-(2 : Int) ^ 63, (2 : Int) ^ 63 - 1),
    column_predicates := [] }

/-- Modelled from the spec: `ScanSpecBuilder::add_row` is declared in `ScanSpec.h`, outside the
embedded file.  The spec lists every added row "as an individual row": the row is copied as a
C string and becomes the row interval that holds this row alone. -/
def ScanSpec.add_row (ssb : ScanSpec) (str : Bytes) : ScanSpec :=
  { ssb with row_intervals := ssb.row_intervals ++
      [{ start := some (cstr str), start_inclusive := true,
         end_ := some (cstr str), end_inclusive := true }] }

/-- The rows a scan spec lists one by one. -/
def ScanSpec.rows (spec : ScanSpec) : List Bytes :=
  spec.row_intervals.map (fun ri => deref ri.start)

/-! ## Cells, keys and the candidate map -/

/-- The struct `Cell`. -/
structure Cell where
  row_key : Bytes
  column_family : Bytes
  column_qualifier : Bytes
  timestamp : Int
  value : Bytes
deriving DecidableEq, Repr

/-- The class `ScanCells`: a batch of cells and its end-of-stream flag. -/
structure ScanCells where
  cells : List Cell
  eos : Bool
deriving DecidableEq, Repr

/-- The struct `KeySpec`, as filled in by `collect_indices`. -/
structure KeySpec where
  row : Bytes
  row_len : Nat
  column_family : Bytes
  timestamp : Int
deriving DecidableEq, Repr

/-- The function `memcmp` on the first `n` bytes; the result is normalised to -1, 0 or 1. -/
def memcmp : Bytes → Bytes → Nat → Int
  | _, _, 0 => 0
  | a, b, n + 1 =>
    if byteAt a 0 < byteAt b 0 then -1
    else if byteAt b 0 < byteAt a 0 then 1
    else memcmp a.tail b.tail n

/-- The function `operator<` on `KeySpec`, the order of the candidate map. -/
def KeySpec.lt (lhs rhs : KeySpec) : Bool :=
  let len1 := strlen lhs.row
  let len2 := strlen rhs.row
  let cmp := memcmp lhs.row rhs.row (min len1 len2)
  if cmp > 0 then false
  else if cmp < 0 then true
  else if len1 < len2 then true
  else false

/-- The type `CkeyMap` (`std::map<KeySpec, bool>`; every stored value is `true`): the keys in
ascending order. -/
abbrev CkeyMap := List KeySpec

/-- The test `m.find(key) != m.end()`: some stored key is equivalent to `key`. -/
def CkeyMap.find (m : CkeyMap) (key : KeySpec) : Bool :=
  m.any (fun k => !KeySpec.lt k key && !KeySpec.lt key k)

/-- The method `std::map::insert`: an equivalent key that is already stored is kept. -/
def CkeyMap.insert : CkeyMap → KeySpec → CkeyMap
  | [], key => [key]
  | k :: m, key =>
    if KeySpec.lt key k then key :: k :: m
    else if KeySpec.lt k key then k :: CkeyMap.insert m key
    else k :: m

/-! ## Schema and column map -/

/-- The struct `Schema::ColumnFamily`: the fields the callback reads. -/
structure ColumnFamily where
  id : Nat
  name : Bytes
  has_index : Bool
  has_qualifier_index : Bool
deriving DecidableEq, Repr

/-- The member `m_column_map` (`std::map<uint32_t, String>`) as an association list. -/
abbrev ColumnMap := List (Nat × Bytes)

/-- The assignment `m[id] = name`. -/
def ColumnMap.set (m : ColumnMap) (id : Nat) (name : Bytes) : ColumnMap :=
  (id, name) :: m.filter (fun e => e.1 != id)

/-- The lookup `m.find(id)`. -/
def ColumnMap.find (m : ColumnMap) (id : Nat) : Option Bytes := m.lookup id

/-! ## The coordinator state -/

/-- The table a child scanner reads, as `scan_ok` classifies `scanner->get_table_name()`: the
index table (the base name starts with `^`), the primary table (the name of `m_primary_table`)
or anything else, which is the temporary table. -/
inductive TableKind where
  | index
  | temporary
  | primary
deriving DecidableEq, Repr

/-- A scanner made by `create_scanner_async`: the table it reads and its scan spec. -/
structure TableScannerAsync where
  table : TableKind
  spec : ScanSpec
deriving DecidableEq, Repr

/-- A call on the user's callback `m_original_cb`. -/
inductive SinkCall where
  | increment_outstanding
  | decrement_outstanding
  | scan_ok (cells : List Cell) (eos : Bool)
  | scan_error (error : Int) (error_msg : Bytes) (eos : Bool)
  | update_error (error : Int)
deriving DecidableEq, Repr

/-- The members of `IndexScannerCallback`, the writes made through the mutator of the temporary
table (`staged`) and the calls made on the user's callback (`sink`). -/
structure State where
  schema : List ColumnFamily
  m_primary_spec : ScanSpec
  m_scanners : List TableScannerAsync
  m_sspecs : List ScanSpec
  m_column_map : ColumnMap
  m_tmp_table : Option (List Bytes)
  m_mutator : Bool
  staged : List KeySpec
  m_row_limit : Int
  m_cell_limit : Int
  m_cell_count : Int
  m_row_offset : Int
  m_cell_offset : Int
  m_row_count : Int
  m_cell_limit_per_family : Int
  m_eos : Bool
  m_track_limits : Bool
  m_limits_reached : Bool
  m_readahead_count : Int
  m_last_rowkey_verify : Bytes
  m_last_rowkey_tracking : Bytes
  m_qualifier_scan : Bool
  m_tmp_keys : CkeyMap
  m_tmp_cutoff : Nat
  m_scancells_buffer : List ScanCells
  m_final_decrement : Bool
  m_outstanding_scanners : Int
  sink : List SinkCall
deriving DecidableEq, Repr

/-- How a callback ends: it returns, an `HT_ASSERT` aborts the process, or it waits on
`m_sspecs_cond` (under sequential delivery nothing can wake it). -/
inductive Outcome where
  | ok (s : State)
  | assert_failed
  | blocked (s : State)
deriving DecidableEq, Repr

/-- Sequencing: go on with `f` when the first part returned. -/
def Outcome.andThen (o : Outcome) (f : State → Outcome) : Outcome :=
  match o with
  | .ok s => f s
  | .assert_failed => .assert_failed
  | .blocked s => .blocked s

/-- The constant `SSB_QUEUE_LIMIT` (`TEST_SSB_QUEUE` is undefined). -/
def SSB_QUEUE_LIMIT : Nat := 40

/-- The constant `TMP_CUTOFF` (`TEST_SSB_QUEUE` is undefined). -/
def TMP_CUTOFF : Nat := 1024 * 1024

/-- The column map the constructor builds: the families that carry an index of either kind. -/
def build_column_map : List ColumnFamily → ColumnMap → ColumnMap
  | [], m => m
  | cf :: families, m =>
    if !cf.has_index && !cf.has_qualifier_index then build_column_map families m
    else build_column_map families (m.set cf.id cf.name)

/-- The constructor `IndexScannerCallback::IndexScannerCallback`. -/
def IndexScannerCallback (schema : List ColumnFamily) (primary_spec : ScanSpec)
    (qualifier_scan : Bool) : State :=
  let track := primary_spec.row_limit != 0 || primary_spec.cell_limit != 0 ||
    primary_spec.row_offset != 0 || primary_spec.cell_offset != 0 ||
    primary_spec.cell_limit_per_family != 0
  { schema := schema
    m_primary_spec := primary_spec
    m_scanners := []
    m_sspecs := []
    m_column_map := build_column_map schema []
    m_tmp_table := none
    m_mutator := false
    staged := []
    m_row_limit := if track then primary_spec.row_limit else 0
    m_cell_limit := if track then primary_spec.cell_limit else 0
    m_cell_count := 0
    m_row_offset := if track then primary_spec.row_offset else 0
    m_cell_offset := if track then primary_spec.cell_offset else 0
    m_row_count := 0
    m_cell_limit_per_family := if track then primary_spec.cell_limit_per_family else 0
    m_eos := false
    m_track_limits := track
    m_limits_reached := false
    m_readahead_count := 0
    m_last_rowkey_verify := []
    m_last_rowkey_tracking := []
    m_qualifier_scan := qualifier_scan
    m_tmp_keys := []
    m_tmp_cutoff := 0
    m_scancells_buffer := []
    m_final_decrement := false
    m_outstanding_scanners := 0
    sink := [SinkCall.increment_outstanding] }

/-- The method `register_scanner`. -/
def register_scanner (s : State) : State :=
  { s with m_outstanding_scanners := s.m_outstanding_scanners + 1 }

/-- The method `sspecs_clear`. -/
def sspecs_clear (s : State) : State := { s with m_sspecs := [] }

/-- Modelled from the spec: `Table::create_scanner_async` lives outside the embedded file.  The
spec has the child-scanner factory call `register_scanner` on the callback it is given.  The
caller then stores the new scanner with `m_scanners.push_back(s)`, which is done here too. -/
def create_scanner_async (s : State) (table : TableKind) (spec : ScanSpec) : State :=
  let s1 := register_scanner s
  { s1 with m_scanners := s1.m_scanners ++ [{ table := table, spec := spec }] }

/-! ## The finalizer -/

/-- The value of the local `final_eos` in `final_decrement`. -/
def final_eos (s : State) (is_eos : Bool) : Bool :=
  if s.m_track_limits then
    ((s.m_limits_reached && is_eos && s.m_eos) && decide (s.m_outstanding_scanners = 0))
      || (!s.m_limits_reached && (is_eos || s.m_eos) && decide (s.m_outstanding_scanners = 0))
  else
    (is_eos || s.m_eos) && decide (s.m_outstanding_scanners = 0)

/-- The method `IndexScannerCallback::final_decrement`. -/
def final_decrement (s : State) (is_eos : Bool) : Outcome :=
  if final_eos s is_eos then
    let s1 := { s with m_eos := true }
    if s1.m_final_decrement != false then .assert_failed
    else if !s1.m_final_decrement then
      .ok { s1 with
        sink := s1.sink ++ [SinkCall.scan_ok [] true, SinkCall.decrement_outstanding]
        m_final_decrement := true }
    else .ok s1
  else .ok s

/-! ## The index-row parser and the candidate stores -/

/-- The loop `while (*p != '\t' && p > (char *)cell.row_key) p--;`, on the offset of `p`. -/
def scan_back_tab (m : Bytes) : Nat → Nat
  | 0 => 0
  | p + 1 => if byteAt m (p + 1) != 9 then scan_back_tab m p else p + 1

/-- The loop `while (*r != ',' && (r - id <= 4)) r++;`, on the offset of `r`.  The body runs at
most five times, for the offsets 0 to 4; `fuel` counts the runs that are left. -/
def scan_comma (m : Bytes) : Nat → Nat → Nat
  | 0, r => r
  | fuel + 1, r =>
    if byteAt m r != 44 && decide (r ≤ 4) then scan_comma m fuel (r + 1) else r

/-- The function `isspace` in the C locale. -/
def isspace (b : Nat) : Bool := b == 32 || (decide (9 ≤ b) && decide (b ≤ 13))

/-- The function `isdigit`. -/
def isdigit (b : Nat) : Bool := decide (48 ≤ b) && decide (b ≤ 57)

/-- The digit loop of `atoi`. -/
def atoi_digits : Bytes → Nat → Nat
  | [], acc => acc
  | b :: bs, acc => if isdigit b then atoi_digits bs (acc * 10 + (b - 48)) else acc

/-- The function `atoi`: white space, an optional sign, then decimal digits. -/
def atoi (m : Bytes) : Int :=
  match m.dropWhile isspace with
  | 45 :: rest => -((atoi_digits rest 0 : Nat) : Int)
  | 43 :: rest => ((atoi_digits rest 0 : Nat) : Int)
  | rest => ((atoi_digits rest 0 : Nat) : Int)

/-- The cast `(uint32_t)`. -/
def to_uint32 (i : Int) : Nat := (i % (2 : Int) ^ 32).toNat

/-- The method `IndexScannerCallback::create_temp_table`; the table is represented by the
names of the column families of its schema. -/
def create_temp_table (s : State) : Outcome :=
  if s.m_tmp_table.isSome then .assert_failed
  else if s.m_mutator then .assert_failed
  else
    let inner := s.schema.filter (fun cf =>
      !((s.m_qualifier_scan && !cf.has_qualifier_index) ||
        (!s.m_qualifier_scan && !cf.has_index)))
    .ok { s with m_tmp_table := some (inner.map (fun cf => cf.name)), m_mutator := true }

/-- The lines of `collect_indices` that store the key of one surviving index entry. -/
def store_key (sizeof_KeySpec : Nat) (s : State) (key : KeySpec) : State :=
  let s1 :=
    if s.m_mutator then { s with staged := s.staged ++ [key] }
    else if !CkeyMap.find s.m_tmp_keys key then
      { s with m_tmp_keys := CkeyMap.insert s.m_tmp_keys key }
    else s
  { s1 with m_tmp_cutoff := s1.m_tmp_cutoff + (key.row_len + sizeof_KeySpec) }

/-- The body of the loop of `collect_indices` for one cell of the index table; every `continue`
returns the state as it is. -/
def collect_cell (sizeof_KeySpec : Nat) (s : State) (cell : Cell) : State :=
  let m := cell.row_key
  let p := scan_back_tab m (strlen m)
  if byteAt m p != 9 then s
  else
    let r := scan_comma m 5 0
    if byteAt m r != 44 then s
    else
      -- `*r++ = 0;`
      let m1 := m.set r 0
      let cfid := to_uint32 (atoi m1)
      if cfid == 0 || (ColumnMap.find s.m_column_map cfid).isNone then s
      else
        -- `*p++ = 0;`
        let m2 := m1.set p 0
        let row := m2.drop (p + 1)
        let column := (ColumnMap.find s.m_column_map cfid).getD []
        if !s.m_primary_spec.row_intervals.isEmpty &&
            !row_intervals_match s.m_primary_spec.row_intervals row then s
        else if !s.m_primary_spec.cell_intervals.isEmpty &&
            !cell_intervals_match s.m_primary_spec.cell_intervals row column then s
        else
          store_key sizeof_KeySpec s
            { row := row, row_len := strlen row, column_family := column,
              timestamp := cell.timestamp }

/-- The scan spec `collect_indices` prepares at the end of the index stream. -/
def index_eos_spec (spec : ScanSpec) : ScanSpec :=
  { ScanSpecBuilder with
    max_versions := spec.max_versions
    return_deletes := spec.return_deletes
    keys_only := spec.keys_only
    row_regexp := spec.row_regexp
    columns := spec.columns
    time_interval := spec.time_interval }

/-- The part of `collect_indices` from `// reached EOS? then flush the mutator` on; `eos` is
`scancells->get_eos()`. -/
def collect_indices_finish (s2 : State) (eos : Bool) : Outcome :=
  if eos then
    let s3 := if s2.m_mutator then { s2 with m_mutator := false } else s2
    if s3.m_tmp_table.isNone && s3.m_tmp_keys.isEmpty then .ok { s3 with m_eos := true }
    else
      let ssb := index_eos_spec s3.m_primary_spec
      if s3.m_tmp_table.isSome then .ok (create_scanner_async s3 TableKind.temporary ssb)
      else
        let ssb1 := s3.m_tmp_keys.foldl (fun b k => b.add_row k.row) ssb
        let ssb2 := { ssb1 with column_predicates :=
          ssb1.column_predicates ++ s3.m_primary_spec.column_predicates }
        let s4 := create_scanner_async s3 TableKind.primary ssb2
        .ok { s4 with m_tmp_keys := [], m_scancells_buffer := [] }
  else
    (if s2.m_tmp_table.isNone && decide (s2.m_tmp_cutoff > TMP_CUTOFF) then
        (create_temp_table s2).andThen (fun s3 =>
          .ok { s3 with staged := s3.staged ++ s3.m_tmp_keys })
      else .ok s2).andThen (fun s3 =>
        if s3.m_tmp_table.isSome then .ok { s3 with m_tmp_keys := [], m_scancells_buffer := [] }
        else .ok s3)

/-- The method `IndexScannerCallback::collect_indices`: the loop over the cells, the buffering
of the batch, then `collect_indices_finish`. -/
def collect_indices (sizeof_KeySpec : Nat) (s : State) (scancells : ScanCells) : Outcome :=
  let old_inserted_keys := s.m_tmp_keys.length
  let s1 := scancells.cells.foldl (collect_cell sizeof_KeySpec) s
  let s2 :=
    if !s1.m_mutator && decide (s1.m_tmp_keys.length > old_inserted_keys) then
      { s1 with m_scancells_buffer := s1.m_scancells_buffer ++ [scancells] }
    else s1
  collect_indices_finish s2 scancells.eos

/-! ## Verification and readahead -/

/-- The method `IndexScannerCallback::readahead`. -/
def readahead (s : State) : Outcome :=
  if s.m_limits_reached != false then .assert_failed
  else if s.m_eos != false then .assert_failed
  else
    match s.m_sspecs with
    | [] => .ok s
    | ssb :: rest =>
      let s1 := create_scanner_async { s with m_sspecs := rest } TableKind.primary ssb
      .ok { s1 with m_readahead_count := s1.m_readahead_count + 1 }

/-- The loop of `verify_results` (production variant) over the cells of a batch of the
temporary table: the running `last` and the scan spec under construction. -/
def verify_loop : List Cell → Bytes → ScanSpec → Bytes × ScanSpec
  | [], last, ssb => (last, ssb)
  | cell :: cells, last, ssb =>
    if strcmp last cell.row_key = 0 then verify_loop cells last ssb
    else verify_loop cells cell.row_key (ssb.add_row cell.row_key)

/-- The scan spec `verify_results` starts from. -/
def verify_spec (spec : ScanSpec) : ScanSpec :=
  { ScanSpecBuilder with
    columns := spec.columns
    max_versions := spec.max_versions
    return_deletes := spec.return_deletes
    column_predicates := spec.column_predicates
    value_regexp := spec.value_regexp }

/-- The method `IndexScannerCallback::verify_results`, production variant (`TEST_SSB_QUEUE` is
undefined).  The wait on `m_sspecs_cond` ends the callback as `blocked`. -/
def verify_results (s : State) (scancells : ScanCells) : Outcome :=
  if (scancells.eos && scancells.cells.isEmpty) || s.m_limits_reached then
    .ok { sspecs_clear s with m_eos := true }
  else
    let r := verify_loop scancells.cells (cstr s.m_last_rowkey_verify)
      (verify_spec s.m_primary_spec)
    let s1 := { s with m_last_rowkey_verify := cstr r.1 }
    if decide (s1.m_sspecs.length > SSB_QUEUE_LIMIT) && !s1.m_limits_reached then .blocked s1
    else if s1.m_limits_reached then .ok s1
    else
      let s2 := { s1 with m_sspecs := s1.m_sspecs ++ [r.2] }
      if s2.m_outstanding_scanners ≤ 0 then readahead s2 else .ok s2

/-! ## The predicate tracker -/

/-- The locals of `track_predicates` that live across the iterations of its loop. -/
structure TrackLocals where
  last : Bytes
  skip_row : Bool
  scp : List Cell
deriving DecidableEq, Repr

/-- One iteration of the loop of `track_predicates`; the boolean tells whether the iteration
left the loop with `break`. -/
def track_cell (s : State) (l : TrackLocals) (cell : Cell) : State × TrackLocals × Bool :=
  -- the part before `// check cell offset`: the state, the locals, `new_row`, `continue`
  let (s1, l1, new_row, cont) :=
    if strcmp l.last cell.row_key ≠ 0 then
      let l1 := { l with skip_row := false, last := cell.row_key }
      let s1 := if s.m_cell_limit_per_family ≠ 0 then { s with m_cell_count := 0 } else s
      if s1.m_row_offset ≠ 0 then
        ({ s1 with m_row_offset := s1.m_row_offset - 1 }, { l1 with skip_row := true },
          true, true)
      else (s1, l1, true, false)
    else if l.skip_row then (s, l, false, true)
    else (s, l, false, false)
  if cont then (s1, l1, false)
  else if s1.m_cell_offset ≠ 0 then ({ s1 with m_cell_offset := s1.m_cell_offset - 1 }, l1, false)
  else if s1.m_row_offset ≠ 0 then (s1, l1, false)
  else if s1.m_cell_limit ≠ 0 && decide (s1.m_cell_count ≥ s1.m_cell_limit) then
    ({ s1 with m_limits_reached := true }, l1, true)
  else if s1.m_row_limit ≠ 0 && new_row && decide (s1.m_row_count ≥ s1.m_row_limit) then
    ({ s1 with m_limits_reached := true }, l1, true)
  else
    let l2 :=
      if s1.m_cell_limit_per_family = 0 || decide (s1.m_cell_count < s1.m_cell_limit_per_family)
      then { l1 with scp := l1.scp ++ [cell] } else l1
    let s2 := { s1 with m_cell_count := s1.m_cell_count + 1 }
    let s3 := if new_row then { s2 with m_row_count := s2.m_row_count + 1 } else s2
    (s3, l2, false)

/-- The loop of `track_predicates`. -/
def track_loop : List Cell → State → TrackLocals → State × TrackLocals
  | [], s, l => (s, l)
  | cell :: cells, s, l =>
    match track_cell s l cell with
    | (s1, l1, true) => (s1, l1)
    | (s1, l1, false) => track_loop cells s1 l1

/-- The method `IndexScannerCallback::track_predicates`. -/
def track_predicates (s : State) (scancells : ScanCells) : State :=
  if (scancells.eos && scancells.cells.isEmpty) || s.m_limits_reached then
    { sspecs_clear s with m_eos := true }
  else
    let r := track_loop scancells.cells s
      { last := cstr s.m_last_rowkey_tracking, skip_row := false, scp := [] }
    let s1 := { r.1 with m_last_rowkey_tracking := cstr r.2.last }
    if r.2.scp.length ≠ 0 then { s1 with sink := s1.sink ++ [SinkCall.scan_ok r.2.scp false] }
    else s1

/-! ## The callbacks -/

/-- The method `IndexScannerCallback::scan_ok`. -/
def scan_ok (sizeof_KeySpec : Nat) (s : State) (table : TableKind) (scancells : ScanCells) :
    Outcome :=
  let is_eos := scancells.eos
  if scancells.eos == false && scancells.cells.isEmpty then .ok s
  else if is_eos && !decide (s.m_outstanding_scanners > 0) then .assert_failed
  else
    let s1 := if is_eos then { s with m_outstanding_scanners := s.m_outstanding_scanners - 1 }
      else s
    if s1.m_eos == true then
      if s1.m_outstanding_scanners = 0 then final_decrement s1 is_eos else .ok s1
    else
      (match table with
        | TableKind.index => collect_indices sizeof_KeySpec s1 scancells
        | TableKind.temporary => verify_results s1 scancells
        | TableKind.primary =>
          let scancells1 := { scancells with eos := false }
          let s2 :=
            if s1.m_track_limits then track_predicates s1 scancells1
            else { s1 with sink := s1.sink ++ [SinkCall.scan_ok scancells1.cells scancells1.eos] }
          if !s2.m_limits_reached && is_eos then readahead s2 else .ok s2).andThen
        (fun s3 => final_decrement s3 is_eos)

/-- The method `IndexScannerCallback::scan_error`. -/
def scan_error (s : State) (error : Int) (error_msg : Bytes) (eos : Bool) : State :=
  let s1 := { s with sink := s.sink ++ [SinkCall.scan_error error error_msg eos] }
  if eos then { s1 with sink := s1.sink ++ [SinkCall.decrement_outstanding] } else s1

/-- The method `IndexScannerCallback::update_ok`. -/
def update_ok (s : State) : State := s

/-- The method `IndexScannerCallback::update_error`. -/
def update_error (s : State) (error : Int) : State :=
  { s with sink := s.sink ++ [SinkCall.update_error error] }

/-- A callback delivered to the coordinator. -/
inductive Callback where
  | register_scanner
  | scan_ok (table : TableKind) (scancells : ScanCells)
  | scan_error (error : Int) (error_msg : Bytes) (eos : Bool)
  | update_ok
  | update_error (error : Int)
deriving DecidableEq, Repr

/-- The effect of one callback. -/
def deliver (sizeof_KeySpec : Nat) (s : State) : Callback → Outcome
  | .register_scanner => .ok (register_scanner s)
  | .scan_ok table scancells => scan_ok sizeof_KeySpec s table scancells
  | .scan_error error error_msg eos => .ok (scan_error s error error_msg eos)
  | .update_ok => .ok (update_ok s)
  | .update_error error => .ok (update_error s error)

/-- Callbacks delivered one at a time. -/
def run (sizeof_KeySpec : Nat) : State → List Callback → Outcome
  | s, [] => .ok s
  | s, cb :: cbs => (deliver sizeof_KeySpec s cb).andThen (fun s1 => run sizeof_KeySpec s1 cbs)

/-! ## Specification vocabulary -/

/-- Specification: the order of byte strings, bytewise lexicographic with a proper prefix before
its extensions, on the C strings two pointers denote. -/
def bytes_lt (a b : Bytes) : Prop := List.Lex (· < ·) (cstr a) (cstr b)

/-- Specification: `a` is before `b` in the order of byte strings, or the two are equal. -/
def bytes_le (a b : Bytes) : Prop := cstr a = cstr b ∨ bytes_lt a b

/-- Specification: a bound is absent (a null pointer) or the empty string. -/
def absent_or_empty (p : Option Bytes) : Prop := p = none ∨ cstr (deref p) = []

/-- Specification: `row` satisfies the start bound and the end bound of a row interval. -/
def row_interval_contains (ri : RowInterval) (row : Bytes) : Prop :=
  (absent_or_empty ri.start ∨
    (if ri.start_inclusive then bytes_le (deref ri.start) row
     else bytes_lt (deref ri.start) row)) ∧
  (absent_or_empty ri.end_ ∨
    (if ri.end_inclusive then bytes_le row (deref ri.end_)
     else bytes_lt row (deref ri.end_)))

instance (a b : Bytes) : Decidable (bytes_lt a b) := by
  unfold bytes_lt; infer_instance

instance (a b : Bytes) : Decidable (bytes_le a b) := by
  unfold bytes_le; infer_instance

instance (p : Option Bytes) : Decidable (absent_or_empty p) := by
  unfold absent_or_empty; infer_instance

instance (ri : RowInterval) (row : Bytes) : Decidable (row_interval_contains ri row) := by
  unfold row_interval_contains; infer_instance

/-- The record `scan_ok` works on after its bookkeeping of the end of a scanner. -/
def after_eos_bookkeeping (s : State) (is_eos : Bool) : State :=
  if is_eos then { s with m_outstanding_scanners := s.m_outstanding_scanners - 1 } else s

/-- The cells the user's callback has received, in order of arrival. -/
def forwarded : List SinkCall → List Cell
  | [] => []
  | SinkCall.scan_ok cells _ :: calls => cells ++ forwarded calls
  | _ :: calls => forwarded calls

/-- The batches of the user's callback that carry the end-of-stream flag. -/
def terminal_batches (calls : List SinkCall) : Nat :=
  (calls.filter (fun c => match c with
    | SinkCall.scan_ok _ eos => eos
    | _ => false)).length

/-- The calls of `decrement_outstanding` on the user's callback. -/
def decrements (calls : List SinkCall) : Nat :=
  (calls.filter (fun c => decide (c = SinkCall.decrement_outstanding))).length

/-- Batches of the primary table handed to `track_predicates` one after the other. -/
def track_batches (s : State) (batches : List ScanCells) : State :=
  batches.foldl track_predicates s

/-- Specification: two cells have the same row key. -/
def same_row (a b : Cell) : Bool := decide (cstr a.row_key = cstr b.row_key)

/-- Auxiliary: the rows of a sequence of cells by recursion on the sequence; it is
`List.splitBy same_row` (theorem `rows_eq_splitBy`). -/
def rows : List Cell → List (List Cell)
  | [] => []
  | [c] => [[c]]
  | c :: d :: cs =>
    if same_row c d then
      match rows (d :: cs) with
      | [] => [[c]]
      | g :: gs => (c :: g) :: gs
    else [c] :: rows (d :: cs)

/-- Specification: the cells of the first `n` rows, a row being a maximal run of cells with
equal row key. -/
def first_rows (n : Nat) (cells : List Cell) : List Cell :=
  ((cells.splitBy same_row).take n).flatten

/-- Auxiliary: what a reader that has last seen the row key `last` and may still start `k` rows
lets through. -/
def take_rows : Nat → Bytes → List Cell → List Cell
  | _, _, [] => []
  | k, last, c :: cs =>
    if cstr c.row_key = last then c :: take_rows k last cs
    else
      match k with
      | 0 => []
      | k + 1 => c :: take_rows k (cstr c.row_key) cs

/-- Auxiliary: the rows such a reader may still start and the row key it has last seen, after
the cells; `none` once a row had to be refused. -/
def after_rows : Nat → Bytes → List Cell → Option (Nat × Bytes)
  | k, last, [] => some (k, last)
  | k, last, c :: cs =>
    if cstr c.row_key = last then after_rows k last cs
    else
      match k with
      | 0 => none
      | k + 1 => after_rows k (cstr c.row_key) cs

/-- The tracker is configured with a row limit and nothing else. -/
def RowLimitOnly (s : State) (n : Int) : Prop :=
  s.m_row_limit = n ∧ s.m_row_offset = 0 ∧ s.m_cell_offset = 0 ∧ s.m_cell_limit = 0 ∧
    s.m_cell_limit_per_family = 0

/-- The tracker state seen through the auxiliary reader: `none` when the limits are reached,
else the rows that may still start and the persisted row key. -/
def TrackAbs (n : Int) (s : State) : Option (Nat × Bytes) → Prop
  | none => RowLimitOnly s n ∧ s.m_limits_reached = true
  | some (k, last) => RowLimitOnly s n ∧ s.m_limits_reached = false ∧
      s.m_row_count = n - (k : Int) ∧ cstr s.m_last_rowkey_tracking = last

/-- Specification: the decimal digits of `n` in ASCII, most significant first, in front of
`acc`; `fuel` bounds their number. -/
def decimal_aux : Nat → Nat → Bytes → Bytes
  | 0, _, acc => acc
  | fuel + 1, n, acc =>
    if n < 10 then (n + 48) :: acc else decimal_aux fuel (n / 10) ((n % 10 + 48) :: acc)

/-- Specification: the number `n` written in decimal, in ASCII. -/
def decimal (n : Nat) : Bytes := decimal_aux (n + 1) n []

/-- Specification: the id field of an index row key, the bytes before its first comma. -/
def id_field (m : Bytes) : Bytes := m.takeWhile (fun b => b != 44)

/-- Specification: a field is numeric when it is a non-empty string of decimal digits. -/
def numeric (field : Bytes) : Bool := !field.isEmpty && field.all isdigit

/-- Specification: the column family id `atoi` reads from the id field. -/
def cf_id (m : Bytes) : Nat := to_uint32 (atoi (id_field m))

/-- Specification: an index row key the parser drops: it has no tab byte, or no comma among the
six bytes inspected for one, or its id field reads as zero or as an id that is not in the
column map. -/
def malformed (column_map : ColumnMap) (m : Bytes) : Prop :=
  9 ∉ cstr m ∨ (∀ i, i ≤ 5 → byteAt m i ≠ 44) ∨ cf_id m = 0 ∨
    ColumnMap.find column_map (cf_id m) = none

instance (column_map : ColumnMap) (m : Bytes) : Decidable (malformed column_map m) := by
  unfold malformed; infer_instance

/-- Specification: a batch of the index table without the entries the parser drops. -/
def without_malformed (column_map : ColumnMap) (scancells : ScanCells) : ScanCells :=
  { scancells with
    cells := scancells.cells.filter (fun c => !decide (malformed column_map c.row_key)) }

/-- Specification: an outcome with the retained source batches left out of the state. -/
def forget_buffer : Outcome → Outcome
  | .ok s => .ok { s with m_scancells_buffer := [] }
  | .assert_failed => .assert_failed
  | .blocked s => .blocked { s with m_scancells_buffer := [] }

/-- The state a run ends in when every callback returned. -/
def Outcome.returned : Outcome → Option State
  | .ok s => some s
  | _ => none

/-! ## Example data -/

/-- A schema with the value-indexed column family `cf`, of id 1. -/
def ex_schema : List ColumnFamily :=
  [{ id := 1, name := [99, 102], has_index := true, has_qualifier_index := false }]

/-- A cell of the primary table in family `cf`. -/
def ex_cell (row : Bytes) (qualifier : Nat) : Cell :=
  { row_key := row, column_family := [99, 102], column_qualifier := [qualifier], timestamp := 0,
    value := [120] }

/-- A cell of the index table with the given row key. -/
def ex_index_cell (row : Bytes) : Cell :=
  { row_key := row, column_family := [118, 49], column_qualifier := [], timestamp := 0,
    value := [] }

/-- The index row key `1,v<TAB>k` for a primary row key of one byte `k`. -/
def ex_index_key (k : Nat) : Bytes := [49, 44, 118, 9, k]

/-- The index row key `1,row<TAB>val`. -/
def ex_key_row_val : Bytes := [49, 44, 114, 111, 119, 9, 118, 97, 108]

/-- The index row key `1x,v<TAB>row`. -/
def ex_key_1x : Bytes := [49, 120, 44, 118, 9, 114, 111, 119]

/-- The index row key `abc`. -/
def ex_key_abc : Bytes := [97, 98, 99]

/-- The index row key `9999,row<TAB>val`. -/
def ex_key_9999 : Bytes := [57, 57, 57, 57, 44, 114, 111, 119, 9, 118, 97, 108]

/-- A scan spec with `row_limit = 2` and nothing else. -/
def ex_row_limit_2 : ScanSpec := { ScanSpecBuilder with row_limit := 2 }

/-- A scan spec with `row_offset = 1` and nothing else. -/
def ex_row_offset_1 : ScanSpec := { ScanSpecBuilder with row_offset := 1 }

/-- A scan spec with `cell_limit = 1` and `cell_limit_per_family = 1`. -/
def ex_cell_limit_1 : ScanSpec :=
  { ScanSpecBuilder with cell_limit := 1, cell_limit_per_family := 1 }

/-- The direct-fetch run: the index scanner is registered and delivers the keys of the rows
`a`, `b`, `c` in one end-of-stream batch; the primary scanner the coordinator then opens
delivers the three rows in one end-of-stream batch. -/
def ex_direct_fetch_run : List Callback :=
  [Callback.register_scanner,
   Callback.scan_ok TableKind.index
     { cells := [ex_index_cell (ex_index_key 97), ex_index_cell (ex_index_key 98),
         ex_index_cell (ex_index_key 99)], eos := true },
   Callback.scan_ok TableKind.primary
     { cells := [ex_cell [97] 49, ex_cell [98] 49, ex_cell [99] 49], eos := true }]

/-- Two batches of the primary table: rows `a`, `a`, `b`, then `b`, `c`. -/
def ex_batches : List ScanCells :=
  [{ cells := [ex_cell [97] 49, ex_cell [97] 50, ex_cell [98] 49], eos := false },
   { cells := [ex_cell [98] 50, ex_cell [99] 49], eos := true }]

/-- The row interval from `m`, inclusive, to `t`, exclusive. -/
def ex_interval_m_t : RowInterval :=
  { start := some [109], start_inclusive := true, end_ := some [116], end_inclusive := false }

/-- The cell interval from `(b, c)` to `(d, c)`, both inclusive. -/
def ex_cell_interval : CellInterval :=
  { start_row := some [98], start_column := some [99], start_inclusive := true,
    end_row := some [100], end_column := some [99], end_inclusive := true }

/-- A fresh coordinator after its finalizer has sent the terminal batch. -/
def ex_finalized : State :=
  { IndexScannerCallback ex_schema ScanSpecBuilder false with
    m_eos := true
    m_final_decrement := true
    sink := [SinkCall.increment_outstanding, SinkCall.scan_ok [] true,
      SinkCall.decrement_outstanding] }

/-- A coordinator that has set `m_eos` while two child scanners are outstanding. -/
def ex_draining : State :=
  { IndexScannerCallback ex_schema ScanSpecBuilder false with
    m_eos := true
    m_outstanding_scanners := 2 }

/-- An index batch: a valid entry, `abc`, a valid entry and `9999,row<TAB>val`. -/
def ex_index_batch : ScanCells :=
  { cells := [ex_index_cell (ex_index_key 97), ex_index_cell ex_key_abc,
      ex_index_cell (ex_index_key 98), ex_index_cell ex_key_9999], eos := false }

/-! ## Parts of the callbacks on the index and staging paths -/

/-- The key `collect_indices` builds from one cell of the index table, for the column map and
the scan spec of the coordinator; `none` where the loop moves on with `continue`. -/
def entry_key (column_map : ColumnMap) (spec : ScanSpec) (cell : Cell) : Option KeySpec :=
  let m := cell.row_key
  let p := scan_back_tab m (strlen m)
  if byteAt m p != 9 then none
  else
    let r := scan_comma m 5 0
    if byteAt m r != 44 then none
    else
      let m1 := m.set r 0
      let cfid := to_uint32 (atoi m1)
      if cfid == 0 || (ColumnMap.find column_map cfid).isNone then none
      else
        let m2 := m1.set p 0
        let row := m2.drop (p + 1)
        let column := (ColumnMap.find column_map cfid).getD []
        if !spec.row_intervals.isEmpty && !row_intervals_match spec.row_intervals row then none
        else if !spec.cell_intervals.isEmpty &&
            !cell_intervals_match spec.cell_intervals row column then none
        else
          some { row := row, row_len := strlen row, column_family := column,
                 timestamp := cell.timestamp }

/-- The keys of the surviving entries of a list of cells of the index table, in order. -/
def entry_keys (s : State) (cells : List Cell) : List KeySpec :=
  cells.filterMap (entry_key s.m_column_map s.m_primary_spec)

/-- The method `std::map::insert` after the test `find(key) == end()`, as in `collect_indices`. -/
def CkeyMap.store (m : CkeyMap) (key : KeySpec) : CkeyMap :=
  if CkeyMap.find m key then m else CkeyMap.insert m key

/-- The bytes the counter `m_tmp_cutoff` grows by for a list of stored keys. -/
def cutoff_bytes (sizeof_KeySpec : Nat) (keys : List KeySpec) : Nat :=
  (keys.map (fun k => k.row_len + sizeof_KeySpec)).sum

/-- The first part of `collect_indices`: the loop over the cells of the batch and the
retention of a batch that brought a new key to the in-memory set. -/
def collect_loop (sizeof_KeySpec : Nat) (s : State) (scancells : ScanCells) : State :=
  let old_inserted_keys := s.m_tmp_keys.length
  let s1 := scancells.cells.foldl (collect_cell sizeof_KeySpec) s
  if !s1.m_mutator && decide (s1.m_tmp_keys.length > old_inserted_keys) then
    { s1 with m_scancells_buffer := s1.m_scancells_buffer ++ [scancells] }
  else s1

/-- The lines of `scan_ok` that hand a batch of the primary table to the user's callback,
through `track_predicates` where limits are tracked; `s1` is the state after the bookkeeping of
the end of a scanner. -/
def forward_primary (s1 : State) (scancells : ScanCells) : State :=
  if s1.m_track_limits then track_predicates s1 { scancells with eos := false }
  else { s1 with sink := s1.sink ++ [SinkCall.scan_ok scancells.cells false] }

/-- The scan specs `verify_results` builds for the batches of a staging stream, one per batch:
the loop of each call starts from `m_last_rowkey_verify` as the call before stored it. -/
def verify_stream (spec : ScanSpec) : Bytes → List ScanCells → List ScanSpec
  | _, [] => []
  | last, scancells :: rest =>
    (verify_loop scancells.cells (cstr last) (verify_spec spec)).2 ::
      verify_stream spec (cstr (verify_loop scancells.cells (cstr last) (verify_spec spec)).1)
        rest

/-! ## Specification vocabulary of the index and staging paths -/

/-- Specification: the keys of a candidate map are in strictly ascending order of their rows. -/
def Ascending (m : CkeyMap) : Prop := List.Pairwise (fun a b => bytes_lt a.row b.row) m

/-- Specification: the two candidate stores of the coordinator with what feeds them: the
staging table, its mutator, the in-memory candidate set and the retained source batches. -/
def candidate_stores (s : State) : Option (List Bytes) × Bool × CkeyMap × List ScanCells :=
  (s.m_tmp_table, s.m_mutator, s.m_tmp_keys, s.m_scancells_buffer)

/-- The state an outcome leaves behind: the state a callback returned with, or the state it
waits in. -/
def Outcome.reached : Outcome → Option State
  | .ok s => some s
  | .assert_failed => none
  | .blocked s => some s

/-- Specification: a step from `s` to `s1` that leaves the candidate stores alone and keeps the
readahead queue within `SSB_QUEUE_LIMIT + 1` entries. -/
def Keeps (s s1 : State) : Prop :=
  candidate_stores s1 = candidate_stores s ∧
    (s.m_sspecs.length ≤ SSB_QUEUE_LIMIT + 1 → s1.m_sspecs.length ≤ SSB_QUEUE_LIMIT + 1)

/-- Specification: where the staging table exists, the in-memory candidate set is empty and no
source batch is retained. -/
def OneStore (s : State) : Prop :=
  s.m_tmp_table.isSome = true → s.m_tmp_keys = [] ∧ s.m_scancells_buffer = []

/-- Specification: where the staging table exists, its mutator is open. -/
def MutatorOpen (s : State) : Prop :=
  s.m_tmp_table.isSome = true → s.m_mutator = true

/-- Specification: a callback that is not a batch of the index table. -/
def not_index_batch : Callback → Bool
  | Callback.scan_ok TableKind.index _ => false
  | _ => true

/-- Specification: no batch of the index table is delivered after an end-of-stream batch of
the index table, as when a single index scanner feeds the coordinator. -/
def one_index_stream : List Callback → Bool
  | [] => true
  | Callback.scan_ok TableKind.index scancells :: cbs =>
    if scancells.eos then cbs.all not_index_batch else one_index_stream cbs
  | _ :: cbs => one_index_stream cbs

/-- Specification: the row keys of a batch, in order. -/
def batch_keys (scancells : ScanCells) : List Bytes :=
  scancells.cells.map (fun c => cstr c.row_key)

/-- Specification: a list of keys with every key removed that equals the key immediately before
it; `last` is the key before the first. -/
def dedup_adjacent : Bytes → List Bytes → List Bytes
  | _, [] => []
  | last, k :: ks => if k = last then dedup_adjacent last ks else k :: dedup_adjacent k ks

/-- Specification: the last key of a list, `last` for the empty list. -/
def last_key : Bytes → List Bytes → Bytes
  | last, [] => last
  | _, k :: ks => last_key k ks

/-- Specification: `dedup_adjacent` on each batch of a stream, the key before the first key of a
batch being the last key of the batches before it. -/
def dedup_stream : Bytes → List (List Bytes) → List (List Bytes)
  | _, [] => []
  | last, keys :: rest => dedup_adjacent last keys :: dedup_stream (last_key last keys) rest

/-- Specification: a list of keys is sorted by row key. -/
def SortedKeys (keys : List Bytes) : Prop := keys.Pairwise bytes_le

instance (keys : List Bytes) : Decidable (SortedKeys keys) := by
  unfold SortedKeys; infer_instance

/-- Specification: two lists of candidate keys hold the same set of row keys. -/
def same_rows (a b : List KeySpec) : Prop :=
  ∀ r : Bytes, (∃ k ∈ a, cstr k.row = r) ↔ (∃ k ∈ b, cstr k.row = r)

/-- Specification: the keys of the surviving index entries of a list of index batches, in
order of arrival, for the column map and the scan spec of the coordinator `s`. -/
def surviving_keys (s : State) (batches : List ScanCells) : List KeySpec :=
  (batches.map (fun b => entry_keys s b.cells)).flatten

/-- Specification: the members of the coordinator that the processing of an index batch
before the end of the index stream leaves alone. -/
def index_frame (s s1 : State) : Prop :=
  s1.m_column_map = s.m_column_map ∧ s1.m_primary_spec = s.m_primary_spec ∧
    s1.m_eos = s.m_eos ∧ s1.m_outstanding_scanners = s.m_outstanding_scanners ∧
    s1.m_scanners = s.m_scanners ∧ s1.m_final_decrement = s.m_final_decrement

/-- Specification: the coordinator `s` while its one index scanner delivers, `keys` being the
keys of the surviving entries so far: no other scanner exists, and the row keys of `keys` are
either in the in-memory set, in ascending order, or have been written to the staging
mutator. -/
def Collecting (s0 s : State) (keys : List KeySpec) : Prop :=
  (s.m_column_map = s0.m_column_map ∧ s.m_primary_spec = s0.m_primary_spec ∧
    s.m_eos = false ∧ s.m_outstanding_scanners = 1 ∧ s.m_scanners = [] ∧
    s.m_final_decrement = false) ∧
  ((s.m_tmp_table = none ∧ s.m_mutator = false ∧ s.staged = [] ∧
      Ascending s.m_tmp_keys ∧ same_rows s.m_tmp_keys keys) ∨
    (s.m_tmp_table.isSome = true ∧ s.m_mutator = true ∧ same_rows s.staged keys))

/-- Specification: what the end of the index stream hands to the next stage, `keys` being the
keys of the surviving entries: without a staging table, no scanner if there is no key and else
one scanner on the primary table whose row list holds the row keys of `keys` once each, in
ascending order; with a staging table, one scanner on it, the row keys of `keys` being those
written to the staging mutator. -/
def HandedOver (s0 s : State) (keys : List KeySpec) : Prop :=
  (s.m_tmp_table = none →
    (keys = [] → s.m_scanners = []) ∧
    (keys ≠ [] → ∃ sp : ScanSpec,
      s.m_scanners = [{ table := TableKind.primary, spec := sp }] ∧
      sp.rows.Pairwise (List.Lex (· < ·)) ∧
      ∀ r : Bytes, r ∈ sp.rows ↔ ∃ k ∈ keys, cstr k.row = r)) ∧
  (s.m_tmp_table.isSome = true →
    s.m_scanners = [{ table := TableKind.temporary, spec := index_eos_spec s0.m_primary_spec }] ∧
    same_rows s.staged keys)

/-! ## Example data of the index and staging paths -/

/-- The key of row `a` that the parser builds from the index row key `1,v<TAB>a`. -/
def ex_key_a : KeySpec :=
  { row := [97], row_len := 1, column_family := [99, 102], timestamp := 0 }

/-- An index batch without end-of-stream that holds the entry `1,v<TAB>a` 16200 times, more
than `TMP_CUTOFF` bytes of keys. -/
def ex_big_index_batch : ScanCells :=
  { cells := List.replicate 16200 (ex_index_cell (ex_index_key 97)), eos := false }

/-- The callbacks that bring a coordinator to the staging path: the index scanner is registered,
delivers the big batch and then its end-of-stream batch, which is empty. -/
def ex_staging_run : List Callback :=
  [Callback.register_scanner,
   Callback.scan_ok TableKind.index ex_big_index_batch,
   Callback.scan_ok TableKind.index { cells := [], eos := true }]

/-- A scan spec with `cell_limit = 1` and nothing else. -/
def ex_cell_limit_one : ScanSpec := { ScanSpecBuilder with cell_limit := 1 }

/-- Two index scanners: both are registered, the first delivers the big batch and its empty
end-of-stream batch, then the second delivers the key of row `b` in its end-of-stream batch. -/
def ex_two_index_scanners_run : List Callback :=
  [Callback.register_scanner,
   Callback.register_scanner,
   Callback.scan_ok TableKind.index ex_big_index_batch,
   Callback.scan_ok TableKind.index { cells := [], eos := true },
   Callback.scan_ok TableKind.index { cells := [ex_index_cell (ex_index_key 98)], eos := true }]

/-- The first `n` batches of a staging scanner, none the last: batch `i` holds one cell, of the
row whose one byte is `97 + i`. -/
def ex_staging_batches (n : Nat) : List Callback :=
  (List.range n).map (fun i =>
    Callback.scan_ok TableKind.temporary { cells := [ex_cell [97 + i] 49], eos := false })

/-- The coordinator on the staging path with one scan spec in the readahead queue: the state
after `ex_staging_run` and a batch of the staging table with the row `a`. -/
def ex_staging_one_queued : State :=
  { IndexScannerCallback ex_schema ScanSpecBuilder false with
    m_tmp_table := some [[99, 102]]
    staged := [ex_key_a]
    m_tmp_cutoff := 1053000
    m_outstanding_scanners := 1
    m_scanners := [{ table := TableKind.temporary, spec := index_eos_spec ScanSpecBuilder }]
    m_sspecs := [(verify_spec ScanSpecBuilder).add_row [97]]
    m_last_rowkey_verify := [97] }

/-- The staging path followed by a first batch of the staging scanner, with the row `a`. -/
def ex_staging_first_batch : List Callback :=
  ex_staging_run ++
    [Callback.scan_ok TableKind.temporary { cells := [ex_cell [97] 49], eos := false }]

/-- A schema with the value-indexed family `cf`, of id 1, and the family `pl`, of id 2, that
carries no index. -/
def ex_schema_plain : List ColumnFamily :=
  [{ id := 1, name := [99, 102], has_index := true, has_qualifier_index := false },
   { id := 2, name := [112, 108], has_index := false, has_qualifier_index := false }]

/-- The index row key `2,v<TAB>a`. -/
def ex_key_family_2 : Bytes := [50, 44, 118, 9, 97]

/-- A batch of the staging table with a cell of the empty row key before a cell of row `a`. -/
def ex_empty_key_batch : ScanCells :=
  { cells := [ex_cell [] 49, ex_cell [97] 49], eos := false }

/-- The last batch of an index scanner: the entry `1,v<TAB>a` once more, with end-of-stream. -/
def ex_last_index_batch : ScanCells :=
  { cells := [ex_index_cell (ex_index_key 97)], eos := true }

/-! ## Vocabulary and example data of the per-family limit and of the switch rule -/

/-- Specification: of every row (maximal run of cells with equal row key) its first `k` cells,
whatever their column families. -/
def first_cells (k : Nat) (cells : List Cell) : List Cell :=
  ((cells.splitBy same_row).map (List.take k)).flatten

/-- Auxiliary: what a reader lets through that has last seen the row key `last` and `count`
cells of that row, and passes on the first `k` cells of a row. -/
def take_cells (k : Nat) : Nat → Bytes → List Cell → List Cell
  | _, _, [] => []
  | count, last, c :: cs =>
    if cstr c.row_key = last then
      (if count < k then [c] else []) ++ take_cells k (count + 1) last cs
    else (if 0 < k then [c] else []) ++ take_cells k 1 (cstr c.row_key) cs

/-- Auxiliary: the cells such a reader has seen of the row it is in, and the key of that row,
after the cells. -/
def after_cells : Nat → Bytes → List Cell → Nat × Bytes
  | count, last, [] => (count, last)
  | count, last, c :: cs =>
    if cstr c.row_key = last then after_cells (count + 1) last cs
    else after_cells 1 (cstr c.row_key) cs

/-- The tracker is configured with a cell limit per family and nothing else. -/
def FamilyLimitOnly (s : State) (k : Int) : Prop :=
  s.m_cell_limit_per_family = k ∧ s.m_row_offset = 0 ∧ s.m_cell_offset = 0 ∧
    s.m_cell_limit = 0 ∧ s.m_row_limit = 0

/-- The tracker state seen through the auxiliary reader of `take_cells`: the cells counted in
the current row and the persisted row key; the limits are not reached. -/
def FamilyAbs (k : Int) (s : State) (a : Nat × Bytes) : Prop :=
  FamilyLimitOnly s k ∧ s.m_limits_reached = false ∧ s.m_cell_count = (a.1 : Int) ∧
    cstr s.m_last_rowkey_tracking = a.2

/-- A scan spec with `cell_limit_per_family = 1` and nothing else. -/
def ex_family_limit_one : ScanSpec := { ScanSpecBuilder with cell_limit_per_family := 1 }

/-- A row of the staging table whose cells arrive in two batches: a first batch with one cell of
row `a`, then the last batch of the staging scanner with another cell of row `a`. -/
def ex_row_in_two_batches : List Callback :=
  [Callback.scan_ok TableKind.temporary { cells := [ex_cell [97] 49], eos := false },
   Callback.scan_ok TableKind.temporary { cells := [ex_cell [97] 50], eos := true }]

/-- Specification: the switch rule as a property of a state: the staging table exists exactly
when the byte counter exceeds `TMP_CUTOFF`, and where it exists the in-memory set is empty. -/
def SwitchRule (s : State) : Prop :=
  (s.m_tmp_table.isSome = true ↔ s.m_tmp_cutoff > TMP_CUTOFF) ∧
    (s.m_tmp_table.isSome = true → s.m_tmp_keys = [])

/-- The big index batch as the last batch of its scanner: the entry `1,v<TAB>a` 16200 times,
with end-of-stream. -/
def ex_big_last_index_batch : ScanCells :=
  { cells := List.replicate 16200 (ex_index_cell (ex_index_key 97)), eos := true }

/-- A schema with the family `cf`, of id 1, that carries a value index only, and the family
`q`, of id 2, that carries a qualifier index only. -/
def ex_schema_two_indexes : List ColumnFamily :=
  [{ id := 1, name := [99, 102], has_index := true, has_qualifier_index := false },
   { id := 2, name := [113], has_index := false, has_qualifier_index := true }]

/-! # Theorems -/

/-! ## C strings -/

theorem strcmp_eq_zero_iff (a b : Bytes) : strcmp a b = 0 ↔ cstr a = cstr b := by
  induction a generalizing b with
  | nil =>
    cases b with
    | nil => simp [strcmp, cstr]
    | cons y ys =>
      by_cases hy : y = 0
      · simp [strcmp, cstr, hy]
      · simp [strcmp, cstr, hy]
  | cons x xs ih =>
    cases b with
    | nil =>
      by_cases hx : x = 0
      · simp [strcmp, cstr, hx]
      · simp [strcmp, cstr, hx]
    | cons y ys =>
      rcases Nat.lt_trichotomy x y with h | h | h
      · have hy : y ≠ 0 := by omega
        have hxy : x ≠ y := by omega
        by_cases hx : x = 0
        · simp [strcmp, cstr, h, hx, hy]
        · simp [strcmp, cstr, h, hx, hy, hxy]
      · subst h
        by_cases hx : x = 0
        · simp [strcmp, cstr, hx]
        · have := ih ys
          simp only [cstr] at this
          simp [strcmp, cstr, hx, this]
      · have hx : x ≠ 0 := by omega
        have hxy : x ≠ y := by omega
        have hn : ¬ x < y := by omega
        have hp : 0 < x := by omega
        by_cases hy : y = 0
        · subst hy
          simp [strcmp, cstr, hx, hp]
        · simp [strcmp, cstr, h, hx, hy, hxy, hn]

theorem strcmp_neg_iff (a b : Bytes) :
    strcmp a b < 0 ↔ bytes_lt a b := by
  unfold bytes_lt
  induction a generalizing b with
  | nil =>
    cases b with
    | nil => simp [strcmp, cstr]
    | cons y ys =>
      by_cases hy : y = 0
      · simp [strcmp, cstr, hy]
      · simp [strcmp, cstr, hy, List.Lex.nil]
  | cons x xs ih =>
    cases b with
    | nil =>
      by_cases hx : x = 0
      · simp [strcmp, cstr, hx]
      · simp [strcmp, cstr, hx]
    | cons y ys =>
      rcases Nat.lt_trichotomy x y with h | h | h
      · have hy : y ≠ 0 := by omega
        by_cases hx : x = 0
        · subst hx
          simp [strcmp, cstr, h, hy, List.Lex.nil]
        · simp [strcmp, cstr, h, hx, hy, List.Lex.rel h]
      · subst h
        by_cases hx : x = 0
        · simp [strcmp, cstr, hx]
        · have := ih ys
          simp only [cstr] at this
          simp [strcmp, cstr, hx, this, List.Lex.cons_iff]
      · have hx : x ≠ 0 := by omega
        have hn : ¬ x < y := by omega
        have hp : 0 < x := by omega
        by_cases hy : y = 0
        · subst hy
          simp [strcmp, cstr, hx, hp]
        · have hne : x ≠ y := by omega
          simp [strcmp, cstr, h, hx, hy, hn]
          intro hl
          cases hl with
          | cons h' => exact hne rfl
          | rel h' => exact hn h'


theorem strcmp_swap (a b : Bytes) : strcmp b a = - strcmp a b := by
  induction a generalizing b with
  | nil =>
    cases b with
    | nil => simp [strcmp]
    | cons y ys => by_cases hy : y = 0 <;> simp [strcmp, hy]
  | cons x xs ih =>
    cases b with
    | nil => by_cases hx : x = 0 <;> simp [strcmp, hx]
    | cons y ys =>
      rcases Nat.lt_trichotomy x y with h | h | h
      · have hn : ¬ y < x := by omega
        simp [strcmp, h, hn]
      · subst h
        by_cases hx : x = 0
        · simp [strcmp, hx]
        · simp [strcmp, hx, ih ys]
      · have hn : ¬ x < y := by omega
        simp [strcmp, h, hn]

theorem strcmp_pos_iff (a b : Bytes) : 0 < strcmp a b ↔ bytes_lt b a := by
  have h := strcmp_neg_iff b a
  rw [strcmp_swap a b] at h
  rw [← h]
  omega

theorem strcmp_nonneg_iff (a b : Bytes) : 0 ≤ strcmp a b ↔ bytes_le b a := by
  have h1 := strcmp_pos_iff a b
  have h2 := strcmp_eq_zero_iff a b
  unfold bytes_le
  rw [← h1, eq_comm, ← h2]
  omega

theorem strcmp_nonpos_iff (a b : Bytes) : strcmp a b ≤ 0 ↔ bytes_le a b := by
  have h := strcmp_nonneg_iff b a
  rw [strcmp_swap a b] at h
  rw [← h]
  omega

theorem present_eq_false_iff (p : Option Bytes) : present p = false ↔ absent_or_empty p := by
  cases p with
  | none => simp [present, absent_or_empty]
  | some m =>
    cases m with
    | nil => simp [present, absent_or_empty, deref, cstr, byteAt]
    | cons x xs =>
      by_cases hx : x = 0 <;> simp [present, absent_or_empty, deref, cstr, byteAt, hx]

/-! ## Row intervals -/

theorem start_bound_iff (p : Option Bytes) (incl : Bool) (row : Bytes) :
    (present p && (if incl then decide (strcmp row (deref p) < 0)
        else decide (strcmp row (deref p) ≤ 0))) = false ↔
      (absent_or_empty p ∨ (if incl then bytes_le (deref p) row else bytes_lt (deref p) row)) := by
  rw [← present_eq_false_iff]
  cases incl
  · simp only [Bool.false_eq_true, if_false, Bool.and_eq_false_imp, decide_eq_false_iff_not,
      not_le, strcmp_pos_iff]
    cases present p <;> simp
  · simp only [if_true, Bool.and_eq_false_imp, decide_eq_false_iff_not, not_lt,
      strcmp_nonneg_iff]
    cases present p <;> simp

theorem end_bound_iff (p : Option Bytes) (incl : Bool) (row : Bytes) :
    (present p && (if incl then decide (strcmp row (deref p) > 0)
        else decide (strcmp row (deref p) ≥ 0))) = false ↔
      (absent_or_empty p ∨ (if incl then bytes_le row (deref p) else bytes_lt row (deref p))) := by
  rw [← present_eq_false_iff]
  cases incl
  · simp only [Bool.false_eq_true, if_false, Bool.and_eq_false_imp, decide_eq_false_iff_not,
      ge_iff_le, not_le, strcmp_neg_iff]
    cases present p <;> simp
  · simp only [if_true, Bool.and_eq_false_imp, decide_eq_false_iff_not, gt_iff_lt, not_lt,
      strcmp_nonpos_iff]
    cases present p <;> simp

theorem row_intervals_match_iff (rivec : List RowInterval) (row : Bytes) :
    row_intervals_match rivec row = true ↔ ∃ ri ∈ rivec, row_interval_contains ri row := by
  induction rivec with
  | nil => simp [row_intervals_match]
  | cons ri rivec ih =>
    have h1 := start_bound_iff ri.start ri.start_inclusive row
    have h2 := end_bound_iff ri.end_ ri.end_inclusive row
    rw [row_intervals_match]
    generalize hA : (present ri.start &&
        (if ri.start_inclusive then decide (strcmp row (deref ri.start) < 0)
         else decide (strcmp row (deref ri.start) ≤ 0))) = A at h1 ⊢
    generalize hB : (present ri.end_ &&
        (if ri.end_inclusive then decide (strcmp row (deref ri.end_) > 0)
         else decide (strcmp row (deref ri.end_) ≥ 0))) = B at h2 ⊢
    have hc : row_interval_contains ri row ↔ (A = false ∧ B = false) := by
      unfold row_interval_contains
      rw [h1, h2]
    simp only [List.mem_cons, exists_eq_or_imp, hc, ← ih]
    cases A <;> cases B <;> simp

/-! ## The finalizer and a coordinator that has set `m_eos` -/

theorem final_decrement_of_eos (s : State) (is_eos : Bool) (h : s.m_eos = true) :
    (final_decrement s is_eos = .assert_failed ∧ s.m_final_decrement = true) ∨
    ∃ fired : Bool, final_decrement s is_eos = .ok
      { s with
        m_final_decrement := s.m_final_decrement || fired
        sink := s.sink ++ (if fired then
          [SinkCall.scan_ok [] true, SinkCall.decrement_outstanding] else []) } := by
  unfold final_decrement
  cases hf : final_eos s is_eos
  · right
    refine ⟨false, ?_⟩
    cases s
    simp
  · cases hfd : s.m_final_decrement
    · right
      refine ⟨true, ?_⟩
      cases s
      simp at h hfd
      simp [h, hfd]
    · left
      simp

theorem scan_ok_of_eos (sizeof_KeySpec : Nat) (s : State) (table : TableKind)
    (scancells : ScanCells) (h : s.m_eos = true) :
    scan_ok sizeof_KeySpec s table scancells =
      if scancells.eos == false && scancells.cells.isEmpty then .ok s
      else if scancells.eos && !decide (s.m_outstanding_scanners > 0) then .assert_failed
      else if (after_eos_bookkeeping s scancells.eos).m_outstanding_scanners = 0 then
        final_decrement (after_eos_bookkeeping s scancells.eos) scancells.eos
      else .ok (after_eos_bookkeeping s scancells.eos) := by
  have h' : (after_eos_bookkeeping s scancells.eos).m_eos = true := by
    unfold after_eos_bookkeeping
    split <;> simp [h]
  unfold scan_ok
  simp only [after_eos_bookkeeping] at h' ⊢
  simp only [h', beq_self_eq_true, if_true]

/-! ## The predicate tracker with a row limit -/

theorem cstr_idem (m : Bytes) : cstr (cstr m) = cstr m := by
  unfold cstr
  simp only [List.takeWhile_eq_self_iff]
  intro x hx
  exact List.mem_takeWhile_imp (p := fun b => b != 0) hx

theorem track_cell_same (s : State) (l : TrackLocals) (c : Cell) (n : Int)
    (hc : RowLimitOnly s n) (hs : l.skip_row = false) (hk : cstr c.row_key = cstr l.last) :
    track_cell s l c =
      ({ s with m_cell_count := s.m_cell_count + 1 }, { l with scp := l.scp ++ [c] }, false) := by
  obtain ⟨h1, h2, h3, h4, h5⟩ := hc
  have h0 : strcmp l.last c.row_key = 0 := (strcmp_eq_zero_iff _ _).2 hk.symm
  unfold track_cell
  simp [h0, hs, h2, h3, h4, h5]

theorem track_cell_refuse (s : State) (l : TrackLocals) (c : Cell) (n : Int)
    (hc : RowLimitOnly s n) (hn : 0 < n) (hk : cstr c.row_key ≠ cstr l.last)
    (hr : n ≤ s.m_row_count) :
    track_cell s l c =
      ({ s with m_limits_reached := true }, { l with skip_row := false, last := c.row_key },
        true) := by
  obtain ⟨h1, h2, h3, h4, h5⟩ := hc
  have h0 : strcmp l.last c.row_key ≠ 0 := fun h => hk ((strcmp_eq_zero_iff _ _).1 h).symm
  have hn0 : n ≠ 0 := by omega
  unfold track_cell
  simp [h0, h1, h2, h3, h4, h5, hn0, hr]

theorem track_cell_start (s : State) (l : TrackLocals) (c : Cell) (n : Int)
    (hc : RowLimitOnly s n) (hk : cstr c.row_key ≠ cstr l.last)
    (hr : s.m_row_count < n) :
    track_cell s l c =
      ({ s with m_cell_count := s.m_cell_count + 1, m_row_count := s.m_row_count + 1 },
        { last := c.row_key, skip_row := false, scp := l.scp ++ [c] }, false) := by
  obtain ⟨h1, h2, h3, h4, h5⟩ := hc
  have h0 : strcmp l.last c.row_key ≠ 0 := fun h => hk ((strcmp_eq_zero_iff _ _).1 h).symm
  have hr' : ¬ n ≤ s.m_row_count := by omega
  unfold track_cell
  simp [h0, h1, h2, h3, h4, h5, hr']


theorem track_loop_row_limit (n : Int) (hn : 0 < n) (cells : List Cell) :
    ∀ (s : State) (l : TrackLocals) (k : Nat),
      RowLimitOnly s n → s.m_limits_reached = false → s.m_row_count = n - (k : Int) →
      l.skip_row = false →
      (track_loop cells s l).2.scp = l.scp ++ take_rows k (cstr l.last) cells ∧
      (track_loop cells s l).1.sink = s.sink ∧
      TrackAbs n { (track_loop cells s l).1 with
          m_last_rowkey_tracking := cstr (track_loop cells s l).2.last }
        (after_rows k (cstr l.last) cells) := by
  induction cells with
  | nil =>
    intro s l k hc hl hr hs
    simp [track_loop, take_rows, after_rows, TrackAbs, RowLimitOnly, hl, hr, cstr_idem]
    exact hc
  | cons c cs ih =>
    intro s l k hc hl hr hs
    by_cases hk : cstr c.row_key = cstr l.last
    · rw [track_loop, track_cell_same s l c n hc hs hk]
      have := ih { s with m_cell_count := s.m_cell_count + 1 } { l with scp := l.scp ++ [c] } k
        hc hl hr hs
      simp only [take_rows, after_rows, hk, if_true]
      simp only [List.append_assoc, List.singleton_append] at this
      exact this
    · cases k with
      | zero =>
        have hr' : n ≤ s.m_row_count := by simp at hr; omega
        rw [track_loop, track_cell_refuse s l c n hc hn hk hr']
        simp [take_rows, after_rows, hk, TrackAbs, RowLimitOnly]
        exact hc
      | succ k =>
        have hr' : s.m_row_count < n := by push_cast at hr; omega
        rw [track_loop, track_cell_start s l c n hc hk hr']
        have := ih { s with m_cell_count := s.m_cell_count + 1, m_row_count := s.m_row_count + 1 }
          { last := c.row_key, skip_row := false, scp := l.scp ++ [c] } k
          hc hl (by simp only [hr]; push_cast; ring) rfl
        simp only [take_rows, after_rows, hk, if_false]
        simp only [List.append_assoc, List.singleton_append] at this
        exact this

theorem forwarded_append (a b : List SinkCall) : forwarded (a ++ b) = forwarded a ++ forwarded b := by
  induction a with
  | nil => rfl
  | cons x xs ih => cases x <;> simp [forwarded, ih]

theorem TrackAbs_sink (n : Int) (s : State) (calls : List SinkCall) (a : Option (Nat × Bytes)) :
    TrackAbs n { s with sink := calls } a ↔ TrackAbs n s a := by
  cases a <;> exact Iff.rfl

theorem track_predicates_row_limit (n : Int) (hn : 0 < n) (s : State) (b : ScanCells)
    (k : Nat) (last : Bytes) (h : TrackAbs n s (some (k, last))) :
    TrackAbs n (track_predicates s b) (after_rows k last b.cells) ∧
      forwarded (track_predicates s b).sink = forwarded s.sink ++ take_rows k last b.cells := by
  obtain ⟨hc, hl, hr, hlast⟩ := h
  subst hlast
  unfold track_predicates
  by_cases he : (b.eos && b.cells.isEmpty) = true
  · have hcells : b.cells = [] := by
      simp only [Bool.and_eq_true, List.isEmpty_iff] at he
      exact he.2
    rw [if_pos (by simp [he]), hcells]
    simp only [after_rows, take_rows, List.append_nil]
    exact ⟨⟨hc, hl, hr, rfl⟩, rfl⟩
  · rw [if_neg (by simp only [hl, Bool.or_false]; exact he)]
    have hloop := track_loop_row_limit n hn b.cells s
      { last := cstr s.m_last_rowkey_tracking, skip_row := false, scp := [] } k hc hl hr rfl
    simp only [cstr_idem, List.nil_append] at hloop
    obtain ⟨h1, h2, h3⟩ := hloop
    dsimp only
    by_cases hlen : (track_loop b.cells s
        { last := cstr s.m_last_rowkey_tracking, skip_row := false, scp := [] }).2.scp.length ≠ 0
    · rw [if_pos hlen]
      refine ⟨(TrackAbs_sink n _ _ _).2 h3, ?_⟩
      simp only [forwarded_append, forwarded, h1, h2, List.append_nil]
    · rw [if_neg hlen]
      refine ⟨h3, ?_⟩
      simp only [ne_eq, List.length_eq_zero, not_not] at hlen
      show forwarded (track_loop b.cells s
        { last := cstr s.m_last_rowkey_tracking, skip_row := false, scp := [] }).1.sink = _
      rw [h2, ← h1, hlen, List.append_nil]

theorem track_predicates_limits_reached (n : Int) (s : State) (b : ScanCells)
    (h : TrackAbs n s none) :
    TrackAbs n (track_predicates s b) none ∧
      forwarded (track_predicates s b).sink = forwarded s.sink := by
  obtain ⟨hc, hl⟩ := h
  unfold track_predicates
  rw [if_pos (by simp [hl])]
  exact ⟨⟨hc, hl⟩, rfl⟩

theorem take_rows_append (xs ys : List Cell) : ∀ (k : Nat) (last : Bytes),
    take_rows k last (xs ++ ys) = take_rows k last xs ++
      (match after_rows k last xs with
        | none => []
        | some a => take_rows a.1 a.2 ys) := by
  induction xs with
  | nil => intro k last; simp [take_rows, after_rows]
  | cons c cs ih =>
    intro k last
    by_cases hk : cstr c.row_key = last
    · simp [take_rows, after_rows, hk, ih]
    · cases k with
      | zero => simp [take_rows, after_rows, hk]
      | succ k => simp [take_rows, after_rows, hk, ih]

theorem after_rows_append (xs ys : List Cell) : ∀ (k : Nat) (last : Bytes),
    after_rows k last (xs ++ ys) =
      (match after_rows k last xs with
        | none => none
        | some a => after_rows a.1 a.2 ys) := by
  induction xs with
  | nil => intro k last; simp [after_rows]
  | cons c cs ih =>
    intro k last
    by_cases hk : cstr c.row_key = last
    · simp [after_rows, hk, ih]
    · cases k with
      | zero => simp [after_rows, hk]
      | succ k => simp [after_rows, hk, ih]

theorem track_batches_row_limit (n : Int) (hn : 0 < n) (batches : List ScanCells) :
    ∀ (s : State) (a : Option (Nat × Bytes)), TrackAbs n s a →
      TrackAbs n (track_batches s batches)
        (match a with
          | none => none
          | some a => after_rows a.1 a.2 (batches.map ScanCells.cells).flatten) ∧
      forwarded (track_batches s batches).sink = forwarded s.sink ++
        (match a with
          | none => []
          | some a => take_rows a.1 a.2 (batches.map ScanCells.cells).flatten) := by
  induction batches with
  | nil =>
    intro s a h
    cases a with
    | none => simpa [track_batches] using h
    | some a => simpa [track_batches, take_rows, after_rows] using h
  | cons b bs ih =>
    intro s a h
    cases a with
    | none =>
      have h1 := track_predicates_limits_reached n s b h
      have h2 := ih (track_predicates s b) none h1.1
      simp only [track_batches, List.foldl_cons] at h2 ⊢
      rw [h1.2] at h2
      exact h2
    | some a =>
      have h1 := track_predicates_row_limit n hn s b a.1 a.2 h
      have h2 := ih (track_predicates s b) _ h1.1
      simp only [track_batches, List.foldl_cons, List.map_cons, List.flatten_cons] at h2 ⊢
      rw [h1.2] at h2
      rw [take_rows_append, after_rows_append]
      cases ha : after_rows a.1 a.2 b.cells with
      | none => rw [ha] at h2; simpa using h2
      | some a' => rw [ha] at h2; simpa [List.append_assoc] using h2

/-! ## Rows of a cell sequence -/

theorem same_row_congr (c d : Cell) (h : same_row c d = true) : same_row c = same_row d := by
  funext e
  simp only [same_row, decide_eq_true_eq] at h ⊢
  rw [h]

theorem rows_cons (c : Cell) (cs : List Cell) :
    rows (c :: cs) = (c :: cs.takeWhile (same_row c)) :: rows (cs.dropWhile (same_row c)) := by
  induction cs generalizing c with
  | nil => simp [rows]
  | cons d ds ih =>
    by_cases h : same_row c d = true
    · have hdd : same_row d d = true := by simp [same_row]
      rw [rows, if_pos h, ih d]
      simp [List.takeWhile_cons, List.dropWhile_cons, hdd, same_row_congr c d h]
    · rw [rows, if_neg h]
      simp [List.takeWhile_cons, List.dropWhile_cons, h]

theorem take_rows_eq (cells : List Cell) : ∀ (k : Nat) (last : Bytes),
    take_rows k last cells =
      cells.takeWhile (fun c => decide (cstr c.row_key = last)) ++
        ((rows (cells.dropWhile (fun c => decide (cstr c.row_key = last)))).take k).flatten := by
  induction cells with
  | nil => intro k last; simp [take_rows, rows]
  | cons c cs ih =>
    intro k last
    by_cases hk : cstr c.row_key = last
    · simp [take_rows, hk, List.takeWhile_cons, List.dropWhile_cons, ih k last]
    · cases k with
      | zero => simp [take_rows, hk, List.takeWhile_cons, List.dropWhile_cons]
      | succ k =>
        have hf : same_row c = fun d => decide (cstr d.row_key = cstr c.row_key) := by
          funext d
          simp only [same_row, eq_comm]
        simp [take_rows, hk, List.takeWhile_cons, List.dropWhile_cons, rows_cons, ih k, hf]

theorem after_rows_eq_none (cells : List Cell) : ∀ (k : Nat) (last : Bytes),
    after_rows k last cells = none ↔
      k < (rows (cells.dropWhile (fun c => decide (cstr c.row_key = last)))).length := by
  induction cells with
  | nil => intro k last; simp [after_rows, rows]
  | cons c cs ih =>
    intro k last
    by_cases hk : cstr c.row_key = last
    · simp [after_rows, hk, List.dropWhile_cons, ih k last]
    · cases k with
      | zero => simp [after_rows, hk, List.dropWhile_cons, rows_cons]
      | succ k =>
        have hf : same_row c = fun d => decide (cstr d.row_key = cstr c.row_key) := by
          funext d
          simp only [same_row, eq_comm]
        simp [after_rows, hk, List.dropWhile_cons, rows_cons, ih k, hf]

theorem dropWhile_no_row (cells : List Cell) (h : ∀ c ∈ cells, cstr c.row_key ≠ []) :
    cells.dropWhile (fun c => decide (cstr c.row_key = [])) = cells ∧
    cells.takeWhile (fun c => decide (cstr c.row_key = [])) = [] := by
  cases cells with
  | nil => simp
  | cons c cs =>
    have := h c (List.mem_cons_self _ _)
    simp [List.takeWhile_cons, List.dropWhile_cons, this]

theorem splitBy_loop_rows (as : List Cell) : ∀ (ag : Cell) (g : List Cell) (gs : List (List Cell)),
    List.splitBy.loop same_row as ag g gs =
      gs.reverse ++ (g.reverse ++ (ag :: as.takeWhile (same_row ag))) ::
        rows (as.dropWhile (same_row ag)) := by
  induction as with
  | nil => intro ag g gs; simp [List.splitBy.loop, rows]
  | cons a as ih =>
    intro ag g gs
    by_cases h : same_row ag a = true
    · have haa : same_row a a = true := by simp [same_row]
      rw [List.splitBy.loop]
      simp only [h]
      rw [ih]
      simp [List.takeWhile_cons, List.dropWhile_cons, haa, same_row_congr ag a h]
    · simp only [Bool.not_eq_true] at h
      rw [List.splitBy.loop]
      simp only [h]
      rw [ih]
      simp [List.takeWhile_cons, List.dropWhile_cons, h, rows_cons]

theorem rows_eq_splitBy (cells : List Cell) : rows cells = cells.splitBy same_row := by
  cases cells with
  | nil => rfl
  | cons c cs =>
    rw [List.splitBy, splitBy_loop_rows, rows_cons]
    simp

/-! ## The index-row parser -/

theorem set_at_length (A R : Bytes) (x y : Nat) : (A ++ x :: R).set A.length y = A ++ y :: R := by
  induction A with
  | nil => rfl
  | cons a as ih => simp [List.set, ih]

theorem byteAt_at_length (A R : Bytes) (x : Nat) : byteAt (A ++ x :: R) A.length = x := by
  induction A with
  | nil => rfl
  | cons a as ih => simpa [byteAt] using ih

theorem byteAt_lt (A R : Bytes) (i : Nat) (h : i < A.length) :
    byteAt (A ++ R) i = byteAt A i := by
  induction A generalizing i with
  | nil => simp at h
  | cons a as ih =>
    cases i with
    | zero => rfl
    | succ i =>
      have := ih i (by simpa using h)
      simpa [byteAt] using this

theorem byteAt_past (A R : Bytes) (x : Nat) (j : Nat) :
    byteAt (A ++ x :: R) (A.length + (j + 1)) = byteAt R j := by
  induction A with
  | nil => simp [byteAt]
  | cons a as ih =>
    have : (a :: as).length + (j + 1) = (as.length + (j + 1)) + 1 := by simp; omega
    rw [this]
    simpa [byteAt] using ih

theorem byteAt_mem (A : Bytes) (i : Nat) : byteAt A i = 0 ∨ byteAt A i ∈ A := by
  induction A generalizing i with
  | nil => left; rfl
  | cons a as ih =>
    cases i with
    | zero => right; simp [byteAt]
    | succ i =>
      rcases ih i with h | h
      · left; simpa [byteAt] using h
      · right
        have : byteAt (a :: as) (i + 1) = byteAt as i := by simp [byteAt]
        rw [this]
        exact List.mem_cons_of_mem _ h

theorem cstr_of_no_nul (m : Bytes) (h : 0 ∉ m) : cstr m = m := by
  unfold cstr
  rw [List.takeWhile_eq_self_iff]
  intro x hx
  simp only [bne_iff_ne, ne_eq]
  intro h0
  exact h (h0 ▸ hx)

theorem scan_back_tab_last (A V : Bytes) (hV : 9 ∉ V) (j : Nat) :
    scan_back_tab (A ++ 9 :: V) (A.length + j) = A.length := by
  induction j with
  | zero =>
    cases hA : A.length with
    | zero => simp [scan_back_tab]
    | succ p =>
      have h9 := byteAt_at_length A V 9
      rw [hA] at h9
      simp [scan_back_tab, h9]
  | succ j ih =>
    have hb : byteAt (A ++ 9 :: V) (A.length + (j + 1)) ≠ 9 := by
      rw [byteAt_past]
      rcases byteAt_mem V j with h | h
      · rw [h]; decide
      · intro h9
        exact hV (h9 ▸ h)
    have : A.length + (j + 1) = (A.length + j) + 1 := by omega
    rw [this] at hb ⊢
    simp [scan_back_tab, hb, ih]

theorem scan_comma_first (D R : Bytes) (hD : 44 ∉ D) (hlen : D.length ≤ 5) :
    ∀ (fuel r : Nat), r ≤ D.length → D.length ≤ r + fuel →
      scan_comma (D ++ 44 :: R) fuel r = D.length := by
  intro fuel
  induction fuel with
  | zero =>
    intro r h1 h2
    simp only [scan_comma]
    omega
  | succ fuel ih =>
    intro r h1 h2
    by_cases hr : r = D.length
    · subst hr
      simp [scan_comma, byteAt_at_length]
    · have hlt : r < D.length := by omega
      have hb : byteAt (D ++ 44 :: R) r ≠ 44 := by
        rw [byteAt_lt _ _ _ hlt]
        rcases byteAt_mem D r with h | h
        · rw [h]; decide
        · intro h44
          exact hD (h44 ▸ h)
      have h4 : r ≤ 4 := by omega
      have hgo := ih (r + 1) (by omega) (by omega)
      rw [scan_comma, if_pos (by simp [hb, h4])]
      exact hgo

theorem decimal_aux_spec (fuel : Nat) : ∀ (n : Nat) (acc : Bytes), n < 10 ^ (fuel + 1) →
    ∃ D : Bytes, decimal_aux (fuel + 1) n acc = D ++ acc ∧ D ≠ [] ∧
      (∀ b ∈ D, 48 ≤ b ∧ b ≤ 57) ∧
      (∀ (a : Nat) (X : Bytes), atoi_digits (D ++ X) a = atoi_digits X (a * 10 ^ D.length + n)) := by
  induction fuel with
  | zero =>
    intro n acc hn
    have hn' : n < 10 := by simpa using hn
    refine ⟨[n + 48], by simp [decimal_aux, hn'], by simp, ?_, ?_⟩
    · intro b hb
      simp only [List.mem_singleton] at hb
      omega
    · intro a X
      have hd : isdigit (n + 48) = true := by simp [isdigit]; omega
      simp [atoi_digits, hd]
  | succ fuel ih =>
    intro n acc hn
    by_cases hn' : n < 10
    · refine ⟨[n + 48], by simp [decimal_aux, hn'], by simp, ?_, ?_⟩
      · intro b hb
        simp only [List.mem_singleton] at hb
        omega
      · intro a X
        have hd : isdigit (n + 48) = true := by simp [isdigit]; omega
        simp [atoi_digits, hd]
    · have hdiv : n / 10 < 10 ^ (fuel + 1) := by
        rw [Nat.div_lt_iff_lt_mul (by decide)]
        calc n < 10 ^ (fuel + 1 + 1) := hn
          _ = 10 ^ (fuel + 1) * 10 := by rw [pow_succ]
      obtain ⟨D, hD, hne, hdig, hat⟩ := ih (n / 10) ((n % 10 + 48) :: acc) hdiv
      refine ⟨D ++ [n % 10 + 48], ?_, by simp, ?_, ?_⟩
      · rw [decimal_aux, if_neg hn', hD]
        simp
      · intro b hb
        simp only [List.mem_append, List.mem_singleton] at hb
        rcases hb with hb | hb
        · exact hdig b hb
        · omega
      · intro a X
        have hd : isdigit (n % 10 + 48) = true := by simp [isdigit]; omega
        rw [List.append_assoc, hat]
        simp only [List.singleton_append, atoi_digits, hd, if_true, List.length_append,
          List.length_singleton, Nat.add_sub_cancel]
        congr 1
        have := Nat.div_add_mod n 10
        rw [pow_succ]
        nlinarith [Nat.div_add_mod n 10]

theorem decimal_aux_length (fuel : Nat) : ∀ (n : Nat) (acc : Bytes) (k : Nat), 1 ≤ k →
    n < 10 ^ k → (decimal_aux fuel n acc).length ≤ k + acc.length := by
  induction fuel with
  | zero => intro n acc k _ _; simp [decimal_aux]
  | succ fuel ih =>
    intro n acc k hk hn
    by_cases hn' : n < 10
    · simp [decimal_aux, hn']; omega
    · have hk2 : 2 ≤ k := by
        by_contra hc
        have : k = 1 := by omega
        subst this
        simp at hn
        omega
      obtain ⟨k', rfl⟩ : ∃ k', k = k' + 1 := ⟨k - 1, by omega⟩
      have hdiv : n / 10 < 10 ^ k' := by
        rw [Nat.div_lt_iff_lt_mul (by decide)]
        calc n < 10 ^ (k' + 1) := hn
          _ = 10 ^ k' * 10 := by rw [pow_succ]
      have := ih (n / 10) ((n % 10 + 48) :: acc) k' (by omega) hdiv
      rw [decimal_aux, if_neg hn']
      simp only [List.length_cons] at this
      omega

theorem decimal_spec (n : Nat) :
    decimal n ≠ [] ∧ (∀ b ∈ decimal n, 48 ≤ b ∧ b ≤ 57) ∧
      (∀ X : Bytes, atoi_digits (decimal n ++ X) 0 = atoi_digits X n) := by
  have hlt : n < 10 ^ (n + 1) := by
    calc n < n + 1 := by omega
      _ < 10 ^ (n + 1) := Nat.lt_pow_self (by decide) _
  obtain ⟨D, hD, hne, hdig, hat⟩ := decimal_aux_spec n n [] hlt
  have hd : decimal n = D := by simp [decimal, hD]
  rw [hd]
  refine ⟨hne, hdig, ?_⟩
  intro X
  rw [hat]
  simp

theorem decimal_length (n : Nat) (h : n < 100000) : (decimal n).length ≤ 5 := by
  have := decimal_aux_length (n + 1) n [] 5 (by decide) (by simpa using h)
  simpa [decimal] using this

theorem atoi_decimal (n : Nat) (R : Bytes) : atoi (decimal n ++ 0 :: R) = (n : Int) := by
  obtain ⟨hne, hdig, hat⟩ := decimal_spec n
  cases hD : decimal n with
  | nil => exact absurd hD hne
  | cons d D =>
    have hd := hdig d (by rw [hD]; exact List.mem_cons_self _ _)
    have hsp : isspace d = false := by
      simp only [isspace, Bool.or_eq_false_iff, beq_eq_false_iff_ne, ne_eq, Bool.and_eq_false_imp,
        decide_eq_true_eq, decide_eq_false_iff_not, not_le]
      omega
    have h45 : d ≠ 45 := by omega
    have h43 : d ≠ 43 := by omega
    have hx := hat (0 :: R)
    rw [hD] at hx
    have hz : atoi_digits (0 :: R) n = n := by simp [atoi_digits, isdigit]
    rw [hz] at hx
    unfold atoi
    simp only [List.cons_append, List.dropWhile_cons, hsp, Bool.false_eq_true, if_false]
    split
    · rename_i heq
      simp only [List.cons.injEq] at heq
      exact absurd heq.1 h45
    · rename_i heq
      simp only [List.cons.injEq] at heq
      exact absurd heq.1 h43
    · simp only [List.cons_append] at hx
      rw [hx]

theorem to_uint32_of_lt (n : Nat) (h : n < 4294967296) : to_uint32 (n : Int) = n := by
  unfold to_uint32
  have : ((n : Int) % (2 : Int) ^ 32) = (n : Int) := by
    apply Int.emod_eq_of_lt <;> omega
  rw [this]
  simp

theorem collect_cell_decode (sizeof_KeySpec : Nat) (s : State) (cell : Cell) (cfid : Nat)
    (name K V : Bytes)
    (hcf : ColumnMap.find s.m_column_map cfid = some name)
    (hpos : 0 < cfid) (hmax : cfid < 100000)
    (hkey : cell.row_key = decimal cfid ++ 44 :: (K ++ 9 :: V))
    (hK : 0 ∉ K) (hV : 9 ∉ V ∧ 0 ∉ V)
    (hri : s.m_primary_spec.row_intervals = [])
    (hci : s.m_primary_spec.cell_intervals = []) :
    collect_cell sizeof_KeySpec s cell =
      store_key sizeof_KeySpec s
        { row := V, row_len := V.length, column_family := name,
          timestamp := cell.timestamp } := by
  obtain ⟨hne, hdig, hat⟩ := decimal_spec cfid
  have hlen := decimal_length cfid hmax
  have hD44 : 44 ∉ decimal cfid := fun h => by have := hdig 44 h; omega
  have hD0 : 0 ∉ decimal cfid := fun h => by have := hdig 0 h; omega
  -- the key, split at the tab
  have hm : cell.row_key = (decimal cfid ++ 44 :: K) ++ 9 :: V := by simp [hkey]
  have hnul : 0 ∉ cell.row_key := by
    rw [hkey]
    simp only [List.mem_append, List.mem_cons, not_or]
    exact ⟨hD0, by decide, hK, by decide, hV.2⟩
  have hstrlen : strlen cell.row_key = (decimal cfid ++ 44 :: K).length + (V.length + 1) := by
    rw [strlen, cstr_of_no_nul _ hnul, hm]
    simp only [List.length_append, List.length_cons]
  have hp : scan_back_tab cell.row_key (strlen cell.row_key) = (decimal cfid ++ 44 :: K).length := by
    rw [hstrlen, hm]
    exact scan_back_tab_last _ V hV.1 _
  have hpb : byteAt cell.row_key (decimal cfid ++ 44 :: K).length = 9 := by
    rw [hm]; exact byteAt_at_length _ _ _
  have hr : scan_comma cell.row_key 5 0 = (decimal cfid).length := by
    rw [hkey]
    exact scan_comma_first _ _ hD44 hlen 5 0 (Nat.zero_le _) (by omega)
  have hrb : byteAt cell.row_key (decimal cfid).length = 44 := by
    rw [hkey]; exact byteAt_at_length _ _ _
  have hm1 : cell.row_key.set (decimal cfid).length 0 = decimal cfid ++ 0 :: (K ++ 9 :: V) := by
    rw [hkey]; exact set_at_length _ _ _ _
  have hcfid : to_uint32 (atoi (decimal cfid ++ 0 :: (K ++ 9 :: V))) = cfid := by
    rw [atoi_decimal, to_uint32_of_lt _ (by omega)]
  have hm2 : (decimal cfid ++ 0 :: (K ++ 9 :: V)).set (decimal cfid ++ 44 :: K).length 0 =
      (decimal cfid ++ 0 :: K) ++ 0 :: V := by
    have h1 : decimal cfid ++ 0 :: (K ++ 9 :: V) = (decimal cfid ++ 0 :: K) ++ 9 :: V := by simp
    have h2 : (decimal cfid ++ 44 :: K).length = (decimal cfid ++ 0 :: K).length := by simp
    rw [h1, h2]
    exact set_at_length _ _ _ _
  have hrow : ((decimal cfid ++ 0 :: K) ++ 0 :: V).drop ((decimal cfid ++ 44 :: K).length + 1) = V := by
    have h2 : (decimal cfid ++ 44 :: K).length + 1 = (decimal cfid ++ 0 :: K ++ [0]).length := by
      simp only [List.length_append, List.length_cons, List.length_nil]
    have h3 : (decimal cfid ++ 0 :: K) ++ 0 :: V = (decimal cfid ++ 0 :: K ++ [0]) ++ V := by simp
    rw [h2, h3, List.drop_left]
  have hsl : strlen V = V.length := by rw [strlen, cstr_of_no_nul _ hV.2]
  have hcf0 : cfid ≠ 0 := by omega
  unfold collect_cell
  simp only [hp, hpb, hr, hrb, hm1, hcfid, hm2, hrow, hsl, hcf, hri, hci]
  simp [hcf0]

/-! ## Entries the parser drops -/

theorem scan_back_tab_le (m : Bytes) (n : Nat) : scan_back_tab m n ≤ n := by
  induction n with
  | zero => simp [scan_back_tab]
  | succ n ih =>
    rw [scan_back_tab]
    split
    · omega
    · omega

theorem byteAt_strlen (m : Bytes) : byteAt m (strlen m) = 0 := by
  induction m with
  | nil => rfl
  | cons x xs ih =>
    by_cases hx : x = 0
    · simp [strlen, cstr, byteAt, hx]
    · have hc : cstr (x :: xs) = x :: cstr xs := by simp [cstr, List.takeWhile_cons, hx]
      have hl : strlen (x :: xs) = strlen xs + 1 := by simp [strlen, hc]
      rw [hl]
      simpa [byteAt] using ih

theorem byteAt_cstr_mem (m : Bytes) (i : Nat) (h : i < strlen m) : byteAt m i ∈ cstr m := by
  induction m generalizing i with
  | nil => simp [strlen, cstr] at h
  | cons x xs ih =>
    by_cases hx : x = 0
    · simp [strlen, cstr, hx] at h
    · have hc : cstr (x :: xs) = x :: cstr xs := by simp [cstr, List.takeWhile_cons, hx]
      rw [hc]
      cases i with
      | zero => simp [byteAt]
      | succ i =>
        have hi : i < strlen xs := by
          simp only [strlen, hc, List.length_cons] at h ⊢
          omega
        have := ih i hi
        simp only [byteAt, List.getD_cons_succ] at this ⊢
        exact List.mem_cons_of_mem _ this

theorem no_tab_found (m : Bytes) (h : 9 ∉ cstr m) :
    byteAt m (scan_back_tab m (strlen m)) ≠ 9 := by
  intro h9
  have hle := scan_back_tab_le m (strlen m)
  rcases Nat.lt_or_eq_of_le hle with hlt | heq
  · exact h (h9 ▸ byteAt_cstr_mem m _ hlt)
  · rw [heq, byteAt_strlen] at h9
    exact absurd h9 (by decide)

theorem scan_comma_le (m : Bytes) : ∀ (fuel r : Nat), r + fuel ≤ 5 → scan_comma m fuel r ≤ 5 := by
  intro fuel
  induction fuel with
  | zero => intro r h; simp only [scan_comma]; omega
  | succ fuel ih =>
    intro r h
    rw [scan_comma]
    split
    · exact ih (r + 1) (by omega)
    · omega

theorem scan_comma_first_comma (m : Bytes) : ∀ (fuel r : Nat),
    byteAt m (scan_comma m fuel r) = 44 → ∀ i, r ≤ i → i < scan_comma m fuel r →
      byteAt m i ≠ 44 := by
  intro fuel
  induction fuel with
  | zero => intro r _ i h1 h2; simp only [scan_comma] at h2; omega
  | succ fuel ih =>
    intro r h i h1 h2
    rw [scan_comma] at h h2
    split at h
    · rename_i hc
      rw [if_pos hc] at h2
      by_cases hi : i = r
      · subst hi
        simp only [Bool.and_eq_true, bne_iff_ne, ne_eq] at hc
        exact hc.1
      · exact ih (r + 1) h i (by omega) h2
    · rename_i hc
      rw [if_neg hc] at h2
      omega

theorem split_at_first_comma (m : Bytes) : ∀ (r : Nat), byteAt m r = 44 →
    (∀ i, i < r → byteAt m i ≠ 44) → m.set r 0 = id_field m ++ 0 :: m.drop (r + 1) := by
  induction m with
  | nil => intro r h; simp [byteAt] at h
  | cons x xs ih =>
    intro r h hmin
    cases r with
    | zero =>
      have hx : x = 44 := by simpa [byteAt] using h
      simp [id_field, List.takeWhile_cons, hx]
    | succ r =>
      have hx : x ≠ 44 := by simpa [byteAt] using hmin 0 (by omega)
      have h' : byteAt xs r = 44 := by simpa [byteAt] using h
      have hmin' : ∀ i, i < r → byteAt xs i ≠ 44 := by
        intro i hi
        have := hmin (i + 1) (by omega)
        simpa [byteAt] using this
      have := ih r h' hmin'
      simp only [id_field] at this ⊢
      simp [List.takeWhile_cons, hx, this]

theorem atoi_digits_nul (Y R : Bytes) : ∀ a, atoi_digits (Y ++ 0 :: R) a = atoi_digits Y a := by
  induction Y with
  | nil => intro a; simp [atoi_digits, isdigit]
  | cons y ys ih =>
    intro a
    by_cases hy : isdigit y = true
    · simp [atoi_digits, hy, ih]
    · simp [atoi_digits, hy]

theorem atoi_nul (X R : Bytes) : atoi (X ++ 0 :: R) = atoi X := by
  induction X with
  | nil => simp [atoi, isspace, atoi_digits, isdigit]
  | cons x xs ih =>
    by_cases hx : isspace x = true
    · unfold atoi at ih ⊢
      simp only [List.cons_append, List.dropWhile_cons, hx, if_true]
      exact ih
    · unfold atoi
      simp only [List.cons_append, List.dropWhile_cons, hx, Bool.false_eq_true, if_false]
      by_cases h45 : x = 45
      · subst h45
        simp [atoi_digits_nul]
      · by_cases h43 : x = 43
        · subst h43
          simp [atoi_digits_nul]
        · have := atoi_digits_nul (x :: xs) R 0
          simp only [List.cons_append] at this
          split
          · rename_i heq; simp only [List.cons.injEq] at heq; exact absurd heq.1 h45
          · rename_i heq; simp only [List.cons.injEq] at heq; exact absurd heq.1 h43
          · split
            · rename_i heq; simp only [List.cons.injEq] at heq; exact absurd heq.1 h45
            · rename_i heq; simp only [List.cons.injEq] at heq; exact absurd heq.1 h43
            · rw [this]

theorem collect_cell_malformed (sizeof_KeySpec : Nat) (s : State) (cell : Cell)
    (h : malformed s.m_column_map cell.row_key) : collect_cell sizeof_KeySpec s cell = s := by
  unfold collect_cell
  by_cases htab : byteAt cell.row_key (scan_back_tab cell.row_key (strlen cell.row_key)) = 9
  · by_cases hcomma : byteAt cell.row_key (scan_comma cell.row_key 5 0) = 44
    · have hmin := scan_comma_first_comma cell.row_key 5 0 hcomma
      have hset := split_at_first_comma cell.row_key _ hcomma
        (fun i hi => hmin i (Nat.zero_le _) hi)
      have hid : to_uint32 (atoi (cell.row_key.set (scan_comma cell.row_key 5 0) 0)) =
          cf_id cell.row_key := by
        rw [hset, atoi_nul, cf_id]
      have hbad : cf_id cell.row_key = 0 ∨
          ColumnMap.find s.m_column_map (cf_id cell.row_key) = none := by
        rcases h with h | h | h
        · exact absurd htab (no_tab_found _ h)
        · exact absurd hcomma (h _ (scan_comma_le _ 5 0 (by omega)))
        · exact h
      simp only [htab, hcomma, hid]
      rcases hbad with hb | hb
      · simp [hb]
      · simp [hb]
    · simp [htab, hcomma]
  · simp [htab]

theorem store_key_column_map (sizeof_KeySpec : Nat) (s : State) (key : KeySpec) :
    (store_key sizeof_KeySpec s key).m_column_map = s.m_column_map := by
  unfold store_key
  split
  · rfl
  · split <;> rfl

theorem collect_cell_column_map (sizeof_KeySpec : Nat) (s : State) (cell : Cell) :
    (collect_cell sizeof_KeySpec s cell).m_column_map = s.m_column_map := by
  unfold collect_cell
  simp only
  split_ifs <;> first | rfl | exact store_key_column_map _ _ _

theorem foldl_without_malformed (sizeof_KeySpec : Nat) (cells : List Cell) :
    ∀ (s : State) (column_map : ColumnMap), s.m_column_map = column_map →
      (cells.filter (fun c => !decide (malformed column_map c.row_key))).foldl
          (collect_cell sizeof_KeySpec) s =
        cells.foldl (collect_cell sizeof_KeySpec) s := by
  induction cells with
  | nil => intro s cm _; rfl
  | cons c cs ih =>
    intro s cm hcm
    by_cases hm : malformed cm c.row_key
    · have hs : collect_cell sizeof_KeySpec s c = s :=
        collect_cell_malformed sizeof_KeySpec s c (hcm ▸ hm)
      simp only [List.filter_cons, hm, decide_True, Bool.not_true, Bool.false_eq_true, if_false,
        List.foldl_cons, hs]
      exact ih s cm hcm
    · simp only [List.filter_cons, hm, decide_False, Bool.not_false, if_true, List.foldl_cons]
      exact ih _ cm (by rw [collect_cell_column_map, hcm])

theorem collect_indices_finish_buffer (s : State) (buffer : List ScanCells) (eos : Bool) :
    forget_buffer (collect_indices_finish { s with m_scancells_buffer := buffer } eos) =
      forget_buffer (collect_indices_finish s eos) := by
  cases eos
  · simp only [collect_indices_finish, Bool.false_eq_true, if_false]
    by_cases h1 : (s.m_tmp_table.isNone && decide (s.m_tmp_cutoff > TMP_CUTOFF)) = true
    · rw [if_pos h1, if_pos h1]
      simp only [create_temp_table]
      split_ifs <;> simp_all [forget_buffer, Outcome.andThen]
    · rw [if_neg h1, if_neg h1]
      simp only [Outcome.andThen]
      split_ifs <;> simp_all [forget_buffer]
  · simp only [collect_indices_finish, if_true]
    cases hm : s.m_mutator <;>
      simp only [Bool.false_eq_true, if_false, if_true] <;>
      split_ifs <;> simp_all [forget_buffer, create_scanner_async, register_scanner]

theorem collect_indices_without_malformed (sizeof_KeySpec : Nat) (s : State)
    (scancells : ScanCells) :
    forget_buffer (collect_indices sizeof_KeySpec s
        (without_malformed s.m_column_map scancells)) =
      forget_buffer (collect_indices sizeof_KeySpec s scancells) := by
  have hfold := foldl_without_malformed sizeof_KeySpec scancells.cells s s.m_column_map rfl
  unfold collect_indices
  simp only [without_malformed, hfold]
  generalize scancells.cells.foldl (collect_cell sizeof_KeySpec) s = s1
  split_ifs
  · exact (collect_indices_finish_buffer s1 _ _).trans
      (collect_indices_finish_buffer s1 _ _).symm
  · rfl

/-! ## Limits, termination, the parser and the intervals: the claims -/

/-- C1 (exactly-once termination), evaluated on the direct-fetch run with `row_limit = 2`: the
index scanner delivers the keys of rows `a`, `b`, `c`, the coordinator opens the primary scanner
with the row list `[a, b, c]`, and that scanner delivers the three rows in its end-of-stream
batch.  No child scanner is outstanding afterwards and the user's callback has received the
cells of rows `a` and `b`, but no batch with the end-of-stream flag and no
`decrement_outstanding`: the limit was reached in the batch that ended the last scanner, and
`final_decrement` asks for `m_eos` in that case, which nothing has set. -/
theorem C1_no_terminal_batch_when_limit_hit_in_last_batch :
    (run 64 (IndexScannerCallback ex_schema ex_row_limit_2 false)
        ex_direct_fetch_run).returned.map (fun s => (s.m_outstanding_scanners,
          s.m_scanners.map (fun x => (x.table, x.spec.rows)), s.m_limits_reached, s.m_eos,
          s.sink, terminal_batches s.sink, decrements s.sink)) =
      some (0, [(TableKind.primary, [[97], [98], [99]])], true, false,
        [SinkCall.increment_outstanding,
          SinkCall.scan_ok [ex_cell [97] 49, ex_cell [98] 49] false], 0, 0) := by
  rfl

/-- C2 (limits do not depend on batching), evaluated with `row_offset = 1` on the two cells of
one row `a`: delivered in one batch, no cell is forwarded; delivered in two batches, the second
cell is forwarded, because the local `skip_row` of `track_predicates` starts as `false` in
every call while the row key it belongs to is persisted. -/
theorem C2_row_offset_skip_is_lost_between_batches :
    forwarded (track_batches (IndexScannerCallback ex_schema ex_row_offset_1 false)
        [{ cells := [ex_cell [97] 49, ex_cell [97] 50], eos := false }]).sink = [] ∧
    forwarded (track_batches (IndexScannerCallback ex_schema ex_row_offset_1 false)
        [{ cells := [ex_cell [97] 49], eos := false },
         { cells := [ex_cell [97] 50], eos := false }]).sink = [ex_cell [97] 50] := by
  decide

/-- C3 (row limit): with `row_limit = n > 0` and the other four parameters zero, for batches of
primary-table cells with non-empty row keys, split in any way, the cells `track_predicates`
forwards to the user's callback are exactly the cells of the first `n` rows (maximal runs of
equal row key) of the concatenated batches, in order, and `m_limits_reached` is set exactly when
the cells handed over so far hold more than `n` rows, that is from the first cell of row
`n + 1` on. -/
theorem C3_row_limit (schema : List ColumnFamily) (spec : ScanSpec) (qualifier_scan : Bool)
    (n : Nat) (batches : List ScanCells)
    (hn : 0 < n) (hrl : spec.row_limit = (n : Int)) (hro : spec.row_offset = 0)
    (hco : spec.cell_offset = 0) (hcl : spec.cell_limit = 0)
    (hcf : spec.cell_limit_per_family = 0)
    (hkeys : ∀ b ∈ batches, ∀ c ∈ b.cells, cstr c.row_key ≠ []) :
    forwarded (track_batches (IndexScannerCallback schema spec qualifier_scan) batches).sink =
        first_rows n (batches.map ScanCells.cells).flatten ∧
      ((track_batches (IndexScannerCallback schema spec qualifier_scan) batches).m_limits_reached
          = true ↔
        n < ((batches.map ScanCells.cells).flatten.splitBy same_row).length) := by
  have hn' : (0 : Int) < (n : Int) := by exact_mod_cast hn
  have hne : (n : Int) ≠ 0 := by omega
  have h0 : TrackAbs (n : Int) (IndexScannerCallback schema spec qualifier_scan)
      (some (n, [])) := by
    simp [TrackAbs, RowLimitOnly, IndexScannerCallback, hrl, hro, hco, hcl, hcf, hne, cstr]
  have hall : ∀ c ∈ (batches.map ScanCells.cells).flatten, cstr c.row_key ≠ [] := by
    intro c hc
    simp only [List.mem_flatten, List.mem_map] at hc
    obtain ⟨l, ⟨b, hb, rfl⟩, hcl⟩ := hc
    exact hkeys b hb c hcl
  obtain ⟨hd, ht⟩ := dropWhile_no_row _ hall
  have h := track_batches_row_limit (n : Int) hn' batches _ _ h0
  simp only at h
  obtain ⟨h1, h2⟩ := h
  constructor
  · rw [h2, take_rows_eq, hd, ht]
    simp [forwarded, IndexScannerCallback, first_rows, rows_eq_splitBy]
  · rw [← rows_eq_splitBy, ← hd, ← after_rows_eq_none]
    cases ha : after_rows n [] (batches.map ScanCells.cells).flatten with
    | none =>
      rw [ha] at h1
      simp [h1.2]
    | some a =>
      rw [ha] at h1
      simp [h1.2.1]

/-- Witness of C3: `row_limit = 2` on the rows `a`, `a`, `b` | `b`, `c`. -/
theorem C3_row_limit_witness :
    (0 < 2 ∧ ex_row_limit_2.row_limit = 2 ∧
      ∀ b ∈ ex_batches, ∀ c ∈ b.cells, cstr c.row_key ≠ []) ∧
    forwarded (track_batches (IndexScannerCallback ex_schema ex_row_limit_2 false)
        ex_batches).sink = first_rows 2 (ex_batches.map ScanCells.cells).flatten ∧
      ((track_batches (IndexScannerCallback ex_schema ex_row_limit_2 false)
          ex_batches).m_limits_reached = true ↔
        2 < ((ex_batches.map ScanCells.cells).flatten.splitBy same_row).length) :=
  ⟨⟨by decide, rfl, by decide⟩,
    C3_row_limit ex_schema ex_row_limit_2 false 2 ex_batches (by decide) rfl rfl rfl rfl rfl
      (by decide)⟩

/-- C4 (cell limit), evaluated with `cell_limit = 1` and `cell_limit_per_family = 1` on one cell
of row `a` followed by one cell of row `b`: both cells are forwarded, two cells for a limit of
one.  The counter `m_cell_count` that is compared with `m_cell_limit` is the one the per-family
limit resets at every new row. -/
theorem C4_cell_limit_exceeded_with_per_family_limit :
    ex_cell_limit_1.cell_limit = 1 ∧
    forwarded (track_batches (IndexScannerCallback ex_schema ex_cell_limit_1 false)
        [{ cells := [ex_cell [97] 49, ex_cell [98] 49], eos := false }]).sink =
      [ex_cell [97] 49, ex_cell [98] 49] := by
  decide

/-- C5 (the terminal batch needs no scanner outstanding): in any state, when `final_decrement`
returns and has called the user's callback, the counter of outstanding scanners was zero, the
calls are exactly the empty end-of-stream batch followed by `decrement_outstanding`, and
afterwards `m_eos` and `m_final_decrement` are both set. -/
theorem C5_terminal_batch_only_when_no_scanner_outstanding (s s1 : State) (is_eos : Bool)
    (h : final_decrement s is_eos = Outcome.ok s1) (hs : s1.sink ≠ s.sink) :
    s.m_outstanding_scanners = 0 ∧ s1.m_outstanding_scanners = 0 ∧
      s1.m_eos = true ∧ s1.m_final_decrement = true ∧
      s1.sink = s.sink ++ [SinkCall.scan_ok [] true, SinkCall.decrement_outstanding] := by
  unfold final_decrement at h
  by_cases hf : final_eos s is_eos = true
  · have h0 : s.m_outstanding_scanners = 0 := by
      unfold final_eos at hf
      split at hf <;> simp at hf <;> tauto
    simp only [hf, if_true] at h
    cases hfd : s.m_final_decrement
    · simp [hfd] at h
      subst h
      simp [h0]
    · simp [hfd] at h
  · simp only [hf] at h
    simp at h
    subst h
    exact absurd rfl hs

/-- Witness of C5: the finalizer on a fresh coordinator, called for an end-of-stream batch. -/
theorem C5_terminal_batch_witness :
    (IndexScannerCallback ex_schema ScanSpecBuilder false).m_outstanding_scanners = 0 ∧
      (ex_finalized).m_outstanding_scanners = 0 ∧
      (ex_finalized).m_eos = true ∧ (ex_finalized).m_final_decrement = true ∧
      (ex_finalized).sink = (IndexScannerCallback ex_schema ScanSpecBuilder false).sink ++
        [SinkCall.scan_ok [] true, SinkCall.decrement_outstanding] :=
  C5_terminal_batch_only_when_no_scanner_outstanding
    (IndexScannerCallback ex_schema ScanSpecBuilder false) ex_finalized true (by rfl)
    (by decide)

/-- C6 (eos is absorbing): when `m_eos` is set, a `scan_ok` from any table with any batch either
stops at an assertion (an end-of-stream batch with no scanner outstanding, or a second terminal
notification) or returns the state it found with at most three changes: the counter of
outstanding scanners is decremented for an end-of-stream batch, and the finalizer may have sent
the empty terminal batch with `decrement_outstanding` and set `m_final_decrement`.  So no cell
of the batch is forwarded, no candidate is added, no scan spec is enqueued, no scanner is
created, and `m_eos` stays set. -/
theorem C6_eos_is_absorbing (sizeof_KeySpec : Nat) (s : State) (table : TableKind)
    (scancells : ScanCells) (h : s.m_eos = true) :
    (scan_ok sizeof_KeySpec s table scancells = Outcome.assert_failed ∧
      ((scancells.eos = true ∧ s.m_outstanding_scanners ≤ 0) ∨ s.m_final_decrement = true)) ∨
    ∃ fired : Bool, scan_ok sizeof_KeySpec s table scancells = Outcome.ok
      { s with
        m_outstanding_scanners :=
          if scancells.eos then s.m_outstanding_scanners - 1 else s.m_outstanding_scanners
        m_final_decrement := s.m_final_decrement || fired
        sink := s.sink ++ (if fired then
          [SinkCall.scan_ok [] true, SinkCall.decrement_outstanding] else []) } := by
  rw [scan_ok_of_eos sizeof_KeySpec s table scancells h]
  have h' : (after_eos_bookkeeping s scancells.eos).m_eos = true := by
    unfold after_eos_bookkeeping
    split <;> simp [h]
  have hb : ∀ fired : Bool,
      ({ after_eos_bookkeeping s scancells.eos with
        m_final_decrement := (after_eos_bookkeeping s scancells.eos).m_final_decrement || fired
        sink := (after_eos_bookkeeping s scancells.eos).sink ++ (if fired then
          [SinkCall.scan_ok [] true, SinkCall.decrement_outstanding] else []) } : State) =
      { s with
        m_outstanding_scanners :=
          if scancells.eos then s.m_outstanding_scanners - 1 else s.m_outstanding_scanners
        m_final_decrement := s.m_final_decrement || fired
        sink := s.sink ++ (if fired then
          [SinkCall.scan_ok [] true, SinkCall.decrement_outstanding] else []) } := by
    intro fired
    unfold after_eos_bookkeeping
    cases scancells.eos <;> simp
  have hfdx : (after_eos_bookkeeping s scancells.eos).m_final_decrement =
      s.m_final_decrement := by
    unfold after_eos_bookkeeping
    split <;> rfl
  split
  · rename_i h1
    right
    refine ⟨false, ?_⟩
    have he : scancells.eos = false := by
      simp only [Bool.and_eq_true, beq_iff_eq] at h1
      exact h1.1
    cases s
    simp [he]
  · split
    · rename_i h1 h2
      left
      refine ⟨rfl, Or.inl ?_⟩
      simp only [Bool.and_eq_true, Bool.not_eq_true', decide_eq_false_iff_not, not_lt] at h2
      exact h2
    · split
      · rcases final_decrement_of_eos _ scancells.eos h' with hfd | ⟨fired, hfd⟩
        · left
          exact ⟨hfd.1, Or.inr (hfdx ▸ hfd.2)⟩
        · right
          exact ⟨fired, by rw [hfd, hb fired]⟩
      · right
        refine ⟨false, ?_⟩
        rw [← hb false]
        cases hs : after_eos_bookkeeping s scancells.eos
        simp

/-- Witness of C6: a coordinator that has set `m_eos` while two scanners are outstanding
receives the end-of-stream batch of a primary scanner, with cells. -/
theorem C6_eos_is_absorbing_witness :
    ex_draining.m_eos = true ∧
    ((scan_ok 64 ex_draining TableKind.primary
          { cells := [ex_cell [97] 49], eos := true } = Outcome.assert_failed ∧
      (((({ cells := [ex_cell [97] 49], eos := true } : ScanCells).eos = true ∧
          ex_draining.m_outstanding_scanners ≤ 0)) ∨ ex_draining.m_final_decrement = true)) ∨
    ∃ fired : Bool, scan_ok 64 ex_draining TableKind.primary
        { cells := [ex_cell [97] 49], eos := true } = Outcome.ok
      { ex_draining with
        m_outstanding_scanners :=
          if ({ cells := [ex_cell [97] 49], eos := true } : ScanCells).eos then
            ex_draining.m_outstanding_scanners - 1 else ex_draining.m_outstanding_scanners
        m_final_decrement := ex_draining.m_final_decrement || fired
        sink := ex_draining.sink ++ (if fired then
          [SinkCall.scan_ok [] true, SinkCall.decrement_outstanding] else []) }) :=
  ⟨rfl, C6_eos_is_absorbing 64 ex_draining TableKind.primary
    { cells := [ex_cell [97] 49], eos := true } rfl⟩

/-- C7 as stated, refuted on the index row key `1,row<TAB>val` with family 1 in the column map:
the claim takes the bytes between the comma and the tab, `row`, for the primary row key, but
the one candidate `collect_indices` stores has the row key `val`, the bytes after the tab, and
no candidate has the row key `row`. -/
theorem C7_row_key_is_not_between_comma_and_tab :
    ex_key_row_val = decimal 1 ++ 44 :: ([114, 111, 119] ++ 9 :: [118, 97, 108]) ∧
    ColumnMap.find (IndexScannerCallback ex_schema ScanSpecBuilder false).m_column_map 1 =
      some [99, 102] ∧
    (collect_cell 64 (IndexScannerCallback ex_schema ScanSpecBuilder false)
        (ex_index_cell ex_key_row_val)).m_tmp_keys.map (fun k => cstr k.row) =
      [[118, 97, 108]] ∧
    ¬ ∃ k ∈ (collect_cell 64 (IndexScannerCallback ex_schema ScanSpecBuilder false)
        (ex_index_cell ex_key_row_val)).m_tmp_keys, cstr k.row = [114, 111, 119] := by
  decide

/-- C7, amended: for an index row key `<cf-id>,<K><TAB><V>` where cf-id is the decimal id, not
zero and of at most five digits, of a family in the column map, and `K` and `V` contain no
comma, tab or NUL, with no row or cell intervals in the request, the loop body of
`collect_indices` stores the candidate whose primary row key is `V`, the bytes after the tab,
with the column family named by cf-id and the timestamp of the index cell; `K`, the bytes
between the comma and the tab, is the indexed value. -/
theorem C7_index_key_decoding (sizeof_KeySpec : Nat) (s : State) (cell : Cell) (cfid : Nat)
    (name K V : Bytes)
    (hcf : ColumnMap.find s.m_column_map cfid = some name)
    (hpos : 0 < cfid) (hmax : cfid < 100000)
    (hkey : cell.row_key = decimal cfid ++ 44 :: (K ++ 9 :: V))
    (hK : 44 ∉ K ∧ 9 ∉ K ∧ 0 ∉ K) (hV : 44 ∉ V ∧ 9 ∉ V ∧ 0 ∉ V)
    (hri : s.m_primary_spec.row_intervals = [])
    (hci : s.m_primary_spec.cell_intervals = []) :
    collect_cell sizeof_KeySpec s cell =
      store_key sizeof_KeySpec s
        { row := V, row_len := V.length, column_family := name,
          timestamp := cell.timestamp } :=
  collect_cell_decode sizeof_KeySpec s cell cfid name K V hcf hpos hmax hkey hK.2.2
    ⟨hV.2.1, hV.2.2⟩ hri hci

/-- Witness of C7: the index row key `1,row<TAB>val` yields the candidate `val`. -/
theorem C7_index_key_decoding_witness :
    collect_cell 64 (IndexScannerCallback ex_schema ScanSpecBuilder false)
        (ex_index_cell ex_key_row_val) =
      store_key 64 (IndexScannerCallback ex_schema ScanSpecBuilder false)
        { row := [118, 97, 108], row_len := [118, 97, 108].length, column_family := [99, 102],
          timestamp := (ex_index_cell ex_key_row_val).timestamp } :=
  C7_index_key_decoding 64 (IndexScannerCallback ex_schema ScanSpecBuilder false)
    (ex_index_cell ex_key_row_val) 1 [99, 102] [114, 111, 119] [118, 97, 108]
    (by decide) (by decide) (by decide) (by decide) (by decide) (by decide) rfl rfl

/-- C8 as stated, refuted on the index row key `1x,v<TAB>row` with family 1 in the column map:
its id field `1x` is not a number, yet the entry is not dropped: `atoi` reads the id 1 from it
and the candidate `row` is stored. -/
theorem C8_non_numeric_id_is_accepted :
    id_field ex_key_1x = [49, 120] ∧ numeric (id_field ex_key_1x) = false ∧
    (collect_cell 64 (IndexScannerCallback ex_schema ScanSpecBuilder false)
        (ex_index_cell ex_key_1x)).m_tmp_keys.map (fun k => cstr k.row) =
      [[114, 111, 119]] ∧
    collect_cell 64 (IndexScannerCallback ex_schema ScanSpecBuilder false)
        (ex_index_cell ex_key_1x) ≠ IndexScannerCallback ex_schema ScanSpecBuilder false := by
  decide

/-- C8, amended: an index entry with no tab byte, with no comma among the six bytes inspected
for one, or whose id field is read by `atoi` as zero (as when it does not start with a number)
or as an id absent from the column map changes no coordinator state; and for every index
batch the outcome of `collect_indices` is the same as for the batch without these entries, in
all of the state (candidate map, staging writes, byte counter and the rest) but the retained
source batches, which hold the batch as delivered. -/
theorem C8_malformed_entries_are_dropped (sizeof_KeySpec : Nat) (s : State) :
    (∀ cell : Cell, malformed s.m_column_map cell.row_key →
      collect_cell sizeof_KeySpec s cell = s) ∧
    (∀ scancells : ScanCells,
      forget_buffer (collect_indices sizeof_KeySpec s
          (without_malformed s.m_column_map scancells)) =
        forget_buffer (collect_indices sizeof_KeySpec s scancells)) :=
  ⟨fun cell h => collect_cell_malformed sizeof_KeySpec s cell h,
    fun scancells => collect_indices_without_malformed sizeof_KeySpec s scancells⟩

/-- Witness of C8: the entries `abc` and `9999,row<TAB>val` next to two valid entries. -/
theorem C8_malformed_entries_witness :
    (malformed (IndexScannerCallback ex_schema ScanSpecBuilder false).m_column_map
        (ex_index_cell ex_key_abc).row_key ∧
      malformed (IndexScannerCallback ex_schema ScanSpecBuilder false).m_column_map
        (ex_index_cell ex_key_9999).row_key) ∧
    (collect_cell 64 (IndexScannerCallback ex_schema ScanSpecBuilder false)
        (ex_index_cell ex_key_abc) = IndexScannerCallback ex_schema ScanSpecBuilder false ∧
      collect_cell 64 (IndexScannerCallback ex_schema ScanSpecBuilder false)
        (ex_index_cell ex_key_9999) = IndexScannerCallback ex_schema ScanSpecBuilder false) ∧
    forget_buffer (collect_indices 64 (IndexScannerCallback ex_schema ScanSpecBuilder false)
        (without_malformed (IndexScannerCallback ex_schema ScanSpecBuilder false).m_column_map
          ex_index_batch)) =
      forget_buffer (collect_indices 64 (IndexScannerCallback ex_schema ScanSpecBuilder false)
        ex_index_batch) :=
  ⟨⟨by decide, by decide⟩,
    ⟨(C8_malformed_entries_are_dropped 64
        (IndexScannerCallback ex_schema ScanSpecBuilder false)).1 _ (by decide),
      (C8_malformed_entries_are_dropped 64
        (IndexScannerCallback ex_schema ScanSpecBuilder false)).1 _ (by decide)⟩,
    (C8_malformed_entries_are_dropped 64
      (IndexScannerCallback ex_schema ScanSpecBuilder false)).2 ex_index_batch⟩

/-- C9 (row-interval filter): `row_intervals_match` is true exactly when some interval has a
start bound the row satisfies (absent or empty, or at or before the row when inclusive, before
the row otherwise) and an end bound it satisfies (absent or empty, or at or after the row when
inclusive, after the row otherwise), in the order of byte strings; and for the one interval
from `m` inclusive to `t` exclusive, of the rows `alpha`, `mango`, `tango`, `zebra` only `mango`
matches. -/
theorem C9_row_intervals_match :
    (∀ (rivec : List RowInterval) (row : Bytes),
      row_intervals_match rivec row = true ↔ ∃ ri ∈ rivec, row_interval_contains ri row) ∧
    (row_intervals_match [ex_interval_m_t] [97, 108, 112, 104, 97] = false ∧
      row_intervals_match [ex_interval_m_t] [109, 97, 110, 103, 111] = true ∧
      row_intervals_match [ex_interval_m_t] [116, 97, 110, 103, 111] = false ∧
      row_intervals_match [ex_interval_m_t] [122, 101, 98, 114, 97] = false) :=
  ⟨row_intervals_match_iff, by decide⟩

/-- C10 (cell-interval filter), evaluated on the one interval from `(b, c)` to `(d, c)`, both
inclusive, with the row `z` and the column `c`: the row is after the end row `d`, so the cell is
outside the interval, yet `cell_intervals_match` is true.  It returns at once for a row after
`start_row`, before it has looked at the end bound. -/
theorem C10_row_after_end_row_matches :
    bytes_lt (deref ex_cell_interval.start_row) [122] ∧
    bytes_lt (deref ex_cell_interval.end_row) [122] ∧
    cell_intervals_match [ex_cell_interval] [122] [99] = true := by
  refine ⟨by decide, by decide, ?_⟩
  rfl

/-! ## The order of candidate keys -/

theorem cstr_cons_nul (xs : Bytes) : cstr (0 :: xs) = [] := by simp [cstr]

theorem cstr_cons_ne (x : Nat) (xs : Bytes) (h : x ≠ 0) : cstr (x :: xs) = x :: cstr xs := by
  simp [cstr, List.takeWhile_cons, h]

theorem memcmp_lt_iff (a : Bytes) : ∀ b : Bytes,
    (if memcmp a b (min (strlen a) (strlen b)) > 0 then false
      else if memcmp a b (min (strlen a) (strlen b)) < 0 then true
      else if strlen a < strlen b then true else false) = true ↔ bytes_lt a b := by
  unfold bytes_lt
  induction a with
  | nil =>
    intro b
    cases b with
    | nil => simp [strlen, cstr, memcmp]
    | cons y ys =>
      by_cases hy : y = 0
      · subst hy; simp [strlen, cstr, memcmp]
      · have hnil : cstr ([] : Bytes) = [] := rfl
        simp [strlen, cstr_cons_ne y ys hy, memcmp, List.Lex.nil, hnil]
  | cons x xs ih =>
    intro b
    by_cases hx : x = 0
    · subst hx
      cases b with
      | nil => simp [strlen, cstr, memcmp]
      | cons y ys =>
        by_cases hy : y = 0
        · subst hy; simp [strlen, cstr, memcmp]
        · simp [strlen, cstr_cons_nul, cstr_cons_ne y ys hy, memcmp, List.Lex.nil]
    · cases b with
      | nil => simp [strlen, cstr_cons_ne x xs hx, memcmp, cstr]
      | cons y ys =>
        by_cases hy : y = 0
        · subst hy; simp [strlen, cstr_cons_ne x xs hx, cstr_cons_nul, memcmp]
        · have hmin : min (strlen (x :: xs)) (strlen (y :: ys)) =
              min (strlen xs) (strlen ys) + 1 := by
            simp only [strlen, cstr_cons_ne x xs hx, cstr_cons_ne y ys hy, List.length_cons]
            omega
          have hl : (strlen (x :: xs) < strlen (y :: ys)) ↔ (strlen xs < strlen ys) := by
            simp only [strlen, cstr_cons_ne x xs hx, cstr_cons_ne y ys hy, List.length_cons]
            omega
          rw [hmin, cstr_cons_ne x xs hx, cstr_cons_ne y ys hy]
          rcases Nat.lt_trichotomy x y with h | h | h
          · simp [memcmp, byteAt, h, List.Lex.rel h]
          · subst h
            have := ih ys
            simp only [memcmp, byteAt, List.getD_cons_zero, lt_self_iff_false, if_false,
              List.tail_cons, List.Lex.cons_iff]
            simp only [hl]
            exact this
          · have hn : ¬ x < y := by omega
            have hne : x ≠ y := by omega
            simp only [memcmp, byteAt, List.getD_cons_zero, hn, h, if_false, if_true]
            simp
            intro hl
            cases hl with
            | cons h' => exact hne rfl
            | rel h' => exact hn h'

theorem KeySpec.lt_iff (a b : KeySpec) : KeySpec.lt a b = true ↔ bytes_lt a.row b.row := by
  unfold KeySpec.lt
  exact memcmp_lt_iff a.row b.row

theorem bytes_lt_irrefl (a : Bytes) : ¬ bytes_lt a a :=
  irrefl_of (List.Lex (· < · : Nat → Nat → Prop)) (cstr a)

theorem bytes_lt_trans {a b c : Bytes} (h1 : bytes_lt a b) (h2 : bytes_lt b c) : bytes_lt a c :=
  trans_of (List.Lex (· < · : Nat → Nat → Prop)) h1 h2

theorem bytes_lt_trichotomy (a b : Bytes) : bytes_lt a b ∨ cstr a = cstr b ∨ bytes_lt b a :=
  trichotomous_of (List.Lex (· < · : Nat → Nat → Prop)) (cstr a) (cstr b)

theorem bytes_lt_asymm {a b : Bytes} (h1 : bytes_lt a b) : ¬ bytes_lt b a :=
  fun h2 => bytes_lt_irrefl a (bytes_lt_trans h1 h2)

theorem bytes_lt_ne {a b : Bytes} (h1 : bytes_lt a b) : cstr a ≠ cstr b := by
  intro h
  unfold bytes_lt at h1
  rw [h] at h1
  exact irrefl_of (List.Lex (· < · : Nat → Nat → Prop)) _ h1

theorem bytes_lt_congr_left {a a' b : Bytes} (h : cstr a = cstr a') :
    bytes_lt a b ↔ bytes_lt a' b := by
  unfold bytes_lt; rw [h]

theorem bytes_lt_congr_right {a b b' : Bytes} (h : cstr b = cstr b') :
    bytes_lt a b ↔ bytes_lt a b' := by
  unfold bytes_lt; rw [h]

theorem KeySpec.equiv_iff (a b : KeySpec) :
    (!KeySpec.lt a b && !KeySpec.lt b a) = true ↔ cstr a.row = cstr b.row := by
  have h1 := KeySpec.lt_iff a b
  have h2 := KeySpec.lt_iff b a
  constructor
  · intro h
    simp only [Bool.and_eq_true, Bool.not_eq_true', ← Bool.not_eq_true, h1, h2] at h
    rcases bytes_lt_trichotomy a.row b.row with h' | h' | h'
    · exact absurd h' h.1
    · exact h'
    · exact absurd h' h.2
  · intro h
    simp only [Bool.and_eq_true, Bool.not_eq_true', ← Bool.not_eq_true, h1, h2]
    constructor
    · intro hlt; exact bytes_lt_ne hlt h
    · intro hlt; exact bytes_lt_ne hlt h.symm

theorem CkeyMap.find_iff (m : CkeyMap) (key : KeySpec) :
    CkeyMap.find m key = true ↔ ∃ k ∈ m, cstr k.row = cstr key.row := by
  unfold CkeyMap.find
  simp only [List.any_eq_true, KeySpec.equiv_iff]

theorem CkeyMap.mem_insert (m : CkeyMap) (key : KeySpec) (h : CkeyMap.find m key = false) :
    ∀ k, k ∈ CkeyMap.insert m key ↔ k ∈ m ∨ k = key := by
  induction m with
  | nil => intro k; simp [CkeyMap.insert]
  | cons x xs ih =>
    intro k
    have hx : ¬ cstr x.row = cstr key.row := by
      intro he
      have : CkeyMap.find (x :: xs) key = true :=
        (CkeyMap.find_iff _ _).2 ⟨x, List.mem_cons_self _ _, he⟩
      rw [h] at this
      exact absurd this (by decide)
    have hxs : CkeyMap.find xs key = false := by
      cases hf : CkeyMap.find xs key with
      | false => rfl
      | true =>
        obtain ⟨k', hk', he⟩ := (CkeyMap.find_iff _ _).1 hf
        have : CkeyMap.find (x :: xs) key = true :=
          (CkeyMap.find_iff _ _).2 ⟨k', List.mem_cons_of_mem _ hk', he⟩
        rw [h] at this
        exact absurd this (by decide)
    rw [CkeyMap.insert]
    by_cases h1 : KeySpec.lt key x = true
    · rw [if_pos h1]
      simp only [List.mem_cons]
      tauto
    · by_cases h2 : KeySpec.lt x key = true
      · rw [if_neg h1, if_pos h2, List.mem_cons, List.mem_cons, ih hxs k]
        tauto
      · exfalso
        apply hx
        apply (KeySpec.equiv_iff x key).1
        simp only [Bool.not_eq_true] at h1 h2
        simp [h1, h2]

theorem CkeyMap.insert_ascending (m : CkeyMap) (key : KeySpec)
    (h : CkeyMap.find m key = false) (hasc : Ascending m) : Ascending (CkeyMap.insert m key) := by
  induction m with
  | nil => simp [CkeyMap.insert, Ascending]
  | cons x xs ih =>
    have hxs : CkeyMap.find xs key = false := by
      cases hf : CkeyMap.find xs key with
      | false => rfl
      | true =>
        obtain ⟨k', hk', he⟩ := (CkeyMap.find_iff _ _).1 hf
        have : CkeyMap.find (x :: xs) key = true :=
          (CkeyMap.find_iff _ _).2 ⟨k', List.mem_cons_of_mem _ hk', he⟩
        rw [h] at this
        exact absurd this (by decide)
    have hx : ¬ cstr x.row = cstr key.row := by
      intro he
      have : CkeyMap.find (x :: xs) key = true :=
        (CkeyMap.find_iff _ _).2 ⟨x, List.mem_cons_self _ _, he⟩
      rw [h] at this
      exact absurd this (by decide)
    unfold Ascending at hasc ⊢
    rw [List.pairwise_cons] at hasc
    rw [CkeyMap.insert]
    by_cases h1 : KeySpec.lt key x = true
    · have hkx := (KeySpec.lt_iff key x).1 h1
      rw [if_pos h1]
      rw [List.pairwise_cons, List.pairwise_cons]
      refine ⟨?_, hasc⟩
      intro k hk
      rcases List.mem_cons.1 hk with rfl | hk
      · exact hkx
      · exact bytes_lt_trans hkx (hasc.1 k hk)
    · have h2 : KeySpec.lt x key = true := by
        by_contra h2
        apply hx
        apply (KeySpec.equiv_iff x key).1
        simp only [Bool.not_eq_true] at h1 h2
        simp [h1, h2]
      have hxk := (KeySpec.lt_iff x key).1 h2
      rw [if_neg h1, if_pos h2]
      rw [List.pairwise_cons]
      refine ⟨?_, ih hxs hasc.2⟩
      intro k hk
      rcases (CkeyMap.mem_insert xs key hxs k).1 hk with hk | rfl
      · exact hasc.1 k hk
      · exact hxk

theorem Ascending.nodup_rows (m : CkeyMap) (h : Ascending m) :
    (m.map (fun k => cstr k.row)).Nodup := by
  unfold Ascending at h
  rw [List.Nodup, List.pairwise_map]
  exact h.imp (fun hab => bytes_lt_ne hab)

theorem store_key_tmp_keys (sizeof_KeySpec : Nat) (s : State) (key : KeySpec)
    (hm : s.m_mutator = false) :
    (store_key sizeof_KeySpec s key).m_tmp_keys =
      if CkeyMap.find s.m_tmp_keys key then s.m_tmp_keys
      else CkeyMap.insert s.m_tmp_keys key := by
  unfold store_key
  cases hf : CkeyMap.find s.m_tmp_keys key <;> simp [hm, hf]

theorem store_key_ascending (sizeof_KeySpec : Nat) (s : State) (key : KeySpec)
    (hm : s.m_mutator = false) (hasc : Ascending s.m_tmp_keys) :
    Ascending (store_key sizeof_KeySpec s key).m_tmp_keys ∧
      (∀ row, (∃ k ∈ (store_key sizeof_KeySpec s key).m_tmp_keys, cstr k.row = row) ↔
        ((∃ k ∈ s.m_tmp_keys, cstr k.row = row) ∨ cstr key.row = row)) := by
  rw [store_key_tmp_keys sizeof_KeySpec s key hm]
  cases hf : CkeyMap.find s.m_tmp_keys key
  · simp only [Bool.false_eq_true, if_false]
    refine ⟨CkeyMap.insert_ascending _ _ hf hasc, ?_⟩
    intro row
    constructor
    · rintro ⟨k, hk, he⟩
      rcases (CkeyMap.mem_insert _ _ hf k).1 hk with hk | rfl
      · exact Or.inl ⟨k, hk, he⟩
      · exact Or.inr he
    · rintro (⟨k, hk, he⟩ | he)
      · exact ⟨k, (CkeyMap.mem_insert _ _ hf k).2 (Or.inl hk), he⟩
      · exact ⟨key, (CkeyMap.mem_insert _ _ hf key).2 (Or.inr rfl), he⟩
  · simp only [if_true]
    refine ⟨hasc, ?_⟩
    intro row
    constructor
    · intro h; exact Or.inl h
    · rintro (h | he)
      · exact h
      · obtain ⟨k, hk, hke⟩ := (CkeyMap.find_iff _ _).1 hf
        exact ⟨k, hk, hke.trans he⟩

theorem bytes_lt_prefix (p e : Bytes) (x : Nat) (hp : 0 ∉ p) (hx : x ≠ 0) :
    bytes_lt p (p ++ x :: e) := by
  unfold bytes_lt
  induction p with
  | nil =>
    rw [List.nil_append, cstr_cons_ne x e hx]
    exact List.Lex.nil
  | cons a as ih =>
    have ha : a ≠ 0 := fun h => hp (h ▸ List.mem_cons_self _ _)
    have has : 0 ∉ as := fun h => hp (List.mem_cons_of_mem _ h)
    rw [List.cons_append, cstr_cons_ne a _ ha, cstr_cons_ne a _ ha]
    exact List.Lex.cons (ih has)

/-- C16 (candidate-key ordering): `operator<` on `KeySpec` holds exactly when the row of the
left key is before the row of the right key in bytewise lexicographic order on C strings, a
proper prefix before its extensions; it is irreflexive and transitive, and of two keys exactly
one of `a < b`, `b < a` and equality of the rows holds.  Hence a candidate map that is in
strictly ascending order stays so when `collect_indices` stores a key in it, holds a key with a
given row afterwards exactly when it did before or the row is the stored key's, and has no two
entries with the same row. -/
theorem C16_candidate_key_ordering :
    (∀ a b : KeySpec, KeySpec.lt a b = true ↔ bytes_lt a.row b.row) ∧
    (∀ (p e : Bytes) (x : Nat), 0 ∉ p → x ≠ 0 → bytes_lt p (p ++ x :: e)) ∧
    (∀ a : KeySpec, KeySpec.lt a a = false) ∧
    (∀ a b c : KeySpec, KeySpec.lt a b = true → KeySpec.lt b c = true →
      KeySpec.lt a c = true) ∧
    (∀ a b : KeySpec,
      (KeySpec.lt a b = true ∧ KeySpec.lt b a = false ∧ cstr a.row ≠ cstr b.row) ∨
      (KeySpec.lt a b = false ∧ KeySpec.lt b a = true ∧ cstr a.row ≠ cstr b.row) ∨
      (KeySpec.lt a b = false ∧ KeySpec.lt b a = false ∧ cstr a.row = cstr b.row)) ∧
    (∀ (sizeof_KeySpec : Nat) (s : State) (key : KeySpec), s.m_mutator = false →
      Ascending s.m_tmp_keys →
      Ascending (store_key sizeof_KeySpec s key).m_tmp_keys ∧
      (∀ row, (∃ k ∈ (store_key sizeof_KeySpec s key).m_tmp_keys, cstr k.row = row) ↔
        ((∃ k ∈ s.m_tmp_keys, cstr k.row = row) ∨ cstr key.row = row))) ∧
    (∀ m : CkeyMap, Ascending m → (m.map (fun k => cstr k.row)).Nodup) := by
  have hf : ∀ a b : KeySpec, KeySpec.lt a b = false ↔ ¬ bytes_lt a.row b.row := by
    intro a b
    rw [← KeySpec.lt_iff, Bool.not_eq_true]
  refine ⟨KeySpec.lt_iff, bytes_lt_prefix, ?_, ?_, ?_, store_key_ascending,
    Ascending.nodup_rows⟩
  · intro a
    rw [hf]
    exact bytes_lt_irrefl _
  · intro a b c h1 h2
    rw [KeySpec.lt_iff] at h1 h2 ⊢
    exact bytes_lt_trans h1 h2
  · intro a b
    simp only [hf, KeySpec.lt_iff]
    rcases bytes_lt_trichotomy a.row b.row with h | h | h
    · exact Or.inl ⟨h, bytes_lt_asymm h, bytes_lt_ne h⟩
    · right; right
      refine ⟨?_, ?_, h⟩
      · intro hlt; exact bytes_lt_ne hlt h
      · intro hlt; exact bytes_lt_ne hlt h.symm
    · right; left
      exact ⟨bytes_lt_asymm h, h, fun he => bytes_lt_ne h he.symm⟩

/-! ## The loop of `collect_indices` -/

theorem collect_cell_eq (sizeof_KeySpec : Nat) (s : State) (cell : Cell) :
    collect_cell sizeof_KeySpec s cell =
      match entry_key s.m_column_map s.m_primary_spec cell with
      | none => s
      | some key => store_key sizeof_KeySpec s key := by
  unfold collect_cell entry_key
  simp only
  split_ifs <;> rfl

theorem store_key_mutator (sizeof_KeySpec : Nat) (s : State) (key : KeySpec)
    (h : s.m_mutator = true) :
    store_key sizeof_KeySpec s key =
      { s with staged := s.staged ++ [key]
               m_tmp_cutoff := s.m_tmp_cutoff + (key.row_len + sizeof_KeySpec) } := by
  unfold store_key
  simp [h]

theorem store_key_buffered (sizeof_KeySpec : Nat) (s : State) (key : KeySpec)
    (h : s.m_mutator = false) :
    store_key sizeof_KeySpec s key =
      { s with m_tmp_keys := CkeyMap.store s.m_tmp_keys key
               m_tmp_cutoff := s.m_tmp_cutoff + (key.row_len + sizeof_KeySpec) } := by
  unfold store_key CkeyMap.store
  cases hf : CkeyMap.find s.m_tmp_keys key
  · simp [h, hf]
  · cases s
    simp at h hf
    simp [h, hf]

theorem foldl_store_key_mutator (sizeof_KeySpec : Nat) (keys : List KeySpec) :
    ∀ s : State, s.m_mutator = true →
      keys.foldl (store_key sizeof_KeySpec) s =
        { s with staged := s.staged ++ keys
                 m_tmp_cutoff := s.m_tmp_cutoff + cutoff_bytes sizeof_KeySpec keys } := by
  induction keys with
  | nil => intro s _; cases s; simp [cutoff_bytes]
  | cons k ks ih =>
    intro s h
    rw [List.foldl_cons, ih (store_key sizeof_KeySpec s k)
      (by rw [store_key_mutator _ _ _ h]; exact h), store_key_mutator _ _ _ h]
    simp [cutoff_bytes, Nat.add_assoc]

theorem foldl_store_key_buffered (sizeof_KeySpec : Nat) (keys : List KeySpec) :
    ∀ s : State, s.m_mutator = false →
      keys.foldl (store_key sizeof_KeySpec) s =
        { s with m_tmp_keys := keys.foldl CkeyMap.store s.m_tmp_keys
                 m_tmp_cutoff := s.m_tmp_cutoff + cutoff_bytes sizeof_KeySpec keys } := by
  induction keys with
  | nil => intro s _; cases s; simp [cutoff_bytes]
  | cons k ks ih =>
    intro s h
    rw [List.foldl_cons, ih (store_key sizeof_KeySpec s k)
      (by rw [store_key_buffered _ _ _ h]; exact h), store_key_buffered _ _ _ h]
    simp [cutoff_bytes, Nat.add_assoc]

theorem foldl_collect_cell (sizeof_KeySpec : Nat) (cells : List Cell) :
    ∀ s : State, cells.foldl (collect_cell sizeof_KeySpec) s =
      (entry_keys s cells).foldl (store_key sizeof_KeySpec) s := by
  induction cells with
  | nil => intro s; rfl
  | cons c cs ih =>
    intro s
    rw [List.foldl_cons, collect_cell_eq]
    unfold entry_keys
    cases hk : entry_key s.m_column_map s.m_primary_spec c with
    | none =>
      simp only [List.filterMap_cons, hk]
      exact ih s
    | some key =>
      simp only [List.filterMap_cons, hk, List.foldl_cons]
      have h1 : (store_key sizeof_KeySpec s key).m_column_map = s.m_column_map :=
        store_key_column_map _ _ _
      have h2 : (store_key sizeof_KeySpec s key).m_primary_spec = s.m_primary_spec := by
        unfold store_key
        split
        · rfl
        · split <;> rfl
      rw [ih, entry_keys, h1, h2]

/-- The state after the loop of `collect_indices`, by the mode the coordinator is in. -/
theorem collect_loop_eq (sizeof_KeySpec : Nat) (s : State) (cells : List Cell) :
    cells.foldl (collect_cell sizeof_KeySpec) s =
      if s.m_mutator then
        { s with staged := s.staged ++ entry_keys s cells
                 m_tmp_cutoff := s.m_tmp_cutoff + cutoff_bytes sizeof_KeySpec (entry_keys s cells) }
      else
        { s with m_tmp_keys := (entry_keys s cells).foldl CkeyMap.store s.m_tmp_keys
                 m_tmp_cutoff := s.m_tmp_cutoff +
                   cutoff_bytes sizeof_KeySpec (entry_keys s cells) } := by
  rw [foldl_collect_cell]
  by_cases h : s.m_mutator = true
  · rw [if_pos h]
    exact foldl_store_key_mutator _ _ _ h
  · rw [if_neg h]
    exact foldl_store_key_buffered _ _ _ (by simpa using h)

theorem collect_loop_frame (sizeof_KeySpec : Nat) (s : State) (cells : List Cell) :
    (cells.foldl (collect_cell sizeof_KeySpec) s).m_tmp_table = s.m_tmp_table ∧
    (cells.foldl (collect_cell sizeof_KeySpec) s).m_scanners = s.m_scanners ∧
    (cells.foldl (collect_cell sizeof_KeySpec) s).m_primary_spec = s.m_primary_spec ∧
    (cells.foldl (collect_cell sizeof_KeySpec) s).m_mutator = s.m_mutator ∧
    (cells.foldl (collect_cell sizeof_KeySpec) s).m_eos = s.m_eos ∧
    (cells.foldl (collect_cell sizeof_KeySpec) s).m_scancells_buffer = s.m_scancells_buffer ∧
    (cells.foldl (collect_cell sizeof_KeySpec) s).m_sspecs = s.m_sspecs ∧
    (cells.foldl (collect_cell sizeof_KeySpec) s).m_outstanding_scanners =
      s.m_outstanding_scanners ∧
    (cells.foldl (collect_cell sizeof_KeySpec) s).m_column_map = s.m_column_map := by
  rw [collect_loop_eq]
  split <;> simp

theorem finish_more_staging (s2 : State) (ht : s2.m_tmp_table.isSome = true) :
    collect_indices_finish s2 false =
      Outcome.ok { s2 with m_tmp_keys := [], m_scancells_buffer := [] } := by
  unfold collect_indices_finish
  obtain ⟨tab, htab⟩ := Option.isSome_iff_exists.1 ht
  simp [htab, Outcome.andThen]

theorem finish_switch (s2 : State) (h1 : s2.m_tmp_table = none) (h2 : s2.m_mutator = false)
    (h3 : s2.m_tmp_cutoff > TMP_CUTOFF) :
    collect_indices_finish s2 false = Outcome.ok
      { s2 with
        m_tmp_table := some ((s2.schema.filter (fun cf =>
          !((s2.m_qualifier_scan && !cf.has_qualifier_index) ||
            (!s2.m_qualifier_scan && !cf.has_index)))).map (fun cf => cf.name))
        m_mutator := true
        staged := s2.staged ++ s2.m_tmp_keys
        m_tmp_keys := []
        m_scancells_buffer := [] } := by
  unfold collect_indices_finish
  simp [h1, h2, h3, create_temp_table, Outcome.andThen]

theorem finish_more_assert (s2 : State) (h1 : s2.m_tmp_table = none) (h2 : s2.m_mutator = true)
    (h3 : s2.m_tmp_cutoff > TMP_CUTOFF) :
    collect_indices_finish s2 false = Outcome.assert_failed := by
  unfold collect_indices_finish
  simp [h1, h2, h3, create_temp_table, Outcome.andThen]

theorem finish_more_quiet (s2 : State) (h1 : s2.m_tmp_table = none)
    (h3 : ¬ s2.m_tmp_cutoff > TMP_CUTOFF) :
    collect_indices_finish s2 false = Outcome.ok s2 := by
  unfold collect_indices_finish
  simp [h1, h3, Outcome.andThen]

theorem finish_eos_staging (s2 : State) (hm : s2.m_mutator = true)
    (ht : s2.m_tmp_table.isSome = true) :
    collect_indices_finish s2 true =
      Outcome.ok (create_scanner_async { s2 with m_mutator := false } TableKind.temporary
        (index_eos_spec s2.m_primary_spec)) := by
  unfold collect_indices_finish
  obtain ⟨tab, htab⟩ := Option.isSome_iff_exists.1 ht
  simp [htab, hm]

theorem finish_eos_staging_closed (s2 : State) (hm : s2.m_mutator = false)
    (ht : s2.m_tmp_table.isSome = true) :
    collect_indices_finish s2 true =
      Outcome.ok (create_scanner_async s2 TableKind.temporary
        (index_eos_spec s2.m_primary_spec)) := by
  unfold collect_indices_finish
  obtain ⟨tab, htab⟩ := Option.isSome_iff_exists.1 ht
  simp [htab, hm]

theorem finish_eos_empty (s2 : State) (hm : s2.m_mutator = false)
    (ht : s2.m_tmp_table = none) (hk : s2.m_tmp_keys = []) :
    collect_indices_finish s2 true = Outcome.ok { s2 with m_eos := true } := by
  unfold collect_indices_finish
  simp [ht, hm, hk]

theorem finish_eos_empty_open (s2 : State) (hm : s2.m_mutator = true)
    (ht : s2.m_tmp_table = none) (hk : s2.m_tmp_keys = []) :
    collect_indices_finish s2 true =
      Outcome.ok { s2 with m_mutator := false, m_eos := true } := by
  unfold collect_indices_finish
  simp [ht, hm, hk]

theorem finish_eos_primary (s2 : State) (hm : s2.m_mutator = false)
    (ht : s2.m_tmp_table = none) (hk : s2.m_tmp_keys ≠ []) :
    ∃ sp : ScanSpec, collect_indices_finish s2 true =
      Outcome.ok { create_scanner_async s2 TableKind.primary sp with
        m_tmp_keys := [], m_scancells_buffer := [] } := by
  unfold collect_indices_finish
  refine ⟨{ s2.m_tmp_keys.foldl (fun b k => b.add_row k.row) (index_eos_spec s2.m_primary_spec)
    with column_predicates := (s2.m_tmp_keys.foldl (fun b k => b.add_row k.row)
      (index_eos_spec s2.m_primary_spec)).column_predicates ++
        s2.m_primary_spec.column_predicates }, ?_⟩
  simp [ht, hm, hk]

theorem finish_eos_primary_open (s2 : State) (hm : s2.m_mutator = true)
    (ht : s2.m_tmp_table = none) (hk : s2.m_tmp_keys ≠ []) :
    ∃ sp : ScanSpec, collect_indices_finish s2 true =
      Outcome.ok { create_scanner_async { s2 with m_mutator := false } TableKind.primary sp with
        m_tmp_keys := [], m_scancells_buffer := [] } := by
  unfold collect_indices_finish
  refine ⟨{ s2.m_tmp_keys.foldl (fun b k => b.add_row k.row) (index_eos_spec s2.m_primary_spec)
    with column_predicates := (s2.m_tmp_keys.foldl (fun b k => b.add_row k.row)
      (index_eos_spec s2.m_primary_spec)).column_predicates ++
        s2.m_primary_spec.column_predicates }, ?_⟩
  simp [ht, hm, hk]

theorem collect_indices_finish_eos (s2 s1 s : State)
    (ht : s1.m_tmp_table = s.m_tmp_table) (hsc : s1.m_scanners = s.m_scanners)
    (hps : s1.m_primary_spec = s.m_primary_spec)
    (h1 : s2.m_tmp_table = s1.m_tmp_table) (h2 : s2.m_scanners = s1.m_scanners)
    (h3 : s2.m_primary_spec = s1.m_primary_spec) (h4 : s2.m_tmp_keys = s1.m_tmp_keys) :
    ∃ r, collect_indices_finish s2 true = Outcome.ok r ∧
        ((s.m_tmp_table.isSome = true ∧ r.m_tmp_table = s.m_tmp_table ∧
            r.m_scanners = s.m_scanners ++
              [{ table := TableKind.temporary, spec := index_eos_spec s.m_primary_spec }]) ∨
          (s.m_tmp_table = none ∧ s1.m_tmp_keys ≠ [] ∧ r.m_tmp_table = none ∧
            (∃ spec, r.m_scanners = s.m_scanners ++
              [{ table := TableKind.primary, spec := spec }]) ∧
            r.m_tmp_keys = [] ∧ r.m_scancells_buffer = []) ∨
          (s.m_tmp_table = none ∧ s1.m_tmp_keys = [] ∧ r.m_tmp_table = none ∧
            r.m_scanners = s.m_scanners ∧ r.m_eos = true)) := by
  rw [← ht, ← hsc, ← hps, ← h1, ← h2, ← h3, ← h4]
  by_cases hsome : s2.m_tmp_table.isSome = true
  · cases hm : s2.m_mutator
    · exact ⟨_, finish_eos_staging_closed s2 hm hsome, Or.inl ⟨hsome, rfl, rfl⟩⟩
    · exact ⟨_, finish_eos_staging s2 hm hsome, Or.inl ⟨hsome, rfl, rfl⟩⟩
  · have hnone : s2.m_tmp_table = none := by
      cases h : s2.m_tmp_table with
      | none => rfl
      | some tab => rw [h] at hsome; exact absurd rfl hsome
    by_cases hk : s2.m_tmp_keys = []
    · cases hm : s2.m_mutator
      · exact ⟨_, finish_eos_empty s2 hm hnone hk,
          Or.inr (Or.inr ⟨hnone, hk, hnone, rfl, rfl⟩)⟩
      · exact ⟨_, finish_eos_empty_open s2 hm hnone hk,
          Or.inr (Or.inr ⟨hnone, hk, hnone, rfl, rfl⟩)⟩
    · cases hm : s2.m_mutator
      · obtain ⟨sp, e⟩ := finish_eos_primary s2 hm hnone hk
        exact ⟨_, e, Or.inr (Or.inl ⟨hnone, hk, hnone, ⟨sp, rfl⟩, rfl, rfl⟩)⟩
      · obtain ⟨sp, e⟩ := finish_eos_primary_open s2 hm hnone hk
        exact ⟨_, e, Or.inr (Or.inl ⟨hnone, hk, hnone, ⟨sp, rfl⟩, rfl, rfl⟩)⟩

theorem collect_indices_finish_more (s2 s : State) (h2 : s2.m_scanners = s.m_scanners) :
    collect_indices_finish s2 false = Outcome.assert_failed ∨
      ∃ r, collect_indices_finish s2 false = Outcome.ok r ∧ r.m_scanners = s.m_scanners := by
  rw [← h2]
  simp only [collect_indices_finish, Bool.false_eq_true, if_false, create_temp_table]
  by_cases hc : (s2.m_tmp_table.isNone && decide (s2.m_tmp_cutoff > TMP_CUTOFF)) = true
  · rw [if_pos hc]
    cases htab : s2.m_tmp_table with
    | some tab => simp [htab] at hc
    | none =>
      cases hm : s2.m_mutator <;> simp [Outcome.andThen]
  · rw [if_neg hc]
    simp only [Outcome.andThen]
    split_ifs <;> simp

/-- C15 (end-of-indexing transition): for an index batch that carries end-of-stream,
`collect_indices` returns, and exactly one of three cases applies: the staging table exists and
one scanner is added, on the staging table; or there is no staging table, the in-memory set
after the loop is non-empty, one scanner is added, on the primary table, and the in-memory set
and the retained batches are empty afterwards; or there is no staging table, the in-memory set
is empty, no scanner is added and `m_eos` is set.  For a batch without end-of-stream the list
of scanners is unchanged whenever `collect_indices` returns, and it never waits. -/
theorem C15_end_of_indexing_transition (sizeof_KeySpec : Nat) (s : State)
    (scancells : ScanCells) :
    (scancells.eos = true →
      ∃ s1, collect_indices sizeof_KeySpec s scancells = Outcome.ok s1 ∧
        ((s.m_tmp_table.isSome = true ∧ s1.m_tmp_table = s.m_tmp_table ∧
            s1.m_scanners = s.m_scanners ++
              [{ table := TableKind.temporary, spec := index_eos_spec s.m_primary_spec }]) ∨
          (s.m_tmp_table = none ∧
            (scancells.cells.foldl (collect_cell sizeof_KeySpec) s).m_tmp_keys ≠ [] ∧
            s1.m_tmp_table = none ∧
            (∃ spec, s1.m_scanners = s.m_scanners ++
              [{ table := TableKind.primary, spec := spec }]) ∧
            s1.m_tmp_keys = [] ∧ s1.m_scancells_buffer = []) ∨
          (s.m_tmp_table = none ∧
            (scancells.cells.foldl (collect_cell sizeof_KeySpec) s).m_tmp_keys = [] ∧
            s1.m_tmp_table = none ∧
            s1.m_scanners = s.m_scanners ∧ s1.m_eos = true))) ∧
    (scancells.eos = false →
      (collect_indices sizeof_KeySpec s scancells = Outcome.assert_failed ∨
        ∃ s1, collect_indices sizeof_KeySpec s scancells = Outcome.ok s1 ∧
          s1.m_scanners = s.m_scanners)) := by
  obtain ⟨ht, hsc, hps, _, _, _, _, _, _⟩ :=
    collect_loop_frame sizeof_KeySpec s scancells.cells
  unfold collect_indices
  generalize scancells.cells.foldl (collect_cell sizeof_KeySpec) s = s1 at ht hsc hps ⊢
  constructor
  · intro he
    rw [he]
    exact collect_indices_finish_eos _ s1 s ht hsc hps (by split <;> rfl) (by split <;> rfl)
      (by split <;> rfl) (by split <;> rfl)
  · intro he
    rw [he]
    exact collect_indices_finish_more _ s (by split <;> simp [hsc])

/-- Witness of C15: a coordinator with its index scanner registered, on the end-of-stream batch
with the entry of row `a` and on a batch without end-of-stream. -/
theorem C15_end_of_indexing_witness :
    (ex_last_index_batch.eos = true ∧ ex_index_batch.eos = false) ∧
    (∃ s1, collect_indices 64
        (register_scanner (IndexScannerCallback ex_schema ScanSpecBuilder false))
        ex_last_index_batch = Outcome.ok s1 ∧
      (((register_scanner (IndexScannerCallback ex_schema ScanSpecBuilder
              false)).m_tmp_table.isSome = true ∧
          s1.m_tmp_table =
            (register_scanner (IndexScannerCallback ex_schema ScanSpecBuilder
              false)).m_tmp_table ∧
          s1.m_scanners =
            (register_scanner (IndexScannerCallback ex_schema ScanSpecBuilder
              false)).m_scanners ++
              [{ table := TableKind.temporary,
                 spec := index_eos_spec (register_scanner (IndexScannerCallback ex_schema
                   ScanSpecBuilder false)).m_primary_spec }]) ∨
        ((register_scanner (IndexScannerCallback ex_schema ScanSpecBuilder
              false)).m_tmp_table = none ∧
          (ex_last_index_batch.cells.foldl (collect_cell 64)
            (register_scanner (IndexScannerCallback ex_schema ScanSpecBuilder
              false))).m_tmp_keys ≠ [] ∧
          s1.m_tmp_table = none ∧
          (∃ spec, s1.m_scanners =
            (register_scanner (IndexScannerCallback ex_schema ScanSpecBuilder
              false)).m_scanners ++ [{ table := TableKind.primary, spec := spec }]) ∧
          s1.m_tmp_keys = [] ∧ s1.m_scancells_buffer = []) ∨
        ((register_scanner (IndexScannerCallback ex_schema ScanSpecBuilder
              false)).m_tmp_table = none ∧
          (ex_last_index_batch.cells.foldl (collect_cell 64)
            (register_scanner (IndexScannerCallback ex_schema ScanSpecBuilder
              false))).m_tmp_keys = [] ∧
          s1.m_tmp_table = none ∧
          s1.m_scanners =
            (register_scanner (IndexScannerCallback ex_schema ScanSpecBuilder
              false)).m_scanners ∧
          s1.m_eos = true))) ∧
    (collect_indices 64 (register_scanner (IndexScannerCallback ex_schema ScanSpecBuilder false))
        ex_index_batch = Outcome.assert_failed ∨
      ∃ s1, collect_indices 64
          (register_scanner (IndexScannerCallback ex_schema ScanSpecBuilder false))
          ex_index_batch = Outcome.ok s1 ∧
        s1.m_scanners =
          (register_scanner (IndexScannerCallback ex_schema ScanSpecBuilder false)).m_scanners) :=
  ⟨⟨rfl, rfl⟩,
    (C15_end_of_indexing_transition 64
      (register_scanner (IndexScannerCallback ex_schema ScanSpecBuilder false))
      ex_last_index_batch).1 rfl,
    (C15_end_of_indexing_transition 64
      (register_scanner (IndexScannerCallback ex_schema ScanSpecBuilder false))
      ex_index_batch).2 rfl⟩

/-! ## Runs of callbacks -/

theorem entry_key_ex (spec : ScanSpec) (h1 : spec.row_intervals = [])
    (h2 : spec.cell_intervals = []) :
    entry_key [(1, [99, 102])] spec (ex_index_cell (ex_index_key 97)) = some ex_key_a := by
  unfold entry_key
  simp only [h1, h2]
  rfl

theorem entry_keys_replicate (s : State) (n : Nat) (cell : Cell) (key : KeySpec)
    (h : entry_key s.m_column_map s.m_primary_spec cell = some key) :
    entry_keys s (List.replicate n cell) = List.replicate n key := by
  unfold entry_keys
  induction n with
  | zero => rfl
  | succ n ih => simp [List.replicate_succ, List.filterMap_cons, h, ih]

theorem CkeyMap.store_self (key : KeySpec) : CkeyMap.store [key] key = [key] := by
  have : CkeyMap.find [key] key = true :=
    (CkeyMap.find_iff _ _).2 ⟨key, List.mem_singleton.2 rfl, rfl⟩
  simp [CkeyMap.store, this]

theorem foldl_store_replicate (key : KeySpec) (n : Nat) :
    (List.replicate (n + 1) key).foldl CkeyMap.store [] = [key] := by
  have h1 : ∀ n, (List.replicate n key).foldl CkeyMap.store [key] = [key] := by
    intro n
    induction n with
    | zero => rfl
    | succ n ih => rw [List.replicate_succ, List.foldl_cons, CkeyMap.store_self, ih]
  rw [List.replicate_succ, List.foldl_cons]
  have : CkeyMap.store [] key = [key] := by simp [CkeyMap.store, CkeyMap.find, CkeyMap.insert]
  rw [this, h1]

theorem cutoff_bytes_replicate (sizeof_KeySpec : Nat) (key : KeySpec) (n : Nat) :
    cutoff_bytes sizeof_KeySpec (List.replicate n key) = n * (key.row_len + sizeof_KeySpec) := by
  simp [cutoff_bytes, List.sum_replicate]

theorem final_decrement_quiet (s : State) (h : s.m_eos = false) :
    final_decrement s false = Outcome.ok s := by
  unfold final_decrement final_eos
  simp [h]

theorem scan_ok_more (sizeof_KeySpec : Nat) (s : State) (table : TableKind)
    (scancells : ScanCells) (h1 : s.m_eos = false) (h2 : scancells.eos = false)
    (h3 : scancells.cells ≠ []) :
    scan_ok sizeof_KeySpec s table scancells =
      (match table with
        | TableKind.index => collect_indices sizeof_KeySpec s scancells
        | TableKind.temporary => verify_results s scancells
        | TableKind.primary =>
          Outcome.ok (if s.m_track_limits then track_predicates s { scancells with eos := false }
            else { s with sink := s.sink ++ [SinkCall.scan_ok scancells.cells false] })).andThen
        (fun s3 => final_decrement s3 false) := by
  unfold scan_ok
  have h4 : scancells.cells.isEmpty = false := by
    cases hc : scancells.cells with
    | nil => exact absurd hc h3
    | cons _ _ => rfl
  simp only [h2, h4, h1, Bool.and_false, Bool.false_and, Bool.false_eq_true, if_false,
    beq_iff_eq, Bool.and_false]

theorem run_register (sizeof_KeySpec : Nat) (s : State) (cbs : List Callback) :
    run sizeof_KeySpec s (Callback.register_scanner :: cbs) =
      run sizeof_KeySpec (register_scanner s) cbs := rfl

theorem run_scan_ok (sizeof_KeySpec : Nat) (s s1 : State) (table : TableKind)
    (scancells : ScanCells) (cbs : List Callback)
    (h : scan_ok sizeof_KeySpec s table scancells = Outcome.ok s1) :
    run sizeof_KeySpec s (Callback.scan_ok table scancells :: cbs) =
      run sizeof_KeySpec s1 cbs := by
  rw [run, deliver, h]
  rfl

/-! ## What the callbacks leave alone -/

set_option maxHeartbeats 1000000 in
theorem track_cell_frame (s : State) (l : TrackLocals) (cell : Cell) :
    candidate_stores (track_cell s l cell).1 = candidate_stores s ∧
      (track_cell s l cell).1.m_sspecs = s.m_sspecs := by
  unfold track_cell candidate_stores
  split_ifs <;> dsimp only <;> split_ifs <;> exact ⟨rfl, rfl⟩

theorem track_loop_frame (cells : List Cell) : ∀ (s : State) (l : TrackLocals),
    candidate_stores (track_loop cells s l).1 = candidate_stores s ∧
      (track_loop cells s l).1.m_sspecs = s.m_sspecs := by
  induction cells with
  | nil => intro s l; exact ⟨rfl, rfl⟩
  | cons cell cells ih =>
    intro s l
    have h := track_cell_frame s l cell
    unfold track_loop
    rcases hc : track_cell s l cell with ⟨s1, l1, b⟩
    rw [hc] at h
    cases b
    · simp only
      rw [(ih s1 l1).1, (ih s1 l1).2]
      exact h
    · exact h

theorem track_predicates_frame (s : State) (scancells : ScanCells) :
    candidate_stores (track_predicates s scancells) = candidate_stores s ∧
      ((track_predicates s scancells).m_sspecs = s.m_sspecs ∨
        (track_predicates s scancells).m_sspecs = []) := by
  have h := track_loop_frame scancells.cells s
    { last := cstr s.m_last_rowkey_tracking, skip_row := false, scp := [] }
  unfold track_predicates
  by_cases hc : ((scancells.eos && scancells.cells.isEmpty) || s.m_limits_reached) = true
  · rw [if_pos hc]
    exact ⟨rfl, Or.inr rfl⟩
  · rw [if_neg hc]
    dsimp only
    split_ifs
    · exact ⟨h.1, Or.inl h.2⟩
    · exact ⟨h.1, Or.inl h.2⟩

theorem readahead_frame (s s1 : State) (h : readahead s = Outcome.ok s1) :
    candidate_stores s1 = candidate_stores s ∧ s1.m_sspecs.length ≤ s.m_sspecs.length := by
  unfold readahead at h
  split_ifs at h
  cases hq : s.m_sspecs with
  | nil =>
    rw [hq] at h
    simp only [Outcome.ok.injEq] at h
    subst h
    simp [hq]
  | cons ssb rest =>
    rw [hq] at h
    simp only [Outcome.ok.injEq] at h
    subst h
    simp [candidate_stores, create_scanner_async, register_scanner]

theorem readahead_not_blocked (s s1 : State) : readahead s ≠ Outcome.blocked s1 := by
  unfold readahead
  split_ifs <;> try simp
  cases s.m_sspecs <;> simp

theorem final_decrement_frame (s s1 : State) (is_eos : Bool)
    (h : final_decrement s is_eos = Outcome.ok s1 ∨
      final_decrement s is_eos = Outcome.blocked s1) :
    candidate_stores s1 = candidate_stores s ∧ s1.m_sspecs = s.m_sspecs := by
  unfold final_decrement at h
  by_cases hf : final_eos s is_eos = true
  · rw [if_pos hf] at h
    cases hfd : s.m_final_decrement
    · simp [hfd] at h
      subst h
      exact ⟨rfl, rfl⟩
    · simp [hfd] at h
  · rw [if_neg hf] at h
    simp at h
    subst h
    exact ⟨rfl, rfl⟩

theorem verify_results_frame (s s1 : State) (scancells : ScanCells)
    (h : verify_results s scancells = Outcome.ok s1 ∨
      verify_results s scancells = Outcome.blocked s1) :
    candidate_stores s1 = candidate_stores s ∧
      (s.m_sspecs.length ≤ SSB_QUEUE_LIMIT + 1 → s1.m_sspecs.length ≤ SSB_QUEUE_LIMIT + 1) := by
  unfold verify_results at h
  by_cases hc : ((scancells.eos && scancells.cells.isEmpty) || s.m_limits_reached) = true
  · simp only [if_pos hc] at h
    simp at h
    subst h
    exact ⟨rfl, fun _ => by simp [sspecs_clear]⟩
  · simp only [if_neg hc] at h
    by_cases hq : (decide (s.m_sspecs.length > SSB_QUEUE_LIMIT) && !s.m_limits_reached) = true
    · simp only [if_pos hq] at h
      simp at h
      subst h
      exact ⟨rfl, fun h => h⟩
    · simp only [if_neg hq] at h
      by_cases hl : s.m_limits_reached = true
      · simp only [if_pos hl] at h
        simp at h
        subst h
        exact ⟨rfl, fun h => h⟩
      · simp only [if_neg hl] at h
        have hlen : s.m_sspecs.length ≤ SSB_QUEUE_LIMIT := by
          simp [hl] at hq
          exact hq
        by_cases ho : s.m_outstanding_scanners ≤ 0
        · simp only [if_pos ho] at h
          rcases h with h | h
          · have hr := readahead_frame _ _ h
            refine ⟨hr.1, fun _ => ?_⟩
            have h5 := hr.2
            simp only [List.length_append, List.length_singleton] at h5
            omega
          · exact absurd h (readahead_not_blocked _ _)
        · simp only [if_neg ho] at h
          simp at h
          subst h
          refine ⟨rfl, fun _ => ?_⟩
          simp only [List.length_append, List.length_singleton]
          omega

theorem reached_iff (o : Outcome) (s : State) :
    o.reached = some s ↔ o = Outcome.ok s ∨ o = Outcome.blocked s := by
  cases o <;> simp [Outcome.reached]

theorem andThen_reached (o : Outcome) (f : State → Outcome) (s1 : State)
    (h : (o.andThen f).reached = some s1) :
    o = Outcome.blocked s1 ∨ ∃ s2, o = Outcome.ok s2 ∧ (f s2).reached = some s1 := by
  cases o with
  | ok s2 => exact Or.inr ⟨s2, rfl, h⟩
  | assert_failed => simp [Outcome.andThen, Outcome.reached] at h
  | blocked s2 =>
    simp only [Outcome.andThen, Outcome.reached, Option.some.injEq] at h
    exact Or.inl (by rw [h])

theorem Keeps.refl (s : State) : Keeps s s := ⟨rfl, fun h => h⟩

theorem Keeps.trans (s s1 s2 : State) (h1 : Keeps s s1) (h2 : Keeps s1 s2) : Keeps s s2 :=
  ⟨h2.1.trans h1.1, fun h => h2.2 (h1.2 h)⟩

theorem Keeps.of_eq (s s1 : State) (h1 : candidate_stores s1 = candidate_stores s)
    (h2 : s1.m_sspecs.length ≤ s.m_sspecs.length) : Keeps s s1 :=
  ⟨h1, fun h => le_trans h2 h⟩

theorem after_eos_bookkeeping_keeps (s : State) (is_eos : Bool) :
    Keeps s (after_eos_bookkeeping s is_eos) := by
  unfold after_eos_bookkeeping
  split
  · exact ⟨rfl, fun h => h⟩
  · exact Keeps.refl s

theorem final_decrement_keeps (s s1 : State) (is_eos : Bool)
    (h : (final_decrement s is_eos).reached = some s1) : Keeps s s1 := by
  have h1 := final_decrement_frame s s1 is_eos ((reached_iff _ _).1 h)
  exact Keeps.of_eq _ _ h1.1 (le_of_eq (by rw [h1.2]))

theorem verify_results_keeps (s s1 : State) (scancells : ScanCells)
    (h : (verify_results s scancells).reached = some s1) : Keeps s s1 :=
  verify_results_frame s s1 scancells ((reached_iff _ _).1 h)

theorem track_predicates_keeps (s : State) (scancells : ScanCells) :
    Keeps s (track_predicates s scancells) := by
  have h := track_predicates_frame s scancells
  refine Keeps.of_eq _ _ h.1 ?_
  rcases h.2 with h2 | h2 <;> rw [h2]
  exact Nat.zero_le _

theorem readahead_keeps (s s1 : State) (h : (readahead s).reached = some s1) : Keeps s s1 := by
  rcases (reached_iff _ _).1 h with h1 | h1
  · have h2 := readahead_frame s s1 h1
    exact Keeps.of_eq _ _ h2.1 h2.2
  · exact absurd h1 (readahead_not_blocked _ _)

theorem scan_ok_of_not_eos (sizeof_KeySpec : Nat) (s : State) (table : TableKind)
    (scancells : ScanCells) (h : s.m_eos = false) :
    scan_ok sizeof_KeySpec s table scancells =
      if scancells.eos == false && scancells.cells.isEmpty then .ok s
      else if scancells.eos && !decide (s.m_outstanding_scanners > 0) then .assert_failed
      else
        (match table with
          | TableKind.index =>
            collect_indices sizeof_KeySpec (after_eos_bookkeeping s scancells.eos) scancells
          | TableKind.temporary =>
            verify_results (after_eos_bookkeeping s scancells.eos) scancells
          | TableKind.primary =>
            if !(forward_primary (after_eos_bookkeeping s scancells.eos)
                scancells).m_limits_reached && scancells.eos then
              readahead (forward_primary (after_eos_bookkeeping s scancells.eos) scancells)
            else .ok (forward_primary (after_eos_bookkeeping s scancells.eos) scancells)).andThen
          (fun s3 => final_decrement s3 scancells.eos) := by
  have h' : (after_eos_bookkeeping s scancells.eos).m_eos = false := by
    unfold after_eos_bookkeeping
    split <;> simp [h]
  unfold scan_ok forward_primary
  simp only [after_eos_bookkeeping] at h' ⊢
  simp only [h', beq_iff_eq, Bool.false_eq_true, if_false]

theorem forward_primary_keeps (s : State) (scancells : ScanCells) :
    Keeps s (forward_primary s scancells) := by
  unfold forward_primary
  split_ifs
  · exact track_predicates_keeps _ _
  · exact ⟨rfl, fun h => h⟩

theorem collect_indices_finish_sspecs (s2 r : State) (eos : Bool)
    (h : collect_indices_finish s2 eos = Outcome.ok r) : r.m_sspecs = s2.m_sspecs := by
  have hnone : ¬ s2.m_tmp_table.isSome = true → s2.m_tmp_table = none := by
    intro hsome
    cases h : s2.m_tmp_table with
    | none => rfl
    | some tab => rw [h] at hsome; exact absurd rfl hsome
  cases eos
  · by_cases hsome : s2.m_tmp_table.isSome = true
    · rw [finish_more_staging s2 hsome] at h
      cases h
      rfl
    · by_cases hc : s2.m_tmp_cutoff > TMP_CUTOFF
      · cases hm : s2.m_mutator
        · rw [finish_switch s2 (hnone hsome) hm hc] at h
          cases h
          rfl
        · rw [finish_more_assert s2 (hnone hsome) hm hc] at h
          cases h
      · rw [finish_more_quiet s2 (hnone hsome) hc] at h
        cases h
        rfl
  · by_cases hsome : s2.m_tmp_table.isSome = true
    · cases hm : s2.m_mutator
      · rw [finish_eos_staging_closed s2 hm hsome] at h
        cases h
        rfl
      · rw [finish_eos_staging s2 hm hsome] at h
        cases h
        rfl
    · by_cases hk : s2.m_tmp_keys = []
      · cases hm : s2.m_mutator
        · rw [finish_eos_empty s2 hm (hnone hsome) hk] at h
          cases h
          rfl
        · rw [finish_eos_empty_open s2 hm (hnone hsome) hk] at h
          cases h
          rfl
      · cases hm : s2.m_mutator
        · obtain ⟨sp, e⟩ := finish_eos_primary s2 hm (hnone hsome) hk
          rw [e] at h
          cases h
          rfl
        · obtain ⟨sp, e⟩ := finish_eos_primary_open s2 hm (hnone hsome) hk
          rw [e] at h
          cases h
          rfl

theorem collect_indices_finish_stores (s2 r : State) (eos : Bool)
    (h1 : OneStore s2) (h2 : MutatorOpen s2)
    (h : collect_indices_finish s2 eos = Outcome.ok r) :
    r.m_sspecs = s2.m_sspecs ∧ OneStore r ∧ (eos = false → MutatorOpen r) := by
  refine ⟨collect_indices_finish_sspecs s2 r eos h, ?_⟩
  have hnone : ¬ s2.m_tmp_table.isSome = true → s2.m_tmp_table = none := by
    intro hsome
    cases h : s2.m_tmp_table with
    | none => rfl
    | some tab => rw [h] at hsome; exact absurd rfl hsome
  have hno : ∀ x : State, x.m_tmp_table = none → OneStore x ∧ MutatorOpen x := by
    intro x hx
    unfold OneStore MutatorOpen
    rw [hx]
    exact ⟨fun h => absurd h (by decide), fun h => absurd h (by decide)⟩
  unfold OneStore at h1
  unfold MutatorOpen at h2
  cases eos
  · by_cases hsome : s2.m_tmp_table.isSome = true
    · rw [finish_more_staging s2 hsome] at h
      cases h
      exact ⟨fun _ => ⟨rfl, rfl⟩, fun _ _ => h2 hsome⟩
    · by_cases hc : s2.m_tmp_cutoff > TMP_CUTOFF
      · cases hm : s2.m_mutator
        · rw [finish_switch s2 (hnone hsome) hm hc] at h
          cases h
          exact ⟨fun _ => ⟨rfl, rfl⟩, fun _ _ => rfl⟩
        · rw [finish_more_assert s2 (hnone hsome) hm hc] at h
          cases h
      · rw [finish_more_quiet s2 (hnone hsome) hc] at h
        cases h
        exact ⟨(hno _ (by exact hnone hsome)).1, fun _ => (hno _ (by exact hnone hsome)).2⟩
  · by_cases hsome : s2.m_tmp_table.isSome = true
    · cases hm : s2.m_mutator
      · rw [finish_eos_staging_closed s2 hm hsome] at h
        cases h
        exact ⟨fun _ => h1 hsome, fun e => absurd e (by decide)⟩
      · rw [finish_eos_staging s2 hm hsome] at h
        cases h
        exact ⟨fun _ => h1 hsome, fun e => absurd e (by decide)⟩
    · by_cases hk : s2.m_tmp_keys = []
      · cases hm : s2.m_mutator
        · rw [finish_eos_empty s2 hm (hnone hsome) hk] at h
          cases h
          exact ⟨(hno _ (by exact hnone hsome)).1, fun e => absurd e (by decide)⟩
        · rw [finish_eos_empty_open s2 hm (hnone hsome) hk] at h
          cases h
          exact ⟨(hno _ (by exact hnone hsome)).1, fun e => absurd e (by decide)⟩
      · cases hm : s2.m_mutator
        · obtain ⟨sp, e⟩ := finish_eos_primary s2 hm (hnone hsome) hk
          rw [e] at h
          cases h
          exact ⟨(hno _ (by exact hnone hsome)).1, fun e => absurd e (by decide)⟩
        · obtain ⟨sp, e⟩ := finish_eos_primary_open s2 hm (hnone hsome) hk
          rw [e] at h
          cases h
          exact ⟨(hno _ (by exact hnone hsome)).1, fun e => absurd e (by decide)⟩

theorem collect_indices_finish_returns (s2 r : State) (eos : Bool) :
    collect_indices_finish s2 eos ≠ Outcome.blocked r := by
  unfold collect_indices_finish create_temp_table Outcome.andThen
  split_ifs <;> simp <;> split <;> simp_all <;> split_ifs at * <;> simp_all

theorem collect_indices_stores (sizeof_KeySpec : Nat) (s r : State) (scancells : ScanCells)
    (h1 : OneStore s) (h2 : MutatorOpen s)
    (h : collect_indices sizeof_KeySpec s scancells = Outcome.ok r) :
    r.m_sspecs = s.m_sspecs ∧ OneStore r ∧ (scancells.eos = false → MutatorOpen r) := by
  unfold collect_indices at h
  have hf := collect_loop_frame sizeof_KeySpec s scancells.cells
  obtain ⟨f1, -, -, f4, -, f6, f7, -, -⟩ := hf
  have hloop := collect_loop_eq sizeof_KeySpec s scancells.cells
  have hkeys : s.m_mutator = true →
      (scancells.cells.foldl (collect_cell sizeof_KeySpec) s).m_tmp_keys = s.m_tmp_keys := by
    intro hm
    rw [hloop, if_pos hm]
  simp only at h
  split_ifs at h with hb
  · have := collect_indices_finish_stores _ r scancells.eos ?_ ?_ h
    · simpa [f7] using this
    · intro ht
      have ht' : s.m_tmp_table.isSome = true := by simpa [f1] using ht
      have hm := h2 ht'
      simp [f4, hm] at hb
    · intro ht
      have ht' : s.m_tmp_table.isSome = true := by simpa [f1] using ht
      simpa [f4] using h2 ht'
  · have := collect_indices_finish_stores _ r scancells.eos ?_ ?_ h
    · simpa [f7] using this
    · intro ht
      have ht' : s.m_tmp_table.isSome = true := by rw [← f1]; exact ht
      rw [hkeys (h2 ht'), f6]
      exact h1 ht'
    · intro ht
      have ht' : s.m_tmp_table.isSome = true := by rw [← f1]; exact ht
      rw [f4]
      exact h2 ht'

theorem collect_indices_returns (sizeof_KeySpec : Nat) (s r : State) (scancells : ScanCells) :
    collect_indices sizeof_KeySpec s scancells ≠ Outcome.blocked r := by
  unfold collect_indices
  exact collect_indices_finish_returns _ _ _

theorem collect_indices_sspecs (sizeof_KeySpec : Nat) (s r : State) (scancells : ScanCells)
    (h : collect_indices sizeof_KeySpec s scancells = Outcome.ok r) :
    r.m_sspecs = s.m_sspecs := by
  unfold collect_indices at h
  have hf := collect_loop_frame sizeof_KeySpec s scancells.cells
  obtain ⟨-, -, -, -, -, -, f7, -, -⟩ := hf
  have h1 := collect_indices_finish_sspecs _ _ _ h
  rw [h1]
  split_ifs <;> exact f7

/-- After a batch of the primary or the temporary table the candidate stores are as before
and the queue is within its bound if it was. -/
theorem scan_ok_keeps (sizeof_KeySpec : Nat) (s s1 : State) (table : TableKind)
    (scancells : ScanCells) (ht : table ≠ TableKind.index)
    (h : (scan_ok sizeof_KeySpec s table scancells).reached = some s1) : Keeps s s1 := by
  have hb := after_eos_bookkeeping_keeps s scancells.eos
  by_cases he : s.m_eos = true
  · rw [scan_ok_of_eos _ _ _ _ he] at h
    split_ifs at h
    · simp only [Outcome.reached, Option.some.injEq] at h
      subst h
      exact Keeps.refl _
    · simp [Outcome.reached] at h
    · exact Keeps.trans _ _ _ hb (final_decrement_keeps _ _ _ h)
    · simp only [Outcome.reached, Option.some.injEq] at h
      subst h
      exact hb
  · rw [scan_ok_of_not_eos _ _ _ _ (by simpa using he)] at h
    by_cases c1 : (scancells.eos == false && scancells.cells.isEmpty) = true
    · rw [if_pos c1] at h
      simp only [Outcome.reached, Option.some.injEq] at h
      subst h
      exact Keeps.refl _
    · rw [if_neg c1] at h
      by_cases c2 : (scancells.eos && !decide (s.m_outstanding_scanners > 0)) = true
      · rw [if_pos c2] at h
        simp [Outcome.reached] at h
      · rw [if_neg c2] at h
        have hp := forward_primary_keeps (after_eos_bookkeeping s scancells.eos) scancells
        rcases andThen_reached _ _ _ h with h1 | ⟨s2, h1, h2⟩
        · cases table with
          | index => exact absurd rfl ht
          | temporary =>
            simp only at h1
            exact Keeps.trans _ _ _ hb (verify_results_keeps _ _ _ (by rw [h1]; rfl))
          | primary =>
            simp only at h1
            split_ifs at h1
            exact absurd h1 (readahead_not_blocked _ _)
        · refine Keeps.trans _ _ _ ?_ (final_decrement_keeps _ _ _ h2)
          refine Keeps.trans _ _ _ hb ?_
          cases table with
          | index => exact absurd rfl ht
          | temporary =>
            simp only at h1
            exact verify_results_keeps _ _ _ (by rw [h1]; rfl)
          | primary =>
            simp only at h1
            split_ifs at h1
            · exact Keeps.trans _ _ _ hp (readahead_keeps _ _ (by rw [h1]; rfl))
            · simp only [Outcome.ok.injEq] at h1
              rw [← h1]
              exact hp

/-- What a batch of the index table leaves of the queue and of the candidate stores. -/
theorem scan_ok_index_stores (sizeof_KeySpec : Nat) (s s1 : State) (scancells : ScanCells)
    (h : (scan_ok sizeof_KeySpec s TableKind.index scancells).reached = some s1) :
    s1.m_sspecs = s.m_sspecs ∧
      (OneStore s → MutatorOpen s →
        OneStore s1 ∧ (scancells.eos = false → MutatorOpen s1)) := by
  have hb := after_eos_bookkeeping_keeps s scancells.eos
  have hq : (after_eos_bookkeeping s scancells.eos).m_sspecs = s.m_sspecs := by
    unfold after_eos_bookkeeping
    split <;> rfl
  have stores_of : ∀ a b : State, candidate_stores b = candidate_stores a →
      (OneStore a → OneStore b) ∧ (MutatorOpen a → MutatorOpen b) := by
    intro a b hab
    simp only [candidate_stores, Prod.mk.injEq] at hab
    obtain ⟨e1, e2, e3, e4⟩ := hab
    unfold OneStore MutatorOpen
    rw [e1, e2, e3, e4]
    exact ⟨fun h => h, fun h => h⟩
  by_cases he : s.m_eos = true
  · rw [scan_ok_of_eos _ _ _ _ he] at h
    split_ifs at h
    · simp only [Outcome.reached, Option.some.injEq] at h
      subst h
      exact ⟨rfl, fun h1 h2 => ⟨h1, fun _ => h2⟩⟩
    · simp [Outcome.reached] at h
    · have hf := final_decrement_frame _ _ _ ((reached_iff _ _).1 h)
      have hs := stores_of s s1 (hf.1.trans hb.1)
      exact ⟨hf.2.trans hq, fun h1 h2 => ⟨hs.1 h1, fun _ => hs.2 h2⟩⟩
    · simp only [Outcome.reached, Option.some.injEq] at h
      subst h
      have hs := stores_of s _ hb.1
      exact ⟨hq, fun h1 h2 => ⟨hs.1 h1, fun _ => hs.2 h2⟩⟩
  · rw [scan_ok_of_not_eos _ _ _ _ (by simpa using he)] at h
    by_cases c1 : (scancells.eos == false && scancells.cells.isEmpty) = true
    · rw [if_pos c1] at h
      simp only [Outcome.reached, Option.some.injEq] at h
      subst h
      exact ⟨rfl, fun h1 h2 => ⟨h1, fun _ => h2⟩⟩
    · rw [if_neg c1] at h
      by_cases c2 : (scancells.eos && !decide (s.m_outstanding_scanners > 0)) = true
      · rw [if_pos c2] at h
        simp [Outcome.reached] at h
      · rw [if_neg c2] at h
        rcases andThen_reached _ _ _ h with h1 | ⟨s2, h1, h2⟩
        · exact absurd h1 (collect_indices_returns _ _ _ _)
        · simp only at h1
          have hf := final_decrement_frame _ _ _ ((reached_iff _ _).1 h2)
          have hs := stores_of s _ hb.1
          have hs2 := stores_of s2 s1 hf.1
          refine ⟨hf.2.trans ((collect_indices_sspecs _ _ _ _ h1).trans hq), fun i1 i2 => ?_⟩
          have hc := collect_indices_stores _ _ _ _ (hs.1 i1) (hs.2 i2) h1
          exact ⟨hs2.1 hc.2.1, fun e => hs2.2 (hc.2.2 e)⟩

theorem collect_loop_big_batch (s : State) (h2 : s.m_mutator = false) (h4 : s.m_tmp_keys = [])
    (h5 : s.m_tmp_cutoff = 0) (h8 : s.m_column_map = [(1, [99, 102])])
    (h9 : s.m_primary_spec.row_intervals = []) (h10 : s.m_primary_spec.cell_intervals = []) :
    collect_loop 64 s ex_big_index_batch =
      { s with
        m_tmp_keys := [ex_key_a]
        m_tmp_cutoff := 1053000
        m_scancells_buffer := s.m_scancells_buffer ++ [ex_big_index_batch] } := by
  have hk : entry_key s.m_column_map s.m_primary_spec (ex_index_cell (ex_index_key 97)) =
      some ex_key_a := by rw [h8]; exact entry_key_ex _ h9 h10
  have hloop := collect_loop_eq 64 s ex_big_index_batch.cells
  rw [if_neg (by simp [h2])] at hloop
  have hks : entry_keys s ex_big_index_batch.cells = List.replicate 16200 ex_key_a :=
    entry_keys_replicate s 16200 _ _ hk
  rw [hks, cutoff_bytes_replicate, h4, foldl_store_replicate ex_key_a 16199, h5] at hloop
  unfold collect_loop
  rw [hloop]
  simp only
  rw [if_pos (by simp [h2, h4])]
  rfl

theorem collect_indices_big_batch (s : State)
    (h2 : s.m_mutator = false) (h3 : s.m_tmp_table = none) (h4 : s.m_tmp_keys = [])
    (h5 : s.m_tmp_cutoff = 0) (h8 : s.m_column_map = [(1, [99, 102])])
    (h9 : s.m_primary_spec.row_intervals = []) (h10 : s.m_primary_spec.cell_intervals = []) :
    collect_indices 64 s ex_big_index_batch = Outcome.ok
      { s with
        m_tmp_table := some ((s.schema.filter (fun cf =>
          !((s.m_qualifier_scan && !cf.has_qualifier_index) ||
            (!s.m_qualifier_scan && !cf.has_index)))).map (fun cf => cf.name))
        m_mutator := true
        staged := s.staged ++ [ex_key_a]
        m_tmp_keys := []
        m_tmp_cutoff := 1053000
        m_scancells_buffer := [] } := by
  have hl := collect_loop_big_batch s h2 h4 h5 h8 h9 h10
  have e0 : collect_indices 64 s ex_big_index_batch =
      collect_indices_finish (collect_loop 64 s ex_big_index_batch) false := rfl
  have hA : (collect_loop 64 s ex_big_index_batch).m_tmp_table = none := by
    rw [hl]; exact h3
  have hB : (collect_loop 64 s ex_big_index_batch).m_mutator = false := by
    rw [hl]; exact h2
  have hC : (collect_loop 64 s ex_big_index_batch).m_tmp_cutoff > TMP_CUTOFF := by
    rw [hl]
    show 1053000 > TMP_CUTOFF
    decide
  rw [e0, finish_switch _ hA hB hC, hl]

/-- The big index batch moves a coordinator that has buffered nothing yet to staging mode. -/
theorem scan_ok_big_index_batch (s : State)
    (h1 : s.m_eos = false) (h2 : s.m_mutator = false) (h3 : s.m_tmp_table = none)
    (h4 : s.m_tmp_keys = []) (h5 : s.m_tmp_cutoff = 0)
    (h8 : s.m_column_map = [(1, [99, 102])])
    (h9 : s.m_primary_spec.row_intervals = []) (h10 : s.m_primary_spec.cell_intervals = []) :
    scan_ok 64 s TableKind.index ex_big_index_batch = Outcome.ok
      { s with
        m_tmp_table := some ((s.schema.filter (fun cf =>
          !((s.m_qualifier_scan && !cf.has_qualifier_index) ||
            (!s.m_qualifier_scan && !cf.has_index)))).map (fun cf => cf.name))
        m_mutator := true
        staged := s.staged ++ [ex_key_a]
        m_tmp_keys := []
        m_tmp_cutoff := 1053000
        m_scancells_buffer := [] } := by
  have hne : ex_big_index_batch.cells ≠ [] := by
    intro h
    have hl : ex_big_index_batch.cells.length = 16200 := List.length_replicate _ _
    rw [h] at hl
    exact absurd hl (by decide)
  rw [scan_ok_more 64 s TableKind.index ex_big_index_batch h1 rfl hne]
  simp only
  rw [collect_indices_big_batch s h2 h3 h4 h5 h8 h9 h10]
  simp only [Outcome.andThen]
  exact final_decrement_quiet _ h1

theorem collect_loop_nil (sizeof_KeySpec : Nat) (s : State) (eos : Bool) :
    collect_loop sizeof_KeySpec s { cells := [], eos := eos } = s := by
  unfold collect_loop
  simp

theorem final_decrement_outstanding (s : State) (is_eos : Bool)
    (h : s.m_outstanding_scanners ≠ 0) : final_decrement s is_eos = Outcome.ok s := by
  unfold final_decrement final_eos
  simp [h]

theorem scan_ok_index_eos_staging (sizeof_KeySpec : Nat) (s : State)
    (h1 : s.m_eos = false) (h2 : s.m_mutator = true) (h3 : s.m_tmp_table.isSome = true)
    (h4 : s.m_outstanding_scanners = 1) :
    scan_ok sizeof_KeySpec s TableKind.index { cells := [], eos := true } = Outcome.ok
      (create_scanner_async { after_eos_bookkeeping s true with m_mutator := false }
        TableKind.temporary (index_eos_spec s.m_primary_spec)) := by
  rw [scan_ok_of_not_eos _ _ _ _ h1]
  rw [if_neg (by simp), if_neg (by simp [h4])]
  simp only
  have e0 : collect_indices sizeof_KeySpec (after_eos_bookkeeping s true)
      { cells := [], eos := true } =
      collect_indices_finish (collect_loop sizeof_KeySpec (after_eos_bookkeeping s true)
        { cells := [], eos := true }) true := rfl
  have hm : (after_eos_bookkeeping s true).m_mutator = true := h2
  have ht : (after_eos_bookkeeping s true).m_tmp_table.isSome = true := h3
  rw [e0, collect_loop_nil, finish_eos_staging _ hm ht]
  simp only [Outcome.andThen]
  apply final_decrement_outstanding
  show s.m_outstanding_scanners - 1 + 1 ≠ 0
  omega

theorem run_ex_staging_run (spec : ScanSpec) (h1 : spec.row_intervals = [])
    (h2 : spec.cell_intervals = []) (cbs : List Callback) :
    run 64 (IndexScannerCallback ex_schema spec false) (ex_staging_run ++ cbs) =
      run 64 { IndexScannerCallback ex_schema spec false with
        m_tmp_table := some [[99, 102]]
        staged := [ex_key_a]
        m_tmp_cutoff := 1053000
        m_outstanding_scanners := 1
        m_scanners := [{ table := TableKind.temporary, spec := index_eos_spec spec }] }
        cbs := by
  simp only [ex_staging_run, List.cons_append, List.nil_append]
  rw [run_register, run_scan_ok 64 _ _ _ _ _
    (scan_ok_big_index_batch _ rfl rfl rfl rfl rfl rfl h1 h2)]
  refine Eq.trans (run_scan_ok 64 _ _ _ _ _ (scan_ok_index_eos_staging 64 _ ?_ ?_ ?_ ?_)) ?_
  · rfl
  · rfl
  · rfl
  · rfl
  · rfl


theorem run_ex_staging_one_queued :
    (run 64 (IndexScannerCallback ex_schema ScanSpecBuilder false)
      ex_staging_first_batch).reached = some ex_staging_one_queued := by
  rw [ex_staging_first_batch, run_ex_staging_run _ rfl rfl]
  rfl

theorem deliver_keeps (sizeof_KeySpec : Nat) (s s1 : State) (cb : Callback)
    (hcb : not_index_batch cb = true)
    (h : (deliver sizeof_KeySpec s cb).reached = some s1) : Keeps s s1 := by
  cases cb with
  | register_scanner =>
    simp only [deliver, Outcome.reached, Option.some.injEq] at h
    subst h
    exact ⟨rfl, fun h => h⟩
  | scan_ok table scancells =>
    refine scan_ok_keeps sizeof_KeySpec s s1 table scancells ?_ h
    intro ht
    subst ht
    simp [not_index_batch] at hcb
  | scan_error error error_msg eos =>
    simp only [deliver, Outcome.reached, Option.some.injEq] at h
    subst h
    unfold scan_error
    split <;> exact ⟨rfl, fun h => h⟩
  | update_ok =>
    simp only [deliver, Outcome.reached, Option.some.injEq] at h
    subst h
    exact Keeps.refl _
  | update_error error =>
    simp only [deliver, Outcome.reached, Option.some.injEq] at h
    subst h
    exact ⟨rfl, fun h => h⟩

theorem deliver_queue (sizeof_KeySpec : Nat) (s s1 : State) (cb : Callback)
    (h : (deliver sizeof_KeySpec s cb).reached = some s1)
    (hq : s.m_sspecs.length ≤ SSB_QUEUE_LIMIT + 1) :
    s1.m_sspecs.length ≤ SSB_QUEUE_LIMIT + 1 := by
  by_cases hcb : not_index_batch cb = true
  · exact (deliver_keeps _ _ _ _ hcb h).2 hq
  · cases cb with
    | scan_ok table scancells =>
      cases table with
      | index =>
        rw [(scan_ok_index_stores _ _ _ _ h).1]
        exact hq
      | temporary => simp [not_index_batch] at hcb
      | primary => simp [not_index_batch] at hcb
    | register_scanner => simp [not_index_batch] at hcb
    | scan_error error error_msg eos => simp [not_index_batch] at hcb
    | update_ok => simp [not_index_batch] at hcb
    | update_error error => simp [not_index_batch] at hcb

theorem run_queue (sizeof_KeySpec : Nat) (cbs : List Callback) : ∀ (s s1 : State),
    (run sizeof_KeySpec s cbs).reached = some s1 →
    s.m_sspecs.length ≤ SSB_QUEUE_LIMIT + 1 → s1.m_sspecs.length ≤ SSB_QUEUE_LIMIT + 1 := by
  induction cbs with
  | nil =>
    intro s s1 h hq
    simp only [run, Outcome.reached, Option.some.injEq] at h
    subst h
    exact hq
  | cons cb cbs ih =>
    intro s s1 h hq
    rw [run] at h
    rcases andThen_reached _ _ _ h with h1 | ⟨s2, h1, h2⟩
    · exact deliver_queue _ _ _ _ (by rw [h1]; rfl) hq
    · exact ih s2 s1 h2 (deliver_queue _ _ _ _ (by rw [h1]; rfl) hq)

theorem verify_results_appends (s s1 : State) (scancells : ScanCells)
    (h : (verify_results s scancells).reached = some s1)
    (hg : s.m_sspecs.length < s1.m_sspecs.length) :
    s.m_sspecs.length ≤ SSB_QUEUE_LIMIT ∧ s1.m_sspecs.length = s.m_sspecs.length + 1 := by
  unfold verify_results at h
  by_cases hc : ((scancells.eos && scancells.cells.isEmpty) || s.m_limits_reached) = true
  · simp only [if_pos hc, Outcome.reached, Option.some.injEq] at h
    subst h
    simp [sspecs_clear] at hg
  · simp only [if_neg hc] at h
    by_cases hq : (decide (s.m_sspecs.length > SSB_QUEUE_LIMIT) && !s.m_limits_reached) = true
    · simp only [if_pos hq, Outcome.reached, Option.some.injEq] at h
      subst h
      simp at hg
    · simp only [if_neg hq] at h
      by_cases hl : s.m_limits_reached = true
      · simp only [if_pos hl, Outcome.reached, Option.some.injEq] at h
        subst h
        simp at hg
      · simp only [if_neg hl] at h
        have hlen : s.m_sspecs.length ≤ SSB_QUEUE_LIMIT := by
          simp [hl] at hq
          exact hq
        refine ⟨hlen, ?_⟩
        by_cases ho : s.m_outstanding_scanners ≤ 0
        · simp only [if_pos ho] at h
          rcases (reached_iff _ _).1 h with h | h
          · have hr := (readahead_frame _ _ h).2
            simp only [List.length_append, List.length_singleton] at hr
            omega
          · exact absurd h (readahead_not_blocked _ _)
        · simp only [if_neg ho, Outcome.reached, Option.some.injEq] at h
          subst h
          simp

theorem run_not_index (sizeof_KeySpec : Nat) (cbs : List Callback) : ∀ (s s1 : State),
    cbs.all not_index_batch = true → (run sizeof_KeySpec s cbs).reached = some s1 →
    candidate_stores s1 = candidate_stores s := by
  induction cbs with
  | nil =>
    intro s s1 _ h
    simp only [run, Outcome.reached, Option.some.injEq] at h
    subst h
    rfl
  | cons cb cbs ih =>
    intro s s1 hall h
    simp only [List.all_cons, Bool.and_eq_true] at hall
    rw [run] at h
    rcases andThen_reached _ _ _ h with h1 | ⟨s2, h1, h2⟩
    · exact (deliver_keeps _ _ _ _ hall.1 (by rw [h1]; rfl)).1
    · exact (ih s2 s1 hall.2 h2).trans (deliver_keeps _ _ _ _ hall.1 (by rw [h1]; rfl)).1

theorem stores_of_eq (a b : State) (hab : candidate_stores b = candidate_stores a) :
    (OneStore a → OneStore b) ∧ (MutatorOpen a → MutatorOpen b) := by
  simp only [candidate_stores, Prod.mk.injEq] at hab
  obtain ⟨e1, e2, e3, e4⟩ := hab
  unfold OneStore MutatorOpen
  rw [e1, e2, e3, e4]
  exact ⟨fun h => h, fun h => h⟩

theorem run_one_index_stream (sizeof_KeySpec : Nat) (cbs : List Callback) :
    ∀ (s s1 : State), one_index_stream cbs = true → OneStore s → MutatorOpen s →
      (run sizeof_KeySpec s cbs).reached = some s1 → OneStore s1 := by
  induction cbs with
  | nil =>
    intro s s1 _ i1 _ h
    simp only [run, Outcome.reached, Option.some.injEq] at h
    subst h
    exact i1
  | cons cb cbs ih =>
    intro s s1 hone i1 i2 h
    rw [run] at h
    by_cases hcb : not_index_batch cb = true
    · have hone' : one_index_stream cbs = true := by
        cases cb with
        | scan_ok table scancells =>
          cases table with
          | index => simp [not_index_batch] at hcb
          | temporary => simpa [one_index_stream] using hone
          | primary => simpa [one_index_stream] using hone
        | register_scanner => simpa [one_index_stream] using hone
        | scan_error error error_msg eos => simpa [one_index_stream] using hone
        | update_ok => simpa [one_index_stream] using hone
        | update_error error => simpa [one_index_stream] using hone
      rcases andThen_reached _ _ _ h with h1 | ⟨s2, h1, h2⟩
      · exact (stores_of_eq _ _ (deliver_keeps _ _ _ _ hcb (by rw [h1]; rfl)).1).1 i1
      · have hs := stores_of_eq _ _ (deliver_keeps _ _ _ _ hcb (by rw [h1]; rfl)).1
        exact ih s2 s1 hone' (hs.1 i1) (hs.2 i2) h2
    · cases cb with
      | scan_ok table scancells =>
        cases table with
        | index =>
          simp only [one_index_stream] at hone
          simp only [deliver] at h
          rcases andThen_reached _ _ _ h with h1 | ⟨s2, h1, h2⟩
          · exact ((scan_ok_index_stores _ _ _ _ (by rw [h1]; rfl)).2 i1 i2).1
          · have hs := (scan_ok_index_stores _ _ _ _ (by rw [h1]; rfl)).2 i1 i2
            by_cases he : scancells.eos = true
            · rw [if_pos he] at hone
              exact (stores_of_eq _ _ (run_not_index _ _ _ _ hone h2)).1 hs.1
            · rw [if_neg he] at hone
              exact ih s2 s1 hone hs.1 (hs.2 (by simpa using he)) h2
        | temporary => simp [not_index_batch] at hcb
        | primary => simp [not_index_batch] at hcb
      | register_scanner => simp [not_index_batch] at hcb
      | scan_error error error_msg eos => simp [not_index_batch] at hcb
      | update_ok => simp [not_index_batch] at hcb
      | update_error error => simp [not_index_batch] at hcb

/-- C13 (staging-path completeness), evaluated on the staging path with no limit or offset: the
staging scanner delivers the row `a` in a first batch and then an empty end-of-stream batch.
After the first batch the scan spec listing `a` is in the readahead queue and the staging
scanner is the only scanner.  The empty end-of-stream batch makes `verify_results` clear the
queue and set `m_eos`: the run ends with the terminal batch sent to the user, the spec for `a`
discarded and no scanner ever opened on the primary table. -/
theorem C13_empty_last_staging_batch_discards_queued_specs :
    (run 64 (IndexScannerCallback ex_schema ScanSpecBuilder false)
        ex_staging_first_batch).returned.map
      (fun s => (s.m_sspecs.map ScanSpec.rows, s.m_scanners.map (fun x => x.table))) =
      some ([[[97]]], [TableKind.temporary]) ∧
    (run 64 (IndexScannerCallback ex_schema ScanSpecBuilder false)
        (ex_staging_run ++
          [Callback.scan_ok TableKind.temporary { cells := [ex_cell [97] 49], eos := false },
           Callback.scan_ok TableKind.temporary { cells := [], eos := true }])).returned.map
      (fun s => (s.m_sspecs, s.m_scanners.map (fun x => x.table), s.m_outstanding_scanners,
        s.sink)) =
      some ([], [TableKind.temporary], 0,
        [SinkCall.increment_outstanding, SinkCall.scan_ok [] true,
          SinkCall.decrement_outstanding]) := by
  rw [ex_staging_first_batch, run_ex_staging_run _ rfl rfl, run_ex_staging_run _ rfl rfl]
  exact ⟨rfl, rfl⟩

/-- C14 (backpressure bound), the claim as stated fails: on the staging path, 41 batches of the
staging scanner, none of them the last, leave `SSB_QUEUE_LIMIT + 1 = 41` scan specs in the
readahead queue. -/
theorem C14_queue_reaches_limit_plus_one :
    (run 64 (IndexScannerCallback ex_schema ScanSpecBuilder false)
        (ex_staging_run ++ ex_staging_batches 41)).returned.map
      (fun s => s.m_sspecs.length) = some (SSB_QUEUE_LIMIT + 1) := by
  rw [run_ex_staging_run _ rfl rfl]
  rfl

/-- C14 (backpressure bound), amended: in every state a run of callbacks from a freshly
constructed coordinator reaches, whether the last callback returned or waits on the queue, the
readahead queue holds at most `SSB_QUEUE_LIMIT + 1` scan specs; and whenever `verify_results`
leaves the queue longer than it found it, the queue held at most `SSB_QUEUE_LIMIT` specs
before and holds exactly one more after. -/
theorem C14_queue_holds_at_most_limit_plus_one (sizeof_KeySpec : Nat)
    (schema : List ColumnFamily) (spec : ScanSpec) (qualifier_scan : Bool)
    (cbs : List Callback) (s : State)
    (h : (run sizeof_KeySpec (IndexScannerCallback schema spec qualifier_scan) cbs).reached =
      some s) :
    s.m_sspecs.length ≤ SSB_QUEUE_LIMIT + 1 ∧
      ∀ (s0 s1 : State) (scancells : ScanCells),
        (verify_results s0 scancells).reached = some s1 →
        s0.m_sspecs.length < s1.m_sspecs.length →
        s0.m_sspecs.length ≤ SSB_QUEUE_LIMIT ∧ s1.m_sspecs.length = s0.m_sspecs.length + 1 :=
  ⟨run_queue sizeof_KeySpec cbs _ s h (Nat.zero_le _),
    fun s0 s1 scancells h1 h2 => verify_results_appends s0 s1 scancells h1 h2⟩

/-- Witness of C14: the staging path after one batch of the staging scanner. -/
theorem C14_queue_bound_witness :
    (run 64 (IndexScannerCallback ex_schema ScanSpecBuilder false)
      ex_staging_first_batch).reached = some ex_staging_one_queued ∧
    (ex_staging_one_queued.m_sspecs.length ≤ SSB_QUEUE_LIMIT + 1 ∧
      ∀ (s0 s1 : State) (scancells : ScanCells),
        (verify_results s0 scancells).reached = some s1 →
        s0.m_sspecs.length < s1.m_sspecs.length →
        s0.m_sspecs.length ≤ SSB_QUEUE_LIMIT ∧ s1.m_sspecs.length = s0.m_sspecs.length + 1) :=
  ⟨run_ex_staging_one_queued,
    C14_queue_holds_at_most_limit_plus_one 64 ex_schema ScanSpecBuilder false
      ex_staging_first_batch ex_staging_one_queued run_ex_staging_one_queued⟩

/-- C17 (at most one candidate store in use), the claim as stated fails with two index
scanners: after the first has ended on the staging path, the end-of-stream batch of the second
puts the key of row `b` in the in-memory candidate set and retains the batch, while the staging
table exists. -/
theorem C17_second_index_scanner_fills_memory_beside_staging :
    (run 64 (IndexScannerCallback ex_schema ScanSpecBuilder false)
        ex_two_index_scanners_run).returned.map
      (fun s => (s.m_tmp_table, s.m_tmp_keys.map (fun k => k.row),
        s.m_scancells_buffer)) =
      some (some [[99, 102]], [[98]],
        [{ cells := [ex_index_cell (ex_index_key 98)], eos := true }]) := by
  rw [ex_two_index_scanners_run, run_register, run_register, run_scan_ok 64 _ _ _ _ _
    (scan_ok_big_index_batch _ rfl rfl rfl rfl rfl rfl rfl rfl)]
  rfl

/-- C17 (at most one candidate store in use), amended: for every sequence of callbacks in which
no batch of the index table follows an end-of-stream batch of the index table (one index
scanner), in every state a run from a freshly constructed coordinator reaches, if the staging
table exists then the in-memory candidate set is empty and no source batch is retained. -/
theorem C17_one_store_with_one_index_stream (sizeof_KeySpec : Nat)
    (schema : List ColumnFamily) (spec : ScanSpec) (qualifier_scan : Bool)
    (cbs : List Callback) (s : State) (hone : one_index_stream cbs = true)
    (h : (run sizeof_KeySpec (IndexScannerCallback schema spec qualifier_scan) cbs).reached =
      some s)
    (ht : s.m_tmp_table.isSome = true) :
    s.m_tmp_keys = [] ∧ s.m_scancells_buffer = [] :=
  run_one_index_stream sizeof_KeySpec cbs _ s hone
    (fun h0 => absurd h0 (by simp [IndexScannerCallback]))
    (fun h0 => absurd h0 (by simp [IndexScannerCallback])) h ht

/-- Witness of C17: the staging path after one batch of the staging scanner. -/
theorem C17_one_store_witness :
    (one_index_stream ex_staging_first_batch = true ∧
      (run 64 (IndexScannerCallback ex_schema ScanSpecBuilder false)
        ex_staging_first_batch).reached = some ex_staging_one_queued ∧
      ex_staging_one_queued.m_tmp_table.isSome = true) ∧
    ex_staging_one_queued.m_tmp_keys = [] ∧ ex_staging_one_queued.m_scancells_buffer = [] :=
  ⟨⟨rfl, run_ex_staging_one_queued, rfl⟩,
    C17_one_store_with_one_index_stream 64 ex_schema ScanSpecBuilder false
      ex_staging_first_batch ex_staging_one_queued rfl run_ex_staging_one_queued rfl⟩

/-- C19 (readahead keeps verification moving), evaluated on the staging path: after a batch of
the staging scanner that is not its last, with limits not reached and `m_eos` not set, the
readahead queue holds the scan spec for row `a`, and the staging scanner is the only scanner
outstanding: `verify_results` starts a readahead scanner only when
`m_outstanding_scanners <= 0`, which the outstanding staging scanner rules out. -/
theorem C19_no_primary_scanner_while_queue_is_filled :
    (run 64 (IndexScannerCallback ex_schema ScanSpecBuilder false)
        ex_staging_first_batch).returned.map
      (fun s => (s.m_limits_reached, s.m_eos, s.m_sspecs.map ScanSpec.rows,
        s.m_outstanding_scanners, s.m_scanners.map (fun x => x.table))) =
      some (false, false, [[[97]]], 1, [TableKind.temporary]) := by
  rw [ex_staging_first_batch, run_ex_staging_run _ rfl rfl]
  rfl

/-! ## The column map -/

theorem lookup_filter_ne (id id' : Nat) (h : id ≠ id') (m : ColumnMap) :
    List.lookup id (m.filter (fun e => e.1 != id')) = List.lookup id m := by
  induction m with
  | nil => rfl
  | cons e m ih =>
    obtain ⟨k, v⟩ := e
    by_cases hk : k = id'
    · subst hk
      have h1 : (id == k) = false := by simpa using h
      have h2 : (k != k) = false := by simp
      rw [List.filter_cons]
      simp only [h2, Bool.false_eq_true, if_false]
      rw [ih]
      simp [List.lookup_cons, h1]
    · have h1 : (k != id') = true := by simpa using hk
      rw [List.filter_cons]
      simp only [h1, if_true]
      cases hik : id == k
      · simp only [List.lookup_cons, hik]
        exact ih
      · simp only [List.lookup_cons, hik]

theorem ColumnMap.find_set_ne (m : ColumnMap) (id id' : Nat) (name : Bytes) (h : id ≠ id') :
    ColumnMap.find (m.set id' name) id = ColumnMap.find m id := by
  unfold ColumnMap.find ColumnMap.set
  have hne : (id == id') = false := by simpa using h
  simp only [List.lookup_cons, hne]
  exact lookup_filter_ne id id' h m

theorem build_column_map_find_none (id : Nat) (families : List ColumnFamily) :
    ∀ m : ColumnMap,
      (∀ cf ∈ families, cf.id = id → cf.has_index = false ∧ cf.has_qualifier_index = false) →
      ColumnMap.find m id = none →
      ColumnMap.find (build_column_map families m) id = none := by
  induction families with
  | nil => intro m _ h; exact h
  | cons cf families ih =>
    intro m hall h
    have hrest : ∀ cf' ∈ families, cf'.id = id →
        cf'.has_index = false ∧ cf'.has_qualifier_index = false :=
      fun cf' hcf' => hall cf' (List.mem_cons_of_mem _ hcf')
    unfold build_column_map
    by_cases hg : (!cf.has_index && !cf.has_qualifier_index) = true
    · rw [if_pos hg]
      exact ih m hrest h
    · rw [if_neg hg]
      apply ih _ hrest
      have hne : id ≠ cf.id := by
        intro he
        have := hall cf (List.mem_cons_self _ _) he.symm
        simp [this.1, this.2] at hg
      rw [ColumnMap.find_set_ne _ _ _ _ hne]
      exact h

theorem collect_loop_big_batch_of_key (s : State) (h2 : s.m_mutator = false)
    (h4 : s.m_tmp_keys = []) (h5 : s.m_tmp_cutoff = 0)
    (hk : entry_key s.m_column_map s.m_primary_spec (ex_index_cell (ex_index_key 97)) =
      some ex_key_a) :
    collect_loop 64 s ex_big_index_batch =
      { s with
        m_tmp_keys := [ex_key_a]
        m_tmp_cutoff := 1053000
        m_scancells_buffer := s.m_scancells_buffer ++ [ex_big_index_batch] } := by
  have hloop := collect_loop_eq 64 s ex_big_index_batch.cells
  rw [if_neg (by simp [h2])] at hloop
  have hks : entry_keys s ex_big_index_batch.cells = List.replicate 16200 ex_key_a :=
    entry_keys_replicate s 16200 _ _ hk
  rw [hks, cutoff_bytes_replicate, h4, foldl_store_replicate ex_key_a 16199, h5] at hloop
  unfold collect_loop
  rw [hloop]
  simp only
  rw [if_pos (by simp [h2, h4])]
  rfl

/-- The big index batch moves a coordinator that has buffered nothing yet to staging mode,
whatever families its schema has, when its column map accepts the entry. -/
theorem scan_ok_big_index_batch_of_key (s : State)
    (h1 : s.m_eos = false) (h2 : s.m_mutator = false) (h3 : s.m_tmp_table = none)
    (h4 : s.m_tmp_keys = []) (h5 : s.m_tmp_cutoff = 0)
    (hk : entry_key s.m_column_map s.m_primary_spec (ex_index_cell (ex_index_key 97)) =
      some ex_key_a) :
    scan_ok 64 s TableKind.index ex_big_index_batch = Outcome.ok
      { s with
        m_tmp_table := some ((s.schema.filter (fun cf =>
          !((s.m_qualifier_scan && !cf.has_qualifier_index) ||
            (!s.m_qualifier_scan && !cf.has_index)))).map (fun cf => cf.name))
        m_mutator := true
        staged := s.staged ++ [ex_key_a]
        m_tmp_keys := []
        m_tmp_cutoff := 1053000
        m_scancells_buffer := [] } := by
  have hne : ex_big_index_batch.cells ≠ [] := by
    intro h
    have hl : ex_big_index_batch.cells.length = 16200 := List.length_replicate _ _
    rw [h] at hl
    exact absurd hl (by decide)
  have hl := collect_loop_big_batch_of_key s h2 h4 h5 hk
  have hA : (collect_loop 64 s ex_big_index_batch).m_tmp_table = none := by
    rw [hl]; exact h3
  have hB : (collect_loop 64 s ex_big_index_batch).m_mutator = false := by
    rw [hl]; exact h2
  have hC : (collect_loop 64 s ex_big_index_batch).m_tmp_cutoff > TMP_CUTOFF := by
    rw [hl]
    show 1053000 > TMP_CUTOFF
    decide
  have e0 : collect_indices 64 s ex_big_index_batch =
      collect_indices_finish (collect_loop 64 s ex_big_index_batch) false := rfl
  rw [scan_ok_more 64 s TableKind.index ex_big_index_batch h1 rfl hne]
  simp only
  rw [e0, finish_switch _ hA hB hC, hl]
  simp only [Outcome.andThen]
  exact final_decrement_quiet _ h1

/-- C11 (qualifier-index scans ignore value-indexed families), evaluated.  The coordinator is
constructed with `qualifier_scan = true`.  Over a schema whose family 1 has `has_index = true`
and `has_qualifier_index = false`, the index entry `1,v<TAB>a` names that family, and
`collect_indices` stores the candidate row `a` for it.  Over the schema with the value-indexed
family `cf`, of id 1, and the qualifier-indexed family `q`, of id 2, the column map holds both
families, and a batch of 16200 such entries brings the coordinator to the staging path: the
staging table is created with the family `q` alone, as `create_temp_table` selects the families
by `m_qualifier_scan`, and the candidate `a` is written to its mutator under the family `cf`,
which the table does not have. -/
theorem C11_qualifier_scan_accepts_value_indexed_family :
    (ex_schema.map (fun cf => (cf.id, cf.has_index, cf.has_qualifier_index)) =
        [(1, true, false)] ∧
      cf_id (ex_index_key 97) = 1) ∧
    (collect_indices 64 (IndexScannerCallback ex_schema ScanSpecBuilder true)
        { cells := [ex_index_cell (ex_index_key 97)], eos := false }).returned.map
      (fun s => s.m_tmp_keys.map (fun k => (k.row, k.column_family))) =
      some [([97], [99, 102])] ∧
    (IndexScannerCallback ex_schema_two_indexes ScanSpecBuilder true).m_column_map =
      [(2, [113]), (1, [99, 102])] ∧
    (run 64 (IndexScannerCallback ex_schema_two_indexes ScanSpecBuilder true)
        [Callback.register_scanner,
          Callback.scan_ok TableKind.index ex_big_index_batch]).returned.map
      (fun s => (s.m_tmp_table, s.m_mutator,
        s.staged.map (fun k => (k.row, k.column_family)))) =
      some (some [[113]], true, [([97], [99, 102])]) := by
  refine ⟨⟨rfl, by decide⟩, by rfl, rfl, ?_⟩
  rw [run_register, run_scan_ok 64 _ _ _ _ _
    (scan_ok_big_index_batch_of_key _ rfl rfl rfl rfl rfl (by rfl))]
  rfl

/-- For a coordinator constructed over any schema with any value of `qualifier_scan`, an index
entry whose cf-id names no column family of the schema that carries an index of either kind
(`has_index` or `has_qualifier_index`) produces no candidate: the loop of `collect_indices`
leaves the state as it is. -/
theorem collect_cell_family_without_index (sizeof_KeySpec : Nat)
    (schema : List ColumnFamily) (spec : ScanSpec) (qualifier_scan : Bool) (s : State)
    (cell : Cell)
    (hmap : s.m_column_map = (IndexScannerCallback schema spec qualifier_scan).m_column_map)
    (h : ∀ cf ∈ schema, cf.id = cf_id cell.row_key →
      cf.has_index = false ∧ cf.has_qualifier_index = false) :
    collect_cell sizeof_KeySpec s cell = s := by
  apply collect_cell_malformed
  right; right; right
  rw [hmap]
  exact build_column_map_find_none _ schema [] h rfl

/-- The entry `2,v<TAB>a` names the family `pl`, which carries no index, and is ignored. -/
theorem collect_cell_family_without_index_example :
    ((IndexScannerCallback ex_schema_plain ScanSpecBuilder true).m_column_map =
        (IndexScannerCallback ex_schema_plain ScanSpecBuilder true).m_column_map ∧
      ∀ cf ∈ ex_schema_plain, cf.id = cf_id (ex_index_cell ex_key_family_2).row_key →
        cf.has_index = false ∧ cf.has_qualifier_index = false) ∧
    collect_cell 64 (IndexScannerCallback ex_schema_plain ScanSpecBuilder true)
        (ex_index_cell ex_key_family_2) =
      IndexScannerCallback ex_schema_plain ScanSpecBuilder true :=
  ⟨⟨rfl, by decide⟩,
    collect_cell_family_without_index 64 ex_schema_plain ScanSpecBuilder true
      (IndexScannerCallback ex_schema_plain ScanSpecBuilder true)
      (ex_index_cell ex_key_family_2) rfl (by decide)⟩

/-! ## Verification of staged candidates -/

theorem ScanSpec.rows_add_row (ssb : ScanSpec) (str : Bytes) :
    (ssb.add_row str).rows = ssb.rows ++ [cstr str] := by
  simp [ScanSpec.add_row, ScanSpec.rows, deref]

theorem dedup_adjacent_cons_eq (last x : Bytes) (ks : List Bytes) (h : x = last) :
    dedup_adjacent last (x :: ks) = dedup_adjacent last ks := by
  rw [dedup_adjacent, if_pos h]

theorem dedup_adjacent_cons_ne (last x : Bytes) (ks : List Bytes) (h : x ≠ last) :
    dedup_adjacent last (x :: ks) = x :: dedup_adjacent x ks := by
  rw [dedup_adjacent, if_neg h]

theorem last_key_cons_eq (last x : Bytes) (ks : List Bytes) (h : x = last) :
    last_key last (x :: ks) = last_key last ks := by
  rw [last_key, h]

theorem verify_loop_spec (cells : List Cell) : ∀ (last : Bytes) (ssb : ScanSpec),
    (verify_loop cells last ssb).2.rows =
        ssb.rows ++ dedup_adjacent (cstr last) (cells.map (fun c => cstr c.row_key)) ∧
      cstr (verify_loop cells last ssb).1 =
        last_key (cstr last) (cells.map (fun c => cstr c.row_key)) := by
  induction cells with
  | nil => intro last ssb; simp [verify_loop, dedup_adjacent, last_key]
  | cons cell cells ih =>
    intro last ssb
    unfold verify_loop
    rw [List.map_cons]
    by_cases h : strcmp last cell.row_key = 0
    · rw [if_pos h]
      have hk : cstr cell.row_key = cstr last := ((strcmp_eq_zero_iff _ _).1 h).symm
      obtain ⟨i1, i2⟩ := ih last ssb
      rw [dedup_adjacent_cons_eq _ _ _ hk, last_key_cons_eq _ _ _ hk]
      exact ⟨i1, i2⟩
    · rw [if_neg h]
      have hk : cstr cell.row_key ≠ cstr last :=
        fun e => h ((strcmp_eq_zero_iff _ _).2 e.symm)
      obtain ⟨i1, i2⟩ := ih cell.row_key (ssb.add_row cell.row_key)
      rw [dedup_adjacent_cons_ne _ _ _ hk, last_key]
      refine ⟨?_, i2⟩
      rw [i1, ScanSpec.rows_add_row]
      simp

theorem verify_spec_rows (spec : ScanSpec) : (verify_spec spec).rows = [] := by
  simp [verify_spec, ScanSpec.rows, ScanSpecBuilder]

theorem verify_stream_rows (spec : ScanSpec) (batches : List ScanCells) : ∀ last : Bytes,
    (verify_stream spec last batches).map ScanSpec.rows =
      dedup_stream (cstr last) (batches.map batch_keys) := by
  induction batches with
  | nil => intro last; rfl
  | cons b bs ih =>
    intro last
    have h := verify_loop_spec b.cells (cstr last) (verify_spec spec)
    rw [cstr_idem] at h
    simp only [verify_stream, List.map_cons, dedup_stream, batch_keys]
    rw [ih, h.1, verify_spec_rows, cstr_idem, h.2]
    rfl

theorem dedup_adjacent_append (xs ys : List Bytes) : ∀ last : Bytes,
    dedup_adjacent last (xs ++ ys) =
      dedup_adjacent last xs ++ dedup_adjacent (last_key last xs) ys := by
  induction xs with
  | nil => intro last; simp [dedup_adjacent, last_key]
  | cons x xs ih =>
    intro last
    rw [List.cons_append]
    by_cases h : x = last
    · rw [dedup_adjacent_cons_eq _ _ _ h, dedup_adjacent_cons_eq _ _ _ h,
        last_key_cons_eq _ _ _ h]
      exact ih last
    · rw [dedup_adjacent_cons_ne _ _ _ h, dedup_adjacent_cons_ne _ _ _ h, last_key, ih x,
        List.cons_append]

theorem dedup_stream_flatten (batches : List (List Bytes)) : ∀ last : Bytes,
    (dedup_stream last batches).flatten = dedup_adjacent last batches.flatten := by
  induction batches with
  | nil => intro last; rfl
  | cons b bs ih =>
    intro last
    simp only [dedup_stream, List.flatten_cons, dedup_adjacent_append, ih]

theorem bytes_le_antisymm (a b : Bytes) (h1 : bytes_le a b) (h2 : bytes_le b a) :
    cstr a = cstr b := by
  rcases h1 with h1 | h1
  · exact h1
  · rcases h2 with h2 | h2
    · exact h2.symm
    · exact absurd h2 (bytes_lt_asymm h1)

theorem bytes_le_nil (k : Bytes) : bytes_le [] k := by
  unfold bytes_le bytes_lt
  cases hk : cstr k with
  | nil => left; rfl
  | cons x xs =>
    right
    have : cstr ([] : Bytes) = [] := rfl
    rw [this]
    exact List.Lex.nil

theorem dedup_adjacent_count (k : Bytes) (keys : List Bytes) : ∀ last : Bytes,
    (∀ x ∈ last :: keys, cstr x = x) → SortedKeys (last :: keys) →
    (dedup_adjacent last keys).count k = if k ∈ keys ∧ k ≠ last then 1 else 0 := by
  induction keys with
  | nil => intro last _ _; simp [dedup_adjacent]
  | cons x ks ih =>
    intro last hn hs
    unfold SortedKeys at hs
    have hs1 := List.pairwise_cons.1 hs
    have hs2 := List.pairwise_cons.1 hs1.2
    by_cases h : x = last
    · rw [dedup_adjacent_cons_eq _ _ _ h]
      have hs' : SortedKeys (last :: ks) := by
        unfold SortedKeys
        rw [← h]
        exact hs1.2
      rw [ih last (fun y hy => hn y (by
        rcases List.mem_cons.1 hy with e | e
        · exact List.mem_cons.2 (Or.inl e)
        · exact List.mem_cons_of_mem _ (List.mem_cons_of_mem _ e))) hs']
      subst h
      by_cases hk : k = x
      · simp [hk]
      · simp [hk]
    · rw [dedup_adjacent_cons_ne _ _ _ h, List.count_cons]
      rw [ih x (fun y hy => hn y (List.mem_cons_of_mem _ hy)) hs1.2]
      by_cases hk : k = x
      · subst hk
        simp [h]
      · have hxk : (x == k) = false := by
          simpa using fun e => hk e.symm
        have hlast : k ∈ ks → k ≠ last := by
          intro hmem e
          subst e
          have l1 : bytes_le k x := hs1.1 x (List.mem_cons_self _ _)
          have l2 : bytes_le x k := hs2.1 k hmem
          have e1 := bytes_le_antisymm _ _ l1 l2
          rw [hn k (List.mem_cons_self _ _),
            hn x (List.mem_cons_of_mem _ (List.mem_cons_self _ _))] at e1
          exact h e1.symm
        by_cases hmem : k ∈ ks
        · simp [hk, hxk, hmem, hlast hmem]
        · simp [hk, hxk, hmem]

theorem verify_results_enqueues (s : State) (scancells : ScanCells)
    (h1 : ((scancells.eos && scancells.cells.isEmpty) || s.m_limits_reached) = false)
    (h2 : s.m_sspecs.length ≤ SSB_QUEUE_LIMIT) (h3 : 0 < s.m_outstanding_scanners) :
    verify_results s scancells = Outcome.ok
      { s with
        m_last_rowkey_verify := cstr (verify_loop scancells.cells (cstr s.m_last_rowkey_verify)
          (verify_spec s.m_primary_spec)).1
        m_sspecs := s.m_sspecs ++
          verify_stream s.m_primary_spec s.m_last_rowkey_verify [scancells] } := by
  unfold verify_results
  have hl : s.m_limits_reached = false := by
    cases h : s.m_limits_reached
    · rfl
    · rw [h] at h1
      simp at h1
  have h4 : ¬ (s.m_sspecs.length > SSB_QUEUE_LIMIT) := by omega
  have h5 : ¬ (s.m_outstanding_scanners ≤ 0) := by omega
  rw [if_neg (by rw [h1]; simp)]
  simp [h4, h5, hl, verify_stream]

theorem batch_keys_normal (batches : List ScanCells) :
    ∀ x ∈ (batches.map batch_keys).flatten, cstr x = x := by
  intro x hx
  simp only [List.mem_flatten, List.mem_map] at hx
  obtain ⟨l, ⟨b, _, rfl⟩, hxl⟩ := hx
  simp only [batch_keys, List.mem_map] at hxl
  obtain ⟨c, _, rfl⟩ := hxl
  exact cstr_idem _

theorem CkeyMap.store_ascending (m : CkeyMap) (key : KeySpec) (hasc : Ascending m) :
    Ascending (CkeyMap.store m key) ∧ same_rows (CkeyMap.store m key) (m ++ [key]) := by
  unfold CkeyMap.store same_rows
  cases hf : CkeyMap.find m key
  · simp only [Bool.false_eq_true, if_false]
    refine ⟨CkeyMap.insert_ascending _ _ hf hasc, ?_⟩
    intro r
    simp only [CkeyMap.mem_insert m key hf, List.mem_append, List.mem_singleton]
  · simp only [if_true]
    refine ⟨hasc, ?_⟩
    intro r
    obtain ⟨k', hk', he⟩ := (CkeyMap.find_iff _ _).1 hf
    constructor
    · rintro ⟨k, hk, e⟩
      exact ⟨k, List.mem_append_left _ hk, e⟩
    · rintro ⟨k, hk, e⟩
      rcases List.mem_append.1 hk with h1 | h1
      · exact ⟨k, h1, e⟩
      · rw [List.mem_singleton.1 h1] at e
        exact ⟨k', hk', by rw [he, e]⟩

theorem same_rows_refl (a : List KeySpec) : same_rows a a := fun _ => Iff.rfl

theorem same_rows_trans (a b c : List KeySpec) (h1 : same_rows a b) (h2 : same_rows b c) :
    same_rows a c := fun r => (h1 r).trans (h2 r)

theorem same_rows_append (a b c d : List KeySpec) (h1 : same_rows a b) (h2 : same_rows c d) :
    same_rows (a ++ c) (b ++ d) := by
  intro r
  constructor
  · rintro ⟨k, hk, e⟩
    rcases List.mem_append.1 hk with h | h
    · obtain ⟨k', hk', e'⟩ := (h1 r).1 ⟨k, h, e⟩
      exact ⟨k', List.mem_append_left _ hk', e'⟩
    · obtain ⟨k', hk', e'⟩ := (h2 r).1 ⟨k, h, e⟩
      exact ⟨k', List.mem_append_right _ hk', e'⟩
  · rintro ⟨k, hk, e⟩
    rcases List.mem_append.1 hk with h | h
    · obtain ⟨k', hk', e'⟩ := (h1 r).2 ⟨k, h, e⟩
      exact ⟨k', List.mem_append_left _ hk', e'⟩
    · obtain ⟨k', hk', e'⟩ := (h2 r).2 ⟨k, h, e⟩
      exact ⟨k', List.mem_append_right _ hk', e'⟩

theorem foldl_store_ascending (keys : List KeySpec) : ∀ m : CkeyMap, Ascending m →
    Ascending (keys.foldl CkeyMap.store m) ∧
      same_rows (keys.foldl CkeyMap.store m) (m ++ keys) := by
  induction keys with
  | nil =>
    intro m h
    rw [List.append_nil]
    exact ⟨h, same_rows_refl _⟩
  | cons key keys ih =>
    intro m h
    obtain ⟨h1, h2⟩ := CkeyMap.store_ascending m key h
    obtain ⟨h3, h4⟩ := ih _ h1
    refine ⟨h3, ?_⟩
    rw [List.foldl_cons]
    have := same_rows_append _ _ keys keys h2 (same_rows_refl _)
    rw [List.append_assoc, List.singleton_append] at this
    exact same_rows_trans _ _ _ h4 this

theorem rows_foldl_add_row (keys : List KeySpec) : ∀ ssb : ScanSpec,
    (keys.foldl (fun b k => b.add_row k.row) ssb).rows =
      ssb.rows ++ keys.map (fun k => cstr k.row) := by
  induction keys with
  | nil => intro ssb; simp
  | cons k keys ih =>
    intro ssb
    rw [List.foldl_cons, ih, ScanSpec.rows_add_row]
    simp

theorem index_eos_spec_rows (spec : ScanSpec) : (index_eos_spec spec).rows = [] := by
  simp [index_eos_spec, ScanSpec.rows, ScanSpecBuilder]

theorem entry_keys_congr (s s1 : State) (cells : List Cell)
    (h1 : s1.m_column_map = s.m_column_map) (h2 : s1.m_primary_spec = s.m_primary_spec) :
    entry_keys s1 cells = entry_keys s cells := by
  unfold entry_keys
  rw [h1, h2]

theorem Ascending.rows (m : CkeyMap) (h : Ascending m) :
    (m.map (fun k => cstr k.row)).Pairwise (List.Lex (· < ·)) := by
  unfold Ascending at h
  rw [List.pairwise_map]
  exact h

theorem collect_indices_eq (sizeof_KeySpec : Nat) (s : State) (scancells : ScanCells) :
    collect_indices sizeof_KeySpec s scancells =
      collect_indices_finish (collect_loop sizeof_KeySpec s scancells) scancells.eos := rfl

theorem index_frame_refl (s : State) : index_frame s s := ⟨rfl, rfl, rfl, rfl, rfl, rfl⟩

theorem collect_loop_buffered (sizeof_KeySpec : Nat) (s : State) (scancells : ScanCells)
    (hm : s.m_mutator = false) :
    index_frame s (collect_loop sizeof_KeySpec s scancells) ∧
      (collect_loop sizeof_KeySpec s scancells).m_mutator = false ∧
      (collect_loop sizeof_KeySpec s scancells).m_tmp_table = s.m_tmp_table ∧
      (collect_loop sizeof_KeySpec s scancells).staged = s.staged ∧
      (collect_loop sizeof_KeySpec s scancells).m_tmp_keys =
        (entry_keys s scancells.cells).foldl CkeyMap.store s.m_tmp_keys := by
  have hl := collect_loop_eq sizeof_KeySpec s scancells.cells
  rw [if_neg (by simp [hm] : ¬ s.m_mutator = true)] at hl
  unfold collect_loop
  rw [hl]
  simp only
  split_ifs <;> exact ⟨⟨rfl, rfl, rfl, rfl, rfl, rfl⟩, hm, rfl, rfl, rfl⟩

theorem collect_loop_staging (sizeof_KeySpec : Nat) (s : State) (scancells : ScanCells)
    (hm : s.m_mutator = true) :
    index_frame s (collect_loop sizeof_KeySpec s scancells) ∧
      (collect_loop sizeof_KeySpec s scancells).m_mutator = true ∧
      (collect_loop sizeof_KeySpec s scancells).m_tmp_table = s.m_tmp_table ∧
      (collect_loop sizeof_KeySpec s scancells).staged =
        s.staged ++ entry_keys s scancells.cells ∧
      (collect_loop sizeof_KeySpec s scancells).m_tmp_keys = s.m_tmp_keys := by
  have hl := collect_loop_eq sizeof_KeySpec s scancells.cells
  rw [if_pos hm] at hl
  unfold collect_loop
  rw [hl]
  simp only
  split_ifs <;> exact ⟨⟨rfl, rfl, rfl, rfl, rfl, rfl⟩, hm, rfl, rfl, rfl⟩

theorem finish_more_buffered (s2 : State) (hm : s2.m_mutator = false)
    (ht : s2.m_tmp_table = none) :
    ∃ s1, collect_indices_finish s2 false = Outcome.ok s1 ∧ index_frame s2 s1 ∧
      ((s1.m_tmp_table = none ∧ s1.m_mutator = false ∧ s1.staged = s2.staged ∧
          s1.m_tmp_keys = s2.m_tmp_keys) ∨
        (s1.m_tmp_table.isSome = true ∧ s1.m_mutator = true ∧
          s1.staged = s2.staged ++ s2.m_tmp_keys ∧ s1.m_tmp_keys = [])) := by
  unfold collect_indices_finish
  by_cases hc : s2.m_tmp_cutoff > TMP_CUTOFF
  · refine ⟨{ s2 with
        m_tmp_table := some ((s2.schema.filter (fun cf =>
          !((s2.m_qualifier_scan && !cf.has_qualifier_index) ||
            (!s2.m_qualifier_scan && !cf.has_index)))).map (fun cf => cf.name))
        m_mutator := true
        staged := s2.staged ++ s2.m_tmp_keys
        m_tmp_keys := []
        m_scancells_buffer := [] }, ?_, ⟨rfl, rfl, rfl, rfl, rfl, rfl⟩,
      Or.inr ⟨rfl, rfl, rfl, rfl⟩⟩
    simp [ht, hm, hc, create_temp_table, Outcome.andThen]
  · refine ⟨s2, ?_, index_frame_refl _, Or.inl ⟨ht, hm, rfl, rfl⟩⟩
    simp [ht, hc, Outcome.andThen]

theorem finish_eos_direct (s2 : State) (hm : s2.m_mutator = false)
    (ht : s2.m_tmp_table = none) (hk : s2.m_tmp_keys ≠ []) :
    ∃ sp : ScanSpec, sp.rows = s2.m_tmp_keys.map (fun k => cstr k.row) ∧
      collect_indices_finish s2 true =
        Outcome.ok { create_scanner_async s2 TableKind.primary sp with
          m_tmp_keys := [], m_scancells_buffer := [] } := by
  unfold collect_indices_finish
  refine ⟨{ s2.m_tmp_keys.foldl (fun b k => b.add_row k.row) (index_eos_spec s2.m_primary_spec)
    with column_predicates := (s2.m_tmp_keys.foldl (fun b k => b.add_row k.row)
      (index_eos_spec s2.m_primary_spec)).column_predicates ++
        s2.m_primary_spec.column_predicates }, ?_, ?_⟩
  · have h := rows_foldl_add_row s2.m_tmp_keys (index_eos_spec s2.m_primary_spec)
    rw [index_eos_spec_rows, List.nil_append] at h
    rw [← h]
    rfl
  · simp [ht, hm, hk]

theorem final_decrement_returns (s : State) (is_eos : Bool) (h : s.m_final_decrement = false) :
    ∃ s1, final_decrement s is_eos = Outcome.ok s1 ∧ s1.m_scanners = s.m_scanners ∧
      s1.m_tmp_table = s.m_tmp_table ∧ s1.staged = s.staged := by
  unfold final_decrement
  by_cases hf : final_eos s is_eos = true
  · rw [if_pos hf]
    simp only [h, bne_self_eq_false, Bool.false_eq_true, if_false, Bool.not_false, if_true]
    exact ⟨_, rfl, rfl, rfl, rfl⟩
  · rw [if_neg hf]
    exact ⟨_, rfl, rfl, rfl, rfl⟩

theorem same_rows_nil (keys : List KeySpec) (h : same_rows [] keys) : keys = [] := by
  cases keys with
  | nil => rfl
  | cons k ks =>
    obtain ⟨k', hk', _⟩ := (h (cstr k.row)).2 ⟨k, List.mem_cons_self _ _, rfl⟩
    exact absurd hk' (List.not_mem_nil _)

theorem scan_ok_collecting (sizeof_KeySpec : Nat) (s0 s : State) (keys : List KeySpec)
    (scancells : ScanCells) (h : Collecting s0 s keys) (hb : scancells.eos = false) :
    ∃ s1, scan_ok sizeof_KeySpec s TableKind.index scancells = Outcome.ok s1 ∧
      Collecting s0 s1 (keys ++ entry_keys s0 scancells.cells) := by
  obtain ⟨⟨f1, f2, f3, f4, f5, f6⟩, hmode⟩ := h
  have hek : entry_keys s scancells.cells = entry_keys s0 scancells.cells :=
    entry_keys_congr s0 s _ f1 f2
  by_cases hc : scancells.cells = []
  · refine ⟨s, ?_, ?_⟩
    · unfold scan_ok
      simp [hb, hc]
    · have : entry_keys s0 scancells.cells = [] := by
        rw [hc]; rfl
      rw [this, List.append_nil]
      exact ⟨⟨f1, f2, f3, f4, f5, f6⟩, hmode⟩
  · rw [scan_ok_more sizeof_KeySpec s TableKind.index scancells f3 hb hc]
    simp only
    rw [collect_indices_eq, hb]
    rcases hmode with ⟨m1, m2, m3, m4, m5⟩ | ⟨m1, m2, m3⟩
    · obtain ⟨⟨g1, g2, g3, g4, g5, g6⟩, l1, l2, l3, l4⟩ :=
        collect_loop_buffered sizeof_KeySpec s scancells m2
      obtain ⟨s1, e1, ⟨k1, k2, k3, k4, k5, k6⟩, hcase⟩ :=
        finish_more_buffered _ l1 (l2.trans m1)
      have hs1 : s1.m_eos = false := by rw [k3, g3, f3]
      refine ⟨s1, ?_, ?_⟩
      · rw [e1]
        simp only [Outcome.andThen]
        exact final_decrement_quiet s1 hs1
      · have hfold := foldl_store_ascending (entry_keys s scancells.cells) s.m_tmp_keys m4
        have hrows : same_rows
            ((entry_keys s scancells.cells).foldl CkeyMap.store s.m_tmp_keys)
            (keys ++ entry_keys s0 scancells.cells) := by
          rw [← hek]
          exact same_rows_trans _ _ _ hfold.2 (same_rows_append _ _ _ _ m5 (same_rows_refl _))
        refine ⟨⟨(k1.trans g1).trans f1, (k2.trans g2).trans f2, hs1,
          (k4.trans g4).trans f4, (k5.trans g5).trans f5, (k6.trans g6).trans f6⟩, ?_⟩
        rcases hcase with ⟨c1, c2, c3, c4⟩ | ⟨c1, c2, c3, c4⟩
        · left
          refine ⟨c1, c2, by rw [c3, l3, m3], ?_, ?_⟩
          · rw [c4, l4]
            exact hfold.1
          · rw [c4, l4]
            exact hrows
        · right
          refine ⟨c1, c2, ?_⟩
          rw [c3, l3, m3, l4, List.nil_append]
          exact hrows
    · obtain ⟨⟨g1, g2, g3, g4, g5, g6⟩, l1, l2, l3, l4⟩ :=
        collect_loop_staging sizeof_KeySpec s scancells m2
      have ht : (collect_loop sizeof_KeySpec s scancells).m_tmp_table.isSome = true := by
        rw [l2]; exact m1
      rw [finish_more_staging _ ht]
      simp only [Outcome.andThen]
      rw [final_decrement_quiet _ (by simp only; rw [g3, f3])]
      refine ⟨_, rfl, ⟨g1.trans f1, g2.trans f2, by simp only; rw [g3, f3],
        g4.trans f4, g5.trans f5, g6.trans f6⟩, Or.inr ⟨ht, l1, ?_⟩⟩
      simp only
      rw [l3, hek]
      exact same_rows_append _ _ _ _ m3 (same_rows_refl _)

theorem scan_ok_handed_over (sizeof_KeySpec : Nat) (s0 s : State) (keys : List KeySpec)
    (scancells : ScanCells) (h : Collecting s0 s keys) (hb : scancells.eos = true) :
    ∃ s1, scan_ok sizeof_KeySpec s TableKind.index scancells = Outcome.ok s1 ∧
      HandedOver s0 s1 (keys ++ entry_keys s0 scancells.cells) := by
  obtain ⟨⟨f1, f2, f3, f4, f5, f6⟩, hmode⟩ := h
  rw [scan_ok_of_not_eos _ _ _ _ f3]
  rw [if_neg (by simp [hb]), if_neg (by simp [f4])]
  simp only
  have ha : after_eos_bookkeeping s scancells.eos =
      { s with m_outstanding_scanners := s.m_outstanding_scanners - 1 } := by
    unfold after_eos_bookkeeping
    rw [if_pos hb]
  rw [ha, collect_indices_eq, hb]
  have hek : entry_keys ({ s with m_outstanding_scanners := s.m_outstanding_scanners - 1 } : State)
      scancells.cells = entry_keys s0 scancells.cells :=
    entry_keys_congr s0 _ _ f1 f2
  rcases hmode with ⟨m1, m2, m3, m4, m5⟩ | ⟨m1, m2, m3⟩
  · obtain ⟨⟨g1, g2, g3, g4, g5, g6⟩, l1, l2, l3, l4⟩ :=
      collect_loop_buffered sizeof_KeySpec
        { s with m_outstanding_scanners := s.m_outstanding_scanners - 1 } scancells m2
    simp only at g1 g2 g3 g4 g5 g6 l2 l3 l4
    have hfold := foldl_store_ascending (entry_keys s0 scancells.cells) s.m_tmp_keys m4
    rw [hek] at l4
    have hrows : same_rows
        ((entry_keys s0 scancells.cells).foldl CkeyMap.store s.m_tmp_keys)
        (keys ++ entry_keys s0 scancells.cells) :=
      same_rows_trans _ _ _ hfold.2 (same_rows_append _ _ _ _ m5 (same_rows_refl _))
    by_cases hk : (collect_loop sizeof_KeySpec
        { s with m_outstanding_scanners := s.m_outstanding_scanners - 1 }
        scancells).m_tmp_keys = []
    · rw [finish_eos_empty _ l1 (l2.trans m1) hk]
      simp only [Outcome.andThen]
      obtain ⟨s1, e1, e2, e3, e4⟩ := final_decrement_returns
        { collect_loop sizeof_KeySpec
            { s with m_outstanding_scanners := s.m_outstanding_scanners - 1 } scancells with
          m_eos := true } true (by simp only; rw [g6, f6])
      simp only at e2 e3 e4
      refine ⟨s1, e1, ?_, ?_⟩
      · intro _
        have hnil : keys ++ entry_keys s0 scancells.cells = [] := by
          apply same_rows_nil
          rw [← hk, l4]
          exact hrows
        refine ⟨fun _ => by rw [e2, g5, f5], fun hne => absurd hnil hne⟩
      · intro hsome
        rw [e3, l2, m1] at hsome
        simp at hsome
    · obtain ⟨sp, hsp, e0⟩ := finish_eos_direct _ l1 (l2.trans m1) hk
      rw [e0]
      simp only [Outcome.andThen]
      obtain ⟨s1, e1, e2, e3, e4⟩ := final_decrement_returns
        { create_scanner_async (collect_loop sizeof_KeySpec
            { s with m_outstanding_scanners := s.m_outstanding_scanners - 1 } scancells)
            TableKind.primary sp with
          m_tmp_keys := [], m_scancells_buffer := [] } true
        (by simp only [create_scanner_async, register_scanner]; rw [g6, f6])
      simp only [create_scanner_async, register_scanner] at e2 e3 e4
      refine ⟨s1, e1, ?_, ?_⟩
      · intro _
        refine ⟨fun hnil => ?_, fun _ => ⟨sp, ?_, ?_, ?_⟩⟩
        · exfalso
          apply hk
          apply List.eq_nil_of_length_eq_zero
          by_contra hlen
          obtain ⟨k, hkm⟩ := List.exists_mem_of_length_pos (Nat.pos_of_ne_zero hlen)
          rw [l4] at hkm
          obtain ⟨k', hk', _⟩ := (hrows (cstr k.row)).1 ⟨k, hkm, rfl⟩
          rw [hnil] at hk'
          exact absurd hk' (List.not_mem_nil _)
        · rw [e2, g5, f5]
          rfl
        · rw [hsp, l4]
          exact Ascending.rows _ hfold.1
        · intro r
          rw [hsp, l4, List.mem_map]
          constructor
          · rintro ⟨k, hkm, e⟩
            exact (hrows r).1 ⟨k, hkm, e⟩
          · intro hx
            obtain ⟨k, hkm, e⟩ := (hrows r).2 hx
            exact ⟨k, hkm, e⟩
      · intro hsome
        rw [e3, l2, m1] at hsome
        simp at hsome
  · obtain ⟨⟨g1, g2, g3, g4, g5, g6⟩, l1, l2, l3, l4⟩ :=
      collect_loop_staging sizeof_KeySpec
        { s with m_outstanding_scanners := s.m_outstanding_scanners - 1 } scancells m2
    simp only at g1 g2 g3 g4 g5 g6 l2 l3 l4
    rw [hek] at l3
    have ht : (collect_loop sizeof_KeySpec
        { s with m_outstanding_scanners := s.m_outstanding_scanners - 1 }
        scancells).m_tmp_table.isSome = true := by
      rw [l2]; exact m1
    rw [finish_eos_staging _ l1 ht]
    simp only [Outcome.andThen]
    obtain ⟨s1, e1, e2, e3, e4⟩ := final_decrement_returns
      (create_scanner_async { collect_loop sizeof_KeySpec
          { s with m_outstanding_scanners := s.m_outstanding_scanners - 1 } scancells with
          m_mutator := false } TableKind.temporary
        (index_eos_spec (collect_loop sizeof_KeySpec
          { s with m_outstanding_scanners := s.m_outstanding_scanners - 1 }
          scancells).m_primary_spec)) true
      (by simp only [create_scanner_async, register_scanner]; rw [g6, f6])
    simp only [create_scanner_async, register_scanner] at e2 e3 e4
    refine ⟨s1, e1, ?_, ?_⟩
    · intro hnone
      rw [e3] at hnone
      rw [hnone] at ht
      simp at ht
    · intro _
      refine ⟨?_, ?_⟩
      · rw [e2, g2.trans f2, g5.trans f5]
        rfl
      · rw [e4, l3]
        exact same_rows_append _ _ _ _ m3 (same_rows_refl _)

theorem run_append (sizeof_KeySpec : Nat) (cbs1 cbs2 : List Callback) : ∀ s : State,
    run sizeof_KeySpec s (cbs1 ++ cbs2) =
      (run sizeof_KeySpec s cbs1).andThen (fun s1 => run sizeof_KeySpec s1 cbs2) := by
  induction cbs1 with
  | nil => intro s; rfl
  | cons cb cbs ih =>
    intro s
    simp only [List.cons_append, run]
    cases deliver sizeof_KeySpec s cb with
    | ok s1 => simp only [Outcome.andThen]; exact ih s1
    | assert_failed => rfl
    | blocked s1 => rfl

theorem run_collecting (sizeof_KeySpec : Nat) (s0 : State) (batches : List ScanCells) :
    ∀ (s : State) (keys : List KeySpec), Collecting s0 s keys →
      (∀ b ∈ batches, b.eos = false) →
      ∃ s1, run sizeof_KeySpec s (batches.map (Callback.scan_ok TableKind.index)) =
          Outcome.ok s1 ∧
        Collecting s0 s1 (keys ++ surviving_keys s0 batches) := by
  induction batches with
  | nil =>
    intro s keys h _
    refine ⟨s, rfl, ?_⟩
    simp only [surviving_keys, List.map_nil, List.flatten_nil, List.append_nil]
    exact h
  | cons b bs ih =>
    intro s keys h hb
    obtain ⟨s1, e1, h1⟩ := scan_ok_collecting sizeof_KeySpec s0 s keys b h
      (hb b (List.mem_cons_self _ _))
    obtain ⟨s2, e2, h2⟩ := ih s1 _ h1 (fun b' hb' => hb b' (List.mem_cons_of_mem _ hb'))
    refine ⟨s2, ?_, ?_⟩
    · rw [List.map_cons, run_scan_ok sizeof_KeySpec s s1 _ _ _ e1]
      exact e2
    · simp only [surviving_keys, List.map_cons, List.flatten_cons] at h2 ⊢
      rw [← List.append_assoc]
      exact h2

/-- C12 (candidate deduplication without loss): one index scanner is registered and delivers
any batches without the end-of-stream flag and then its end-of-stream batch.  Every callback
returns, and the row keys of the surviving index entries of all the batches are what the
coordinator hands to the next stage.  If no staging table was created: no scanner is opened
when there is no surviving entry, and else exactly one scanner, on the primary table, whose
row list is strictly ascending in the bytewise order of `operator<` (so no key is listed twice)
and holds exactly the row keys of the surviving entries.  If the staging table was created:
exactly one scanner, on the staging table, and the row keys written to the staging mutator are
exactly the row keys of the surviving entries. -/
theorem C12_candidate_deduplication_without_loss (sizeof_KeySpec : Nat)
    (schema : List ColumnFamily) (spec : ScanSpec) (qualifier_scan : Bool)
    (batches : List ScanCells) (last : ScanCells)
    (hb : ∀ b ∈ batches, b.eos = false) (hl : last.eos = true) :
    ∃ s, run sizeof_KeySpec (IndexScannerCallback schema spec qualifier_scan)
        (Callback.register_scanner ::
          (batches ++ [last]).map (Callback.scan_ok TableKind.index)) = Outcome.ok s ∧
      (s.m_tmp_table = none →
        (surviving_keys (IndexScannerCallback schema spec qualifier_scan)
            (batches ++ [last]) = [] → s.m_scanners = []) ∧
        (surviving_keys (IndexScannerCallback schema spec qualifier_scan)
            (batches ++ [last]) ≠ [] →
          ∃ sp : ScanSpec, s.m_scanners = [{ table := TableKind.primary, spec := sp }] ∧
            sp.rows.Pairwise (List.Lex (· < ·)) ∧
            ∀ r : Bytes, r ∈ sp.rows ↔
              ∃ k ∈ surviving_keys (IndexScannerCallback schema spec qualifier_scan)
                (batches ++ [last]), cstr k.row = r)) ∧
      (s.m_tmp_table.isSome = true →
        s.m_scanners = [{ table := TableKind.temporary, spec := index_eos_spec spec }] ∧
        ∀ r : Bytes, (∃ k ∈ s.staged, cstr k.row = r) ↔
          ∃ k ∈ surviving_keys (IndexScannerCallback schema spec qualifier_scan)
            (batches ++ [last]), cstr k.row = r) := by
  have h0 : Collecting (IndexScannerCallback schema spec qualifier_scan)
      (register_scanner (IndexScannerCallback schema spec qualifier_scan)) [] := by
    refine ⟨⟨rfl, rfl, rfl, ?_, rfl, rfl⟩, Or.inl ⟨rfl, rfl, rfl, ?_, ?_⟩⟩
    · simp [register_scanner, IndexScannerCallback]
    · exact List.Pairwise.nil
    · exact same_rows_refl _
  obtain ⟨s1, e1, h1⟩ := run_collecting sizeof_KeySpec _ batches _ _ h0 hb
  obtain ⟨s2, e2, h2⟩ := scan_ok_handed_over sizeof_KeySpec _ s1 _ last h1 hl
  refine ⟨s2, ?_, ?_⟩
  · rw [run_register, List.map_append, run_append, e1]
    simp only [Outcome.andThen, List.map_cons, List.map_nil]
    rw [run_scan_ok sizeof_KeySpec s1 s2 _ _ _ e2]
    rfl
  · have hk : surviving_keys (IndexScannerCallback schema spec qualifier_scan)
        (batches ++ [last]) =
        [] ++ surviving_keys (IndexScannerCallback schema spec qualifier_scan) batches ++
          entry_keys (IndexScannerCallback schema spec qualifier_scan) last.cells := by
      simp [surviving_keys]
    rw [hk]
    exact h2

/-- Witness of C12: a batch with the entries of rows `a` and `b` among malformed ones, then the
end-of-stream batch with the entry of row `a` again. -/
theorem C12_candidate_deduplication_witness :
    ((∀ b ∈ [ex_index_batch], b.eos = false) ∧ ex_last_index_batch.eos = true) ∧
    ∃ s, run 64 (IndexScannerCallback ex_schema ScanSpecBuilder false)
        (Callback.register_scanner ::
          ([ex_index_batch] ++ [ex_last_index_batch]).map
            (Callback.scan_ok TableKind.index)) = Outcome.ok s ∧
      (s.m_tmp_table = none →
        (surviving_keys (IndexScannerCallback ex_schema ScanSpecBuilder false)
            ([ex_index_batch] ++ [ex_last_index_batch]) = [] → s.m_scanners = []) ∧
        (surviving_keys (IndexScannerCallback ex_schema ScanSpecBuilder false)
            ([ex_index_batch] ++ [ex_last_index_batch]) ≠ [] →
          ∃ sp : ScanSpec, s.m_scanners = [{ table := TableKind.primary, spec := sp }] ∧
            sp.rows.Pairwise (List.Lex (· < ·)) ∧
            ∀ r : Bytes, r ∈ sp.rows ↔
              ∃ k ∈ surviving_keys (IndexScannerCallback ex_schema ScanSpecBuilder false)
                ([ex_index_batch] ++ [ex_last_index_batch]), cstr k.row = r)) ∧
      (s.m_tmp_table.isSome = true →
        s.m_scanners =
            [{ table := TableKind.temporary, spec := index_eos_spec ScanSpecBuilder }] ∧
        ∀ r : Bytes, (∃ k ∈ s.staged, cstr k.row = r) ↔
          ∃ k ∈ surviving_keys (IndexScannerCallback ex_schema ScanSpecBuilder false)
            ([ex_index_batch] ++ [ex_last_index_batch]), cstr k.row = r) :=
  ⟨⟨by decide, rfl⟩,
    C12_candidate_deduplication_without_loss 64 ex_schema ScanSpecBuilder false
      [ex_index_batch] ex_last_index_batch (by decide) rfl⟩

/-! ## The predicate tracker with a cell limit per family -/

theorem track_cell_family_same (s : State) (l : TrackLocals) (c : Cell) (k : Int)
    (hc : FamilyLimitOnly s k) (hk0 : k ≠ 0) (hs : l.skip_row = false)
    (hk : cstr c.row_key = cstr l.last) :
    track_cell s l c =
      ({ s with m_cell_count := s.m_cell_count + 1 },
        { l with scp := l.scp ++ (if s.m_cell_count < k then [c] else []) }, false) := by
  obtain ⟨h1, h2, h3, h4, h5⟩ := hc
  have h0 : strcmp l.last c.row_key = 0 := (strcmp_eq_zero_iff _ _).2 hk.symm
  unfold track_cell
  by_cases hlt : s.m_cell_count < k
  · simp [h0, hs, h1, h2, h3, h4, h5, hk0, hlt]
  · simp [h0, hs, h1, h2, h3, h4, h5, hk0, hlt]
    cases l
    simp only at hs
    simp [hs]

theorem track_cell_family_start (s : State) (l : TrackLocals) (c : Cell) (k : Int)
    (hc : FamilyLimitOnly s k) (hk0 : 0 < k) (hk : cstr c.row_key ≠ cstr l.last) :
    track_cell s l c =
      ({ s with m_cell_count := 1, m_row_count := s.m_row_count + 1 },
        { last := c.row_key, skip_row := false, scp := l.scp ++ [c] }, false) := by
  obtain ⟨h1, h2, h3, h4, h5⟩ := hc
  have h0 : strcmp l.last c.row_key ≠ 0 := fun h => hk ((strcmp_eq_zero_iff _ _).1 h).symm
  have hne : k ≠ 0 := by omega
  unfold track_cell
  simp [h0, h1, h2, h3, h4, h5, hne, hk0]

theorem track_loop_family (k : Nat) (hk : 0 < k) (cells : List Cell) :
    ∀ (s : State) (l : TrackLocals) (count : Nat),
      FamilyLimitOnly s (k : Int) → s.m_limits_reached = false →
      s.m_cell_count = (count : Int) → l.skip_row = false →
      (track_loop cells s l).2.scp = l.scp ++ take_cells k count (cstr l.last) cells ∧
      (track_loop cells s l).1.sink = s.sink ∧
      FamilyAbs (k : Int) { (track_loop cells s l).1 with
          m_last_rowkey_tracking := cstr (track_loop cells s l).2.last }
        (after_cells count (cstr l.last) cells) := by
  have hk0 : (k : Int) ≠ 0 := by omega
  have hkp : (0 : Int) < (k : Int) := by omega
  induction cells with
  | nil =>
    intro s l count hc hl hcnt hs
    simp only [track_loop, take_cells, after_cells, List.append_nil, true_and]
    exact ⟨hc, hl, hcnt, cstr_idem _⟩
  | cons c cs ih =>
    intro s l count hc hl hcnt hs
    by_cases hkey : cstr c.row_key = cstr l.last
    · rw [track_loop, track_cell_family_same s l c (k : Int) hc hk0 hs hkey]
      have := ih { s with m_cell_count := s.m_cell_count + 1 }
        { l with scp := l.scp ++ (if s.m_cell_count < (k : Int) then [c] else []) } (count + 1)
        hc hl (by simp only [hcnt]; push_cast; ring) hs
      simp only [take_cells, after_cells, hkey, if_true]
      simp only [List.append_assoc] at this
      have hlt : (s.m_cell_count < (k : Int)) ↔ count < k := by rw [hcnt]; exact Nat.cast_lt
      simp only [hlt] at this ⊢
      exact this
    · rw [track_loop, track_cell_family_start s l c (k : Int) hc hkp hkey]
      have := ih { s with m_cell_count := 1, m_row_count := s.m_row_count + 1 }
        { last := c.row_key, skip_row := false, scp := l.scp ++ [c] } 1
        hc hl rfl rfl
      simp only [take_cells, after_cells, hkey, if_false, hk, if_true]
      simp only [List.append_assoc] at this
      exact this

theorem FamilyAbs_sink (k : Int) (s : State) (calls : List SinkCall) (a : Nat × Bytes) :
    FamilyAbs k { s with sink := calls } a ↔ FamilyAbs k s a := Iff.rfl

theorem track_predicates_family (k : Nat) (hk : 0 < k) (s : State) (b : ScanCells)
    (a : Nat × Bytes) (h : FamilyAbs (k : Int) s a) :
    FamilyAbs (k : Int) (track_predicates s b) (after_cells a.1 a.2 b.cells) ∧
      forwarded (track_predicates s b).sink =
        forwarded s.sink ++ take_cells k a.1 a.2 b.cells := by
  obtain ⟨count, last⟩ := a
  obtain ⟨hc, hl, hcnt, hlast⟩ := h
  simp only at hcnt hlast ⊢
  subst hlast
  unfold track_predicates
  by_cases he : (b.eos && b.cells.isEmpty) = true
  · have hcells : b.cells = [] := by
      simp only [Bool.and_eq_true, List.isEmpty_iff] at he
      exact he.2
    rw [if_pos (by simp [he]), hcells]
    simp only [after_cells, take_cells, List.append_nil]
    exact ⟨⟨hc, hl, hcnt, rfl⟩, rfl⟩
  · rw [if_neg (by simp only [hl, Bool.or_false]; exact he)]
    have hloop := track_loop_family k hk b.cells s
      { last := cstr s.m_last_rowkey_tracking, skip_row := false, scp := [] } count hc hl hcnt rfl
    simp only [cstr_idem, List.nil_append] at hloop
    obtain ⟨h1, h2, h3⟩ := hloop
    dsimp only
    by_cases hlen : (track_loop b.cells s
        { last := cstr s.m_last_rowkey_tracking, skip_row := false, scp := [] }).2.scp.length ≠ 0
    · rw [if_pos hlen]
      refine ⟨(FamilyAbs_sink (k : Int) _ _ _).2 h3, ?_⟩
      simp only [forwarded_append, forwarded, h1, h2, List.append_nil]
    · rw [if_neg hlen]
      refine ⟨h3, ?_⟩
      simp only [ne_eq, List.length_eq_zero, not_not] at hlen
      show forwarded (track_loop b.cells s
        { last := cstr s.m_last_rowkey_tracking, skip_row := false, scp := [] }).1.sink = _
      rw [h2, ← h1, hlen, List.append_nil]

theorem take_cells_append (k : Nat) (xs ys : List Cell) : ∀ (count : Nat) (last : Bytes),
    take_cells k count last (xs ++ ys) = take_cells k count last xs ++
      take_cells k (after_cells count last xs).1 (after_cells count last xs).2 ys := by
  induction xs with
  | nil => intro count last; simp [take_cells, after_cells]
  | cons c cs ih =>
    intro count last
    by_cases hkey : cstr c.row_key = last
    · simp [take_cells, after_cells, hkey, ih]
    · simp [take_cells, after_cells, hkey, ih]

theorem after_cells_append (xs ys : List Cell) : ∀ (count : Nat) (last : Bytes),
    after_cells count last (xs ++ ys) =
      after_cells (after_cells count last xs).1 (after_cells count last xs).2 ys := by
  induction xs with
  | nil => intro count last; simp [after_cells]
  | cons c cs ih =>
    intro count last
    by_cases hkey : cstr c.row_key = last
    · simp [after_cells, hkey, ih]
    · simp [after_cells, hkey, ih]

theorem track_batches_family (k : Nat) (hk : 0 < k) (batches : List ScanCells) :
    ∀ (s : State) (a : Nat × Bytes), FamilyAbs (k : Int) s a →
      FamilyAbs (k : Int) (track_batches s batches)
        (after_cells a.1 a.2 (batches.map ScanCells.cells).flatten) ∧
      forwarded (track_batches s batches).sink = forwarded s.sink ++
        take_cells k a.1 a.2 (batches.map ScanCells.cells).flatten := by
  induction batches with
  | nil =>
    intro s a h
    simpa [track_batches, take_cells, after_cells] using h
  | cons b bs ih =>
    intro s a h
    have h1 := track_predicates_family k hk s b a h
    have h2 := ih (track_predicates s b) _ h1.1
    simp only [track_batches, List.foldl_cons, List.map_cons, List.flatten_cons] at h2 ⊢
    rw [h1.2] at h2
    rw [take_cells_append, after_cells_append, ← List.append_assoc]
    exact h2

theorem take_cells_eq (k : Nat) (cells : List Cell) : ∀ (count : Nat) (last : Bytes),
    take_cells k count last cells =
      (cells.takeWhile (fun c => decide (cstr c.row_key = last))).take (k - count) ++
        ((rows (cells.dropWhile (fun c => decide (cstr c.row_key = last)))).map
          (List.take k)).flatten := by
  induction cells with
  | nil => intro count last; simp [take_cells, rows]
  | cons c cs ih =>
    intro count last
    by_cases hkey : cstr c.row_key = last
    · by_cases hlt : count < k
      · have hsub : k - count = (k - (count + 1)) + 1 := by omega
        simp [take_cells, hkey, hlt, List.takeWhile_cons, List.dropWhile_cons, ih (count + 1) last,
          hsub]
      · have hsub : k - count = 0 := by omega
        have hsub1 : k - (count + 1) = 0 := by omega
        simp [take_cells, hkey, hlt, List.takeWhile_cons, List.dropWhile_cons, ih (count + 1) last,
          hsub, hsub1]
    · have hf : same_row c = fun d => decide (cstr d.row_key = cstr c.row_key) := by
        funext d
        simp only [same_row, eq_comm]
      by_cases hk : 0 < k
      · have hsub : k = (k - 1) + 1 := by omega
        simp only [take_cells, hkey, if_false, hk, if_true, List.takeWhile_cons,
          List.dropWhile_cons, decide_False, Bool.false_eq_true, List.take_nil, List.nil_append,
          rows_cons, List.map_cons, List.flatten_cons, ih 1 (cstr c.row_key), hf,
          List.singleton_append]
        rw [hsub, List.take_succ_cons]
        simp
      · have hk0 : k = 0 := by omega
        subst hk0
        simp [take_cells, hkey, List.takeWhile_cons, List.dropWhile_cons, rows_cons,
          ih 1 (cstr c.row_key), hf]

/-- C22 (per-family cell limit): with `cell_limit_per_family = k > 0` and the other four
parameters zero, for batches of primary-table cells with non-empty row keys, split in any way,
the cells `track_predicates` forwards to the user's callback are, of every row (maximal run of
equal row key) of the concatenated batches, exactly its first `k` cells (all of them when the
row has fewer), whatever their column families, in order of arrival; and `m_limits_reached` is
not set. -/
theorem C22_cell_limit_per_family (schema : List ColumnFamily) (spec : ScanSpec)
    (qualifier_scan : Bool) (k : Nat) (batches : List ScanCells)
    (hk : 0 < k) (hcf : spec.cell_limit_per_family = (k : Int)) (hrl : spec.row_limit = 0)
    (hro : spec.row_offset = 0) (hco : spec.cell_offset = 0) (hcl : spec.cell_limit = 0)
    (hkeys : ∀ b ∈ batches, ∀ c ∈ b.cells, cstr c.row_key ≠ []) :
    forwarded (track_batches (IndexScannerCallback schema spec qualifier_scan) batches).sink =
        first_cells k (batches.map ScanCells.cells).flatten ∧
      (track_batches (IndexScannerCallback schema spec
        qualifier_scan) batches).m_limits_reached = false := by
  have hne : (k : Int) ≠ 0 := by omega
  have h0 : FamilyAbs (k : Int) (IndexScannerCallback schema spec qualifier_scan) (0, []) := by
    simp [FamilyAbs, FamilyLimitOnly, IndexScannerCallback, hrl, hro, hco, hcl, hcf, hne, cstr]
  have hall : ∀ c ∈ (batches.map ScanCells.cells).flatten, cstr c.row_key ≠ [] := by
    intro c hc
    simp only [List.mem_flatten, List.mem_map] at hc
    obtain ⟨l, ⟨b, hb, rfl⟩, hcl⟩ := hc
    exact hkeys b hb c hcl
  obtain ⟨hd, ht⟩ := dropWhile_no_row _ hall
  obtain ⟨h1, h2⟩ := track_batches_family k hk batches _ _ h0
  refine ⟨?_, h1.2.1⟩
  rw [h2, take_cells_eq, hd, ht]
  simp [forwarded, IndexScannerCallback, first_cells, rows_eq_splitBy]

/-- Witness of C22: `cell_limit_per_family = 1` on the rows `a`, `a`, `b` | `b`, `c`. -/
theorem C22_cell_limit_per_family_witness :
    (0 < 1 ∧ ex_family_limit_one.cell_limit_per_family = ((1 : Nat) : Int) ∧
      ex_family_limit_one.row_limit = 0 ∧ ex_family_limit_one.row_offset = 0 ∧
      ex_family_limit_one.cell_offset = 0 ∧ ex_family_limit_one.cell_limit = 0 ∧
      ∀ b ∈ ex_batches, ∀ c ∈ b.cells, cstr c.row_key ≠ []) ∧
    forwarded (track_batches (IndexScannerCallback ex_schema ex_family_limit_one false)
        ex_batches).sink = first_cells 1 (ex_batches.map ScanCells.cells).flatten ∧
      (track_batches (IndexScannerCallback ex_schema ex_family_limit_one false)
        ex_batches).m_limits_reached = false :=
  ⟨⟨by decide, rfl, rfl, rfl, rfl, rfl, by decide⟩,
    C22_cell_limit_per_family ex_schema ex_family_limit_one false 1 ex_batches (by decide) rfl
      rfl rfl rfl rfl (by decide)⟩

/-! ## The assertions of `readahead` -/

set_option maxHeartbeats 1000000 in
theorem track_cell_flags (s : State) (l : TrackLocals) (cell : Cell) :
    (track_cell s l cell).1.m_eos = s.m_eos ∧
      (track_cell s l cell).1.m_final_decrement = s.m_final_decrement := by
  unfold track_cell
  split_ifs <;> dsimp only <;> split_ifs <;> exact ⟨rfl, rfl⟩

theorem track_loop_flags (cells : List Cell) : ∀ (s : State) (l : TrackLocals),
    (track_loop cells s l).1.m_eos = s.m_eos ∧
      (track_loop cells s l).1.m_final_decrement = s.m_final_decrement := by
  induction cells with
  | nil => intro s l; exact ⟨rfl, rfl⟩
  | cons cell cells ih =>
    intro s l
    have h := track_cell_flags s l cell
    unfold track_loop
    rcases hc : track_cell s l cell with ⟨s1, l1, brk⟩
    rw [hc] at h
    cases brk
    · have h2 := ih s1 l1
      exact ⟨h2.1.trans h.1, h2.2.trans h.2⟩
    · exact h

theorem track_predicates_flags (s : State) (scancells : ScanCells) :
    (track_predicates s scancells).m_final_decrement = s.m_final_decrement ∧
      ((track_predicates s scancells).m_limits_reached = false → scancells.eos = false →
        (track_predicates s scancells).m_eos = s.m_eos) := by
  have h := track_loop_flags scancells.cells s
    { last := cstr s.m_last_rowkey_tracking, skip_row := false, scp := [] }
  unfold track_predicates
  by_cases hc : ((scancells.eos && scancells.cells.isEmpty) || s.m_limits_reached) = true
  · rw [if_pos hc]
    refine ⟨rfl, fun hl he => ?_⟩
    rw [he] at hc
    simp only [Bool.false_and, Bool.false_or] at hc
    exact absurd (hc.symm.trans hl) (by decide)
  · rw [if_neg hc]
    dsimp only
    split_ifs
    · exact ⟨h.2, fun _ _ => h.1⟩
    · exact ⟨h.2, fun _ _ => h.1⟩

theorem forward_primary_flags (s : State) (scancells : ScanCells) :
    (forward_primary s scancells).m_final_decrement = s.m_final_decrement ∧
      ((forward_primary s scancells).m_limits_reached = false →
        (forward_primary s scancells).m_eos = s.m_eos) := by
  unfold forward_primary
  split_ifs
  · have h := track_predicates_flags s { scancells with eos := false }
    exact ⟨h.1, fun hl => h.2 hl rfl⟩
  · exact ⟨rfl, fun _ => rfl⟩

theorem readahead_asserts (s : State) :
    readahead s = Outcome.assert_failed ↔ (s.m_limits_reached = true ∨ s.m_eos = true) := by
  unfold readahead
  cases hl : s.m_limits_reached <;> cases he : s.m_eos <;> cases s.m_sspecs <;> simp

theorem readahead_flags (s s1 : State) (h : readahead s = Outcome.ok s1) :
    s1.m_final_decrement = s.m_final_decrement := by
  unfold readahead at h
  split_ifs at h
  cases hq : s.m_sspecs with
  | nil =>
    rw [hq] at h
    cases h
    rfl
  | cons ssb rest =>
    rw [hq] at h
    cases h
    rfl

theorem verify_results_asserts (s : State) (scancells : ScanCells) (h : s.m_eos = false) :
    verify_results s scancells ≠ Outcome.assert_failed := by
  unfold verify_results
  by_cases hc : ((scancells.eos && scancells.cells.isEmpty) || s.m_limits_reached) = true
  · rw [if_pos hc]
    exact Outcome.noConfusion
  · rw [if_neg hc]
    dsimp only
    by_cases hq : (decide (s.m_sspecs.length > SSB_QUEUE_LIMIT) && !s.m_limits_reached) = true
    · rw [if_pos hq]
      exact Outcome.noConfusion
    · rw [if_neg hq]
      by_cases hl : s.m_limits_reached = true
      · rw [if_pos hl]
        exact Outcome.noConfusion
      · rw [if_neg hl]
        by_cases ho : s.m_outstanding_scanners ≤ 0
        · rw [if_pos ho]
          intro hr
          rcases (readahead_asserts _).1 hr with h1 | h1
          · exact hl h1
          · exact absurd (h1.symm.trans h) (by decide)
        · rw [if_neg ho]
          exact Outcome.noConfusion

theorem verify_results_flags (s s1 : State) (scancells : ScanCells)
    (h : verify_results s scancells = Outcome.ok s1) :
    s1.m_final_decrement = s.m_final_decrement := by
  unfold verify_results at h
  by_cases hc : ((scancells.eos && scancells.cells.isEmpty) || s.m_limits_reached) = true
  · rw [if_pos hc] at h
    cases h
    rfl
  · rw [if_neg hc] at h
    dsimp only at h
    by_cases hq : (decide (s.m_sspecs.length > SSB_QUEUE_LIMIT) && !s.m_limits_reached) = true
    · rw [if_pos hq] at h
      cases h
    · rw [if_neg hq] at h
      by_cases hl : s.m_limits_reached = true
      · rw [if_pos hl] at h
        cases h
        rfl
      · rw [if_neg hl] at h
        by_cases ho : s.m_outstanding_scanners ≤ 0
        · rw [if_pos ho] at h
          have hr := readahead_flags _ _ h
          exact hr
        · rw [if_neg ho] at h
          cases h
          rfl

theorem final_decrement_asserts (s : State) (is_eos : Bool) (h : s.m_final_decrement = false) :
    final_decrement s is_eos ≠ Outcome.assert_failed := by
  obtain ⟨s1, h1, _⟩ := final_decrement_returns s is_eos h
  rw [h1]
  exact Outcome.noConfusion

theorem after_eos_bookkeeping_flags (s : State) (is_eos : Bool) :
    (after_eos_bookkeeping s is_eos).m_eos = s.m_eos ∧
      (after_eos_bookkeeping s is_eos).m_final_decrement = s.m_final_decrement := by
  unfold after_eos_bookkeeping
  split_ifs <;> exact ⟨rfl, rfl⟩

theorem andThen_asserts (o : Outcome) (f : State → Outcome) (h1 : o ≠ Outcome.assert_failed)
    (h2 : ∀ s, o = Outcome.ok s → f s ≠ Outcome.assert_failed) :
    o.andThen f ≠ Outcome.assert_failed := by
  cases o with
  | ok s => exact h2 s rfl
  | assert_failed => exact absurd rfl h1
  | blocked s => exact Outcome.noConfusion

/-- C24 (assertions of `readahead`): `readahead` aborts exactly when `m_limits_reached` or
`m_eos` is set.  Let `scan_ok` be delivered in any state with `m_eos = false` (with `m_eos` set it
returns before its branches), and let `s1` be the state after its bookkeeping of the end of a
scanner.  Where the primary branch calls `readahead`, that is on the state left by the forwarding
of the batch when its guard holds, `m_limits_reached` and `m_eos` are both false there;
`verify_results` on `s1` does not abort, and `readahead` is the only place where it could; so
`scan_ok` on a batch of the temporary or of the primary table does not abort when its own
assertion on `m_outstanding_scanners` and the one of `final_decrement` hold. -/
theorem C24_readahead_assertions_hold (sizeof_KeySpec : Nat) (s : State) (table : TableKind)
    (scancells : ScanCells) (heos : s.m_eos = false) :
    (∀ r : State, readahead r = Outcome.assert_failed ↔
        (r.m_limits_reached = true ∨ r.m_eos = true)) ∧
      ((!(forward_primary (after_eos_bookkeeping s scancells.eos) scancells).m_limits_reached &&
          scancells.eos) = true →
        (forward_primary (after_eos_bookkeeping s scancells.eos) scancells).m_limits_reached =
            false ∧
          (forward_primary (after_eos_bookkeeping s scancells.eos) scancells).m_eos = false) ∧
      verify_results (after_eos_bookkeeping s scancells.eos) scancells ≠
        Outcome.assert_failed ∧
      (table ≠ TableKind.index → s.m_final_decrement = false →
        (scancells.eos = true → 0 < s.m_outstanding_scanners) →
        scan_ok sizeof_KeySpec s table scancells ≠ Outcome.assert_failed) := by
  have hb := after_eos_bookkeeping_flags s scancells.eos
  have hb1 : (after_eos_bookkeeping s scancells.eos).m_eos = false := hb.1.trans heos
  have hfp := forward_primary_flags (after_eos_bookkeeping s scancells.eos) scancells
  have hsite : (!(forward_primary (after_eos_bookkeeping s scancells.eos)
        scancells).m_limits_reached && scancells.eos) = true →
      (forward_primary (after_eos_bookkeeping s scancells.eos) scancells).m_limits_reached =
          false ∧
        (forward_primary (after_eos_bookkeeping s scancells.eos) scancells).m_eos = false := by
    intro hg
    have hl : (forward_primary (after_eos_bookkeeping s scancells.eos)
        scancells).m_limits_reached = false := by
      cases hv : (forward_primary (after_eos_bookkeeping s scancells.eos)
        scancells).m_limits_reached
      · rfl
      · rw [hv] at hg
        exact absurd hg (by simp)
    exact ⟨hl, (hfp.2 hl).trans hb1⟩
  refine ⟨readahead_asserts, hsite, verify_results_asserts _ _ hb1, ?_⟩
  intro htable hfd hout
  rw [scan_ok_of_not_eos sizeof_KeySpec s table scancells heos]
  by_cases h1 : (scancells.eos == false && scancells.cells.isEmpty) = true
  · rw [if_pos h1]
    exact Outcome.noConfusion
  · rw [if_neg h1]
    have h2 : ¬ (scancells.eos && !decide (s.m_outstanding_scanners > 0)) = true := by
      intro h
      simp only [Bool.and_eq_true, Bool.not_eq_true', decide_eq_false_iff_not] at h
      exact h.2 (hout h.1)
    rw [if_neg h2]
    cases table with
    | index => exact absurd rfl htable
    | temporary =>
      refine andThen_asserts _ _ (verify_results_asserts _ _ hb1) (fun s3 h3 => ?_)
      exact final_decrement_asserts _ _ ((verify_results_flags _ _ _ h3).trans (hb.2.trans hfd))
    | primary =>
      have hf : (forward_primary (after_eos_bookkeeping s scancells.eos)
          scancells).m_final_decrement = false := hfp.1.trans (hb.2.trans hfd)
      by_cases hg : (!(forward_primary (after_eos_bookkeeping s scancells.eos)
          scancells).m_limits_reached && scancells.eos) = true
      · refine andThen_asserts _ _ ?_ (fun s3 h3 => ?_)
        · rw [if_pos hg]
          intro hr
          have hs := hsite hg
          rcases (readahead_asserts _).1 hr with h4 | h4
          · exact absurd (h4.symm.trans hs.1) (by decide)
          · exact absurd (h4.symm.trans hs.2) (by decide)
        · rw [if_pos hg] at h3
          exact final_decrement_asserts _ _ ((readahead_flags _ _ h3).trans hf)
      · refine andThen_asserts _ _ ?_ (fun s3 h3 => ?_)
        · rw [if_neg hg]
          exact Outcome.noConfusion
        · rw [if_neg hg] at h3
          cases h3
          exact final_decrement_asserts _ _ hf

/-- Witness of C24: the last batch of the only outstanding scanner, from the primary table, on a
coordinator that tracks `row_limit = 2`. -/
theorem C24_readahead_assertions_witness :
    (register_scanner (IndexScannerCallback ex_schema ex_row_limit_2 false)).m_eos = false ∧
      scan_ok 64 (register_scanner (IndexScannerCallback ex_schema ex_row_limit_2 false))
        TableKind.primary { cells := [ex_cell [97] 49], eos := true } ≠ Outcome.assert_failed :=
  ⟨rfl, (C24_readahead_assertions_hold 64
    (register_scanner (IndexScannerCallback ex_schema ex_row_limit_2 false)) TableKind.primary
    { cells := [ex_cell [97] 49], eos := true } rfl).2.2.2 (by decide) rfl (fun _ => by decide)⟩

/-! ## Scan specs without rows -/

/-- C23 (no scan spec without rows), evaluated.  With `a` as the persisted `last_row`, a batch
of the staging table that holds one cell of row `a` makes `verify_results` append a scan spec
that lists no row.  On the staging path, with no limit or offset: the staging scanner delivers
row `a` in a first batch and a further cell of row `a` in its last batch; the second spec lists
no row and is queued behind the spec for `a`, and the readahead started by that batch opens the
primary scanner for `a`.  When that scanner ends, `readahead` opens a scanner on the primary
table from the spec without rows: its scan spec has no row interval and no cell interval. -/
theorem C23_scanner_launched_from_spec_without_rows :
    (verify_results ex_staging_one_queued
        { cells := [ex_cell [97] 50], eos := false }).returned.map
      (fun s => s.m_sspecs.map ScanSpec.rows) = some [[[97]], []] ∧
    (run 64 (IndexScannerCallback ex_schema ScanSpecBuilder false)
        (ex_staging_run ++ ex_row_in_two_batches)).returned.map
      (fun s => (s.m_sspecs.map ScanSpec.rows,
        s.m_scanners.map (fun x => (x.table, x.spec.rows)))) =
      some ([[]], [(TableKind.temporary, []), (TableKind.primary, [[97]])]) ∧
    (run 64 (IndexScannerCallback ex_schema ScanSpecBuilder false)
        (ex_staging_run ++ (ex_row_in_two_batches ++
          [Callback.scan_ok TableKind.primary
            { cells := [ex_cell [97] 49, ex_cell [97] 50], eos := true }]))).returned.map
      (fun s => (s.m_sspecs,
        s.m_scanners.map (fun x => (x.table, x.spec.row_intervals, x.spec.cell_intervals)),
        s.m_outstanding_scanners, s.m_eos)) =
      some ([],
        [(TableKind.temporary, [], []),
          (TableKind.primary,
            [{ start := some [97], start_inclusive := true, end_ := some [97],
               end_inclusive := true }], []),
          (TableKind.primary, [], [])], 1, false) := by
  rw [run_ex_staging_run _ rfl rfl, run_ex_staging_run _ rfl rfl]
  exact ⟨rfl, rfl, rfl⟩

/-! ## The byte counter and the switch to the staging table -/

theorem cutoff_bytes_append (sizeof_KeySpec : Nat) (a b : List KeySpec) :
    cutoff_bytes sizeof_KeySpec (a ++ b) =
      cutoff_bytes sizeof_KeySpec a + cutoff_bytes sizeof_KeySpec b := by
  simp [cutoff_bytes]

theorem collect_loop_counter (sizeof_KeySpec : Nat) (s : State) (scancells : ScanCells) :
    (collect_loop sizeof_KeySpec s scancells).m_tmp_cutoff =
        s.m_tmp_cutoff + cutoff_bytes sizeof_KeySpec (entry_keys s scancells.cells) ∧
      (collect_loop sizeof_KeySpec s scancells).m_tmp_table = s.m_tmp_table ∧
      (collect_loop sizeof_KeySpec s scancells).m_mutator = s.m_mutator := by
  have hl := collect_loop_eq sizeof_KeySpec s scancells.cells
  by_cases hm : s.m_mutator = true
  · rw [if_pos hm] at hl
    unfold collect_loop
    rw [hl]
    simp only
    split_ifs <;> exact ⟨rfl, rfl, rfl⟩
  · rw [if_neg hm] at hl
    unfold collect_loop
    rw [hl]
    simp only
    split_ifs <;> exact ⟨rfl, rfl, rfl⟩

theorem final_decrement_counter (s s1 : State) (is_eos : Bool)
    (h : final_decrement s is_eos = Outcome.ok s1) :
    s1.m_tmp_cutoff = s.m_tmp_cutoff ∧ s1.m_tmp_table = s.m_tmp_table ∧
      s1.m_tmp_keys = s.m_tmp_keys := by
  unfold final_decrement at h
  by_cases hf : final_eos s is_eos = true
  · rw [if_pos hf] at h
    cases hfd : s.m_final_decrement
    · simp only [hfd, bne_self_eq_false, Bool.false_eq_true, if_false, Bool.not_false,
        if_true] at h
      cases h
      exact ⟨rfl, rfl, rfl⟩
    · simp [hfd] at h
  · rw [if_neg hf] at h
    cases h
    exact ⟨rfl, rfl, rfl⟩

theorem isSome_of_ne_none (t : Option (List Bytes)) (h : ¬ t.isSome = true) : t = none := by
  cases t with
  | none => rfl
  | some tab => exact absurd rfl h

theorem finish_more_counter (s2 s3 : State)
    (h : collect_indices_finish s2 false = Outcome.ok s3) :
    s3.m_tmp_cutoff = s2.m_tmp_cutoff ∧
      (s3.m_tmp_table.isSome = true ↔
        (s2.m_tmp_table.isSome = true ∨ s2.m_tmp_cutoff > TMP_CUTOFF)) ∧
      (s3.m_tmp_table.isSome = true → s3.m_tmp_keys = []) := by
  by_cases ht : s2.m_tmp_table.isSome = true
  · rw [finish_more_staging s2 ht] at h
    cases h
    exact ⟨rfl, ⟨fun _ => Or.inl ht, fun _ => ht⟩, fun _ => rfl⟩
  · have hn := isSome_of_ne_none _ ht
    by_cases hc : s2.m_tmp_cutoff > TMP_CUTOFF
    · cases hm : s2.m_mutator
      · rw [finish_switch s2 hn hm hc] at h
        cases h
        exact ⟨rfl, ⟨fun _ => Or.inr hc, fun _ => rfl⟩, fun _ => rfl⟩
      · rw [finish_more_assert s2 hn hm hc] at h
        cases h
    · rw [finish_more_quiet s2 hn hc] at h
      cases h
      refine ⟨rfl, ⟨fun h1 => Or.inl h1, fun h1 => ?_⟩, fun h1 => absurd h1 ht⟩
      rcases h1 with h1 | h1
      · exact h1
      · exact absurd h1 hc

theorem finish_eos_counter (s2 s3 : State)
    (h : collect_indices_finish s2 true = Outcome.ok s3) :
    s3.m_tmp_cutoff = s2.m_tmp_cutoff ∧ s3.m_tmp_table = s2.m_tmp_table := by
  by_cases ht : s2.m_tmp_table.isSome = true
  · cases hm : s2.m_mutator
    · rw [finish_eos_staging_closed s2 hm ht] at h
      cases h
      exact ⟨rfl, rfl⟩
    · rw [finish_eos_staging s2 hm ht] at h
      cases h
      exact ⟨rfl, rfl⟩
  · have hn := isSome_of_ne_none _ ht
    by_cases hk : s2.m_tmp_keys = []
    · cases hm : s2.m_mutator
      · rw [finish_eos_empty s2 hm hn hk] at h
        cases h
        exact ⟨rfl, rfl⟩
      · rw [finish_eos_empty_open s2 hm hn hk] at h
        cases h
        exact ⟨rfl, rfl⟩
    · cases hm : s2.m_mutator
      · obtain ⟨sp, e⟩ := finish_eos_primary s2 hm hn hk
        rw [e] at h
        cases h
        exact ⟨rfl, rfl⟩
      · obtain ⟨sp, e⟩ := finish_eos_primary_open s2 hm hn hk
        rw [e] at h
        cases h
        exact ⟨rfl, rfl⟩

theorem andThen_ok (o : Outcome) (f : State → Outcome) (s1 : State)
    (h : o.andThen f = Outcome.ok s1) : ∃ s2, o = Outcome.ok s2 ∧ f s2 = Outcome.ok s1 := by
  cases o with
  | ok s2 => exact ⟨s2, rfl, h⟩
  | assert_failed => cases h
  | blocked s2 => cases h

/-- A batch of the index table without end-of-stream: the counter grows by the bytes of the
surviving entries, and the switch rule is kept. -/
theorem scan_ok_switched (sizeof_KeySpec : Nat) (s s1 : State) (scancells : ScanCells)
    (he : s.m_eos = false) (hb : scancells.eos = false) (hs : SwitchRule s)
    (h : scan_ok sizeof_KeySpec s TableKind.index scancells = Outcome.ok s1) :
    s1.m_tmp_cutoff =
        s.m_tmp_cutoff + cutoff_bytes sizeof_KeySpec (entry_keys s scancells.cells) ∧
      SwitchRule s1 := by
  by_cases hc : scancells.cells = []
  · have e : scan_ok sizeof_KeySpec s TableKind.index scancells = Outcome.ok s := by
      unfold scan_ok
      simp [hb, hc]
    rw [e] at h
    cases h
    rw [hc]
    exact ⟨rfl, hs⟩
  · rw [scan_ok_more sizeof_KeySpec s TableKind.index scancells he hb hc] at h
    simp only at h
    obtain ⟨s3, e3, e4⟩ := andThen_ok _ _ _ h
    rw [collect_indices_eq, hb] at e3
    obtain ⟨c1, c2, c3⟩ := finish_more_counter _ _ e3
    obtain ⟨d1, d2, d3⟩ := final_decrement_counter _ _ _ e4
    obtain ⟨l1, l2, _⟩ := collect_loop_counter sizeof_KeySpec s scancells
    have hcut : s1.m_tmp_cutoff =
        s.m_tmp_cutoff + cutoff_bytes sizeof_KeySpec (entry_keys s scancells.cells) :=
      d1.trans (c1.trans l1)
    refine ⟨hcut, ⟨?_, ?_⟩, ?_⟩
    · intro h1
      rw [d2] at h1
      rcases c2.1 h1 with h2 | h2
      · rw [l2] at h2
        have := hs.1.1 h2
        omega
      · rw [d1, c1]
        exact h2
    · intro h1
      rw [d2]
      rw [d1, c1] at h1
      exact c2.2 (Or.inr h1)
    · intro h1
      rw [d2] at h1
      rw [d3]
      exact c3 h1

/-- The end-of-stream batch of the index table: the counter grows by the bytes of the surviving
entries, and the staging table is left as it was. -/
theorem scan_ok_index_eos_counter (sizeof_KeySpec : Nat) (s s1 : State)
    (scancells : ScanCells) (he : s.m_eos = false) (hb : scancells.eos = true)
    (h : scan_ok sizeof_KeySpec s TableKind.index scancells = Outcome.ok s1) :
    s1.m_tmp_cutoff =
        s.m_tmp_cutoff + cutoff_bytes sizeof_KeySpec (entry_keys s scancells.cells) ∧
      s1.m_tmp_table = s.m_tmp_table := by
  rw [scan_ok_of_not_eos _ _ _ _ he] at h
  rw [if_neg (by simp [hb])] at h
  by_cases ho : (scancells.eos && !decide (s.m_outstanding_scanners > 0)) = true
  · rw [if_pos ho] at h
    cases h
  · rw [if_neg ho] at h
    simp only at h
    obtain ⟨s3, e3, e4⟩ := andThen_ok _ _ _ h
    rw [collect_indices_eq, hb] at e3
    obtain ⟨c1, c2⟩ := finish_eos_counter _ _ e3
    obtain ⟨d1, d2, _⟩ := final_decrement_counter _ _ _ e4
    obtain ⟨l1, l2, _⟩ := collect_loop_counter sizeof_KeySpec
      (after_eos_bookkeeping s true) scancells
    have ha : after_eos_bookkeeping s true =
        { s with m_outstanding_scanners := s.m_outstanding_scanners - 1 } := rfl
    have hek : entry_keys (after_eos_bookkeeping s true) scancells.cells =
        entry_keys s scancells.cells := entry_keys_congr s _ _ rfl rfl
    rw [hek] at l1
    exact ⟨d1.trans (c1.trans l1), d2.trans (c2.trans l2)⟩

theorem run_switched (sizeof_KeySpec : Nat) (s0 : State) (batches : List ScanCells) :
    ∀ (s : State) (keys : List KeySpec), Collecting s0 s keys → SwitchRule s →
      s.m_tmp_cutoff = cutoff_bytes sizeof_KeySpec keys →
      (∀ b ∈ batches, b.eos = false) →
      ∃ s1, run sizeof_KeySpec s (batches.map (Callback.scan_ok TableKind.index)) =
          Outcome.ok s1 ∧
        Collecting s0 s1 (keys ++ surviving_keys s0 batches) ∧ SwitchRule s1 ∧
        s1.m_tmp_cutoff = cutoff_bytes sizeof_KeySpec (keys ++ surviving_keys s0 batches) := by
  induction batches with
  | nil =>
    intro s keys h hs hc _
    refine ⟨s, rfl, ?_⟩
    simp only [surviving_keys, List.map_nil, List.flatten_nil, List.append_nil]
    exact ⟨h, hs, hc⟩
  | cons b bs ih =>
    intro s keys h hs hc hb
    have hb0 := hb b (List.mem_cons_self _ _)
    obtain ⟨s1, e1, h1⟩ := scan_ok_collecting sizeof_KeySpec s0 s keys b h hb0
    obtain ⟨k1, k2⟩ := scan_ok_switched sizeof_KeySpec s s1 b h.1.2.2.1 hb0 hs e1
    have hek : entry_keys s b.cells = entry_keys s0 b.cells :=
      entry_keys_congr s0 s _ h.1.1 h.1.2.1
    have hc1 : s1.m_tmp_cutoff = cutoff_bytes sizeof_KeySpec (keys ++ entry_keys s0 b.cells) := by
      rw [k1, hc, hek, cutoff_bytes_append]
    obtain ⟨s2, e2, h2, h3, h4⟩ := ih s1 _ h1 k2 hc1
      (fun b' hb' => hb b' (List.mem_cons_of_mem _ hb'))
    refine ⟨s2, ?_, ?_⟩
    · rw [List.map_cons, run_scan_ok sizeof_KeySpec s s1 _ _ _ e1]
      exact e2
    · simp only [surviving_keys, List.map_cons, List.flatten_cons] at h2 h4 ⊢
      rw [← List.append_assoc]
      exact ⟨h2, h3, h4⟩

theorem collecting_start (schema : List ColumnFamily) (spec : ScanSpec) (qualifier_scan : Bool) :
    Collecting (IndexScannerCallback schema spec qualifier_scan)
      (register_scanner (IndexScannerCallback schema spec qualifier_scan)) [] := by
  refine ⟨⟨rfl, rfl, rfl, ?_, rfl, rfl⟩, Or.inl ⟨rfl, rfl, rfl, ?_, ?_⟩⟩
  · simp [register_scanner, IndexScannerCallback]
  · exact List.Pairwise.nil
  · exact same_rows_refl _

theorem switch_rule_start (schema : List ColumnFamily) (spec : ScanSpec)
    (qualifier_scan : Bool) :
    SwitchRule (register_scanner (IndexScannerCallback schema spec qualifier_scan)) := by
  refine ⟨⟨fun h => ?_, fun h => ?_⟩, fun h => rfl⟩
  · exact absurd h (by simp [register_scanner, IndexScannerCallback])
  · have h0 : (register_scanner (IndexScannerCallback schema spec
        qualifier_scan)).m_tmp_cutoff = 0 := rfl
    rw [h0] at h
    exact absurd h (by decide)

/-- C21 (switch rule), the claim as stated fails for the last batch of the index scanner.  One
index scanner is registered and delivers a single batch, with end-of-stream, that holds the
entry `1,v<TAB>a` 16200 times.  The callback returns with the byte counter at
`16200 * (1 + 64) = 1053000`, more than `TMP_CUTOFF`, and no staging table exists: the check
against `TMP_CUTOFF` is made for batches without end-of-stream only, and the one candidate is
fetched by a scanner on the primary table. -/
theorem C21_last_batch_exceeds_cutoff_without_staging :
    ∃ s, run 64 (IndexScannerCallback ex_schema ScanSpecBuilder false)
        [Callback.register_scanner,
          Callback.scan_ok TableKind.index ex_big_last_index_batch] = Outcome.ok s ∧
      s.m_tmp_cutoff = 1053000 ∧ s.m_tmp_cutoff > TMP_CUTOFF ∧ s.m_tmp_table = none ∧
      ∃ sp : ScanSpec, s.m_scanners = [{ table := TableKind.primary, spec := sp }] := by
  have h0 := collecting_start ex_schema ScanSpecBuilder false
  obtain ⟨s1, e1, h1⟩ := scan_ok_handed_over 64 _ _ _ ex_big_last_index_batch h0 rfl
  obtain ⟨c1, c2⟩ := scan_ok_index_eos_counter 64 _ s1 ex_big_last_index_batch rfl rfl e1
  have hk : entry_keys (IndexScannerCallback ex_schema ScanSpecBuilder false)
      ex_big_last_index_batch.cells = List.replicate 16200 ex_key_a :=
    entry_keys_replicate _ 16200 _ _ (entry_key_ex _ rfl rfl)
  have hk1 : entry_keys (register_scanner (IndexScannerCallback ex_schema ScanSpecBuilder false))
      ex_big_last_index_batch.cells = List.replicate 16200 ex_key_a :=
    (entry_keys_congr _ _ _ rfl rfl).trans hk
  have hcut : s1.m_tmp_cutoff = 1053000 := by
    rw [c1, hk1, cutoff_bytes_replicate]
    rfl
  have hnone : s1.m_tmp_table = none := c2
  have hne : [] ++ entry_keys (IndexScannerCallback ex_schema ScanSpecBuilder false)
      ex_big_last_index_batch.cells ≠ [] := by
    rw [hk]
    exact List.cons_ne_nil _ _
  obtain ⟨sp, hsp, _⟩ := (h1.1 hnone).2 hne
  refine ⟨s1, ?_, hcut, ?_, hnone, sp, hsp⟩
  · rw [run_register, run_scan_ok 64 _ s1 _ _ _ e1]
    rfl
  · rw [hcut]
    decide

/-- C21 (switch rule), amended.  One index scanner is registered and delivers any batches
without the end-of-stream flag.  Every callback returns, and in the state reached: the byte
counter is the sum of `row_len + sizeof(KeySpec)` over the surviving index entries of the
batches, duplicates included; the staging table exists if and only if the counter exceeds
`TMP_CUTOFF`; where it exists its mutator is open, the in-memory set is empty and the row keys
written to the mutator are those of the surviving entries; where it does not exist nothing has
been written and the in-memory set holds the row keys of the surviving entries.  The
end-of-stream batch of the scanner returns as well and grows the counter in the same way, but
the check against `TMP_CUTOFF` is not made for it: the staging table is left as the batches
before left it. -/
theorem C21_switch_rule (sizeof_KeySpec : Nat) (schema : List ColumnFamily) (spec : ScanSpec)
    (qualifier_scan : Bool) (batches : List ScanCells) (last : ScanCells)
    (hb : ∀ b ∈ batches, b.eos = false) (hl : last.eos = true) :
    ∃ s, run sizeof_KeySpec (IndexScannerCallback schema spec qualifier_scan)
        (Callback.register_scanner :: batches.map (Callback.scan_ok TableKind.index)) =
          Outcome.ok s ∧
      s.m_tmp_cutoff = cutoff_bytes sizeof_KeySpec
        (surviving_keys (IndexScannerCallback schema spec qualifier_scan) batches) ∧
      (s.m_tmp_table.isSome = true ↔ s.m_tmp_cutoff > TMP_CUTOFF) ∧
      (s.m_tmp_table.isSome = true →
        s.m_mutator = true ∧ s.m_tmp_keys = [] ∧
          same_rows s.staged
            (surviving_keys (IndexScannerCallback schema spec qualifier_scan) batches)) ∧
      (s.m_tmp_table = none →
        s.staged = [] ∧
          same_rows s.m_tmp_keys
            (surviving_keys (IndexScannerCallback schema spec qualifier_scan) batches)) ∧
      ∃ s1, scan_ok sizeof_KeySpec s TableKind.index last = Outcome.ok s1 ∧
        s1.m_tmp_cutoff = cutoff_bytes sizeof_KeySpec
          (surviving_keys (IndexScannerCallback schema spec qualifier_scan)
            (batches ++ [last])) ∧
        s1.m_tmp_table = s.m_tmp_table := by
  have h0 := collecting_start schema spec qualifier_scan
  obtain ⟨s, e, h1, h2, h3⟩ := run_switched sizeof_KeySpec _ batches _ _ h0
    (switch_rule_start schema spec qualifier_scan) rfl hb
  rw [List.nil_append] at h1 h3
  obtain ⟨s1, e1, _⟩ := scan_ok_handed_over sizeof_KeySpec _ s _ last h1 hl
  obtain ⟨c1, c2⟩ := scan_ok_index_eos_counter sizeof_KeySpec s s1 last h1.1.2.2.1 hl e1
  have hek : entry_keys s last.cells =
      entry_keys (IndexScannerCallback schema spec qualifier_scan) last.cells :=
    entry_keys_congr _ s _ h1.1.1 h1.1.2.1
  refine ⟨s, ?_, h3, h2.1, ?_, ?_, s1, e1, ?_, c2⟩
  · rw [run_register]
    exact e
  · intro ht
    rcases h1.2 with ⟨m1, _⟩ | ⟨_, m2, m3⟩
    · rw [m1] at ht
      exact absurd ht (by decide)
    · exact ⟨m2, h2.2 ht, m3⟩
  · intro ht
    rcases h1.2 with ⟨_, _, m3, _, m5⟩ | ⟨m1, _⟩
    · exact ⟨m3, m5⟩
    · rw [ht] at m1
      exact absurd m1 (by decide)
  · rw [c1, h3, hek, ← cutoff_bytes_append]
    simp [surviving_keys]

/-- Witness of C21: the big batch, whose 16200 entries bring the counter over `TMP_CUTOFF`,
then the end-of-stream batch with the entry of row `a` once more. -/
theorem C21_switch_rule_witness :
    ((∀ b ∈ [ex_big_index_batch], b.eos = false) ∧ ex_last_index_batch.eos = true) ∧
    ∃ s, run 64 (IndexScannerCallback ex_schema ScanSpecBuilder false)
        (Callback.register_scanner ::
          [ex_big_index_batch].map (Callback.scan_ok TableKind.index)) = Outcome.ok s ∧
      s.m_tmp_cutoff = cutoff_bytes 64
        (surviving_keys (IndexScannerCallback ex_schema ScanSpecBuilder false)
          [ex_big_index_batch]) ∧
      (s.m_tmp_table.isSome = true ↔ s.m_tmp_cutoff > TMP_CUTOFF) ∧
      (s.m_tmp_table.isSome = true →
        s.m_mutator = true ∧ s.m_tmp_keys = [] ∧
          same_rows s.staged
            (surviving_keys (IndexScannerCallback ex_schema ScanSpecBuilder false)
              [ex_big_index_batch])) ∧
      (s.m_tmp_table = none →
        s.staged = [] ∧
          same_rows s.m_tmp_keys
            (surviving_keys (IndexScannerCallback ex_schema ScanSpecBuilder false)
              [ex_big_index_batch])) ∧
      ∃ s1, scan_ok 64 s TableKind.index ex_last_index_batch = Outcome.ok s1 ∧
        s1.m_tmp_cutoff = cutoff_bytes 64
          (surviving_keys (IndexScannerCallback ex_schema ScanSpecBuilder false)
            ([ex_big_index_batch] ++ [ex_last_index_batch])) ∧
        s1.m_tmp_table = s.m_tmp_table :=
  ⟨⟨by decide, rfl⟩,
    C21_switch_rule 64 ex_schema ScanSpecBuilder false [ex_big_index_batch] ex_last_index_batch
      (by decide) rfl⟩

end Hypertable
